import Mathlib

/-! CopyQ: command parser, action runner, server and scripting proxy

A shallow embedding of the command mini-language parser `parseCommands` and of
`Action::command` (src/common/action.cpp), of the slots of `Action` that run a
plan, of the registry of actions and the environment of the processes, of the
connection count of `Server` (src/common/server.cpp) and of the methods
`renameTab`, `browserRemoveRows` and `inputDialog` of `ScriptableProxyHelper`
(src/scriptable/scriptableproxy.cpp), followed by theorems about them.

A `QString` is modelled as a list of characters, a `QStringList` as a list of
strings, and the parser result `QList< QList<QStringList> >` as a list of
lines, each a list of stages, each a list of argument tokens.
-/

namespace CopyQ

abbrev QString := List Char
abbrev QStringList := List QString
abbrev Plan := List (List QStringList)

/-- The character test `QChar::isSpace` of the Qt library (Qt 5): the ASCII
controls U+0009..U+000D, the space, U+0085, U+00A0 and the Unicode separator
categories Zs, Zl and Zp. -/
def isSpace (c : Char) : Bool :=
  let u := c.toNat
  u == 0x20 || (0x09 ≤ u && u ≤ 0x0d) || u == 0x85 || u == 0xa0 || u == 0x1680
    || (0x2000 ≤ u && u ≤ 0x200a) || u == 0x2028 || u == 0x2029 || u == 0x202f
    || u == 0x205f || u == 0x3000

/-- The library call `QChar::digitValue`, on the ASCII digits: the numeric
value of a digit and -1 for any other character. -/
def digitValue (c : Char) : Int :=
  if 48 ≤ c.toNat ∧ c.toNat ≤ 57 then (c.toNat : Int) - 48 else -1

/-- The library call `QList::value(i)`: the element at index `i`, or a default
constructed (empty) string when `i` is out of bounds. -/
def value (l : QStringList) (i : Int) : QString :=
  if i < 0 then [] else l.getD i.toNat []

/-- The library call `QString::resize(size() - 1)`: drops the last UTF-16 code
unit; a negative size is clamped to zero, so the empty string stays empty.
For a string that is empty or ends in a character of the Basic Multilingual
Plane, which is one code unit, that is the string without its last character.
For a string that ends in a character outside that plane the code keeps the
high surrogate of the character, a half character that no string of this model
holds: there the value given here, the string without the whole character, is
not what the code has (see `cutsCharacter`). -/
def chopLast (s : QString) : QString := s.dropLast

/-- The null character `QChar()`. -/
def nullChar : Char := Char.ofNat 0

/-- The library call `QChar::isNull`. -/
def isNull (c : Char) : Bool := c.toNat == 0

/-- The backslash character. -/
def backslash : Char := Char.ofNat 92

/-- The single quote character. -/
def squote : Char := Char.ofNat 39

/-- The double quote character. -/
def dquote : Char := Char.ofNat 34

/-- The template `appendAndClearNonEmpty(entry, container)`: a non-empty entry
is appended to the container and cleared; the pair returned is the entry and
the container afterwards. -/
def appendAndClearNonEmpty {α : Type} (entry : List α) (container : List (List α)) :
    List α × List (List α) :=
  if entry.isEmpty then (entry, container) else ([], container ++ [entry])

/-- The function `getScriptFromLabel(label, cmd, &script)`: when `cmd` (the text
from the current position on) starts with `label`, the script is the text
after the label; `none` stands for the return value false, which leaves the
script untouched. -/
def getScriptFromLabel (label : QString) (cmd : QString) : Option QString :=
  if label.isPrefixOf cmd then some (cmd.drop label.length) else none

/-- The local variables of `parseCommands`. -/
structure PState where
  lines : Plan
  commands : List QStringList
  command : QStringList
  script : QString
  arg : QString
  quote : Char
  escape : Bool
  percent : Bool
  deriving DecidableEq, Repr

/-- The state of the locals on entry to the loop. -/
def PState.init : PState :=
  { lines := [], commands := [], command := [], script := [], arg := [],
    quote := nullChar, escape := false, percent := false }

/-- How one iteration of the loop body ends: by falling through to the next
iteration (also on `continue`), by `break`, or by `return lines`. -/
inductive Step where
  | cont (st : PState)
  | brk (st : PState)
  | ret (lines : Plan)
  deriving DecidableEq, Repr

/-- The chain of label tests at the start of a stage: the first label that the
remaining text `cm` starts with pushes its interpreter tokens and the script
onto `command` and sets `script`. -/
def applyLabel (cm : QString) (command : QStringList) (script : QString) :
    QStringList × QString :=
  match getScriptFromLabel "copyq:".toList cm with
  | some s => (command ++ ["copyq".toList, "eval".toList, "--".toList, s], s)
  | none =>
  match getScriptFromLabel "sh:".toList cm with
  | some s => (command ++ ["sh".toList, "-c".toList, "--".toList, s, "--".toList], s)
  | none =>
  match getScriptFromLabel "bash:".toList cm with
  | some s => (command ++ ["bash".toList, "-c".toList, "--".toList, s, "--".toList], s)
  | none =>
  match getScriptFromLabel "perl:".toList cm with
  | some s => (command ++ ["perl".toList, "-e".toList, s, "--".toList], s)
  | none =>
  match getScriptFromLabel "python:".toList cm with
  | some s => (command ++ ["python".toList, "-c".toList, s], s)
  | none =>
  match getScriptFromLabel "ruby:".toList cm with
  | some s => (command ++ ["ruby".toList, "-e".toList, s, "--".toList], s)
  | none => (command, script)

/-- One iteration of the loop of `parseCommands` at character `c = cmd[i]`, with
`rest` the text after position `i` (so `cmd.midRef(i)` is `c :: rest`,
`cmd[i+1]` is the head of `rest` and `cmd.mid(i+2)` is `rest` without its
head). The test `c >= '1' && c <= '9'` compares code points: 49 to 57. -/
def step (caps : QStringList) (c : Char) (rest : QString) (st : PState) : Step :=
  if st.percent && (49 ≤ c.toNat && c.toNat ≤ 57) then
    .cont { st with arg := chopLast st.arg ++ value caps (digitValue c - 1) }
  else
    let st1 := { st with percent := !st.escape && c == '%' }
    if st1.escape then
      let st2 := { st1 with escape := false }
      if c == 'n' then .cont { st2 with arg := st2.arg ++ ['\n'] }
      else if c == 't' then .cont { st2 with arg := st2.arg ++ ['\t'] }
      else if c == '\n' then .cont st2
      else .cont { st2 with arg := st2.arg ++ [c] }
    else if c == backslash then .cont { st1 with escape := true }
    else if !isNull st1.quote then
      if st1.quote == c then
        .cont { st1 with quote := nullChar, command := st1.command ++ [st1.arg], arg := [] }
      else .cont { st1 with arg := st1.arg ++ [c] }
    else if c == squote || c == dquote then .cont { st1 with quote := c }
    else if c == '|' then
      let ac := appendAndClearNonEmpty st1.arg st1.command
      let cc := appendAndClearNonEmpty ac.2 st1.commands
      .cont { st1 with arg := ac.1, command := cc.1, commands := cc.2 }
    else if c == '\n' || c == ';' then
      let ac := appendAndClearNonEmpty st1.arg st1.command
      let cc := appendAndClearNonEmpty ac.2 st1.commands
      let cl := appendAndClearNonEmpty cc.2 st1.lines
      .cont { st1 with arg := ac.1, command := cc.1, commands := cl.1, lines := cl.2 }
    else if isSpace c then
      if !st1.arg.isEmpty then
        .cont { st1 with command := st1.command ++ [st1.arg], arg := [] }
      else .cont st1
    else if c == ':' && rest.head? == some '\n' then
      let ac := appendAndClearNonEmpty st1.arg st1.command
      .brk { st1 with command := ac.2, arg := rest.drop 1 }
    else
      if st1.arg.isEmpty && st1.command.isEmpty then
        let ls := applyLabel (c :: rest) st1.command st1.script
        if !ls.2.isEmpty then
          .ret (st1.lines ++ [st1.commands ++ [ls.1 ++ caps.drop 1]])
        else .cont { st1 with command := ls.1, script := ls.2, arg := st1.arg ++ [c] }
      else .cont { st1 with arg := st1.arg ++ [c] }

/-- The three flushes after the loop of `parseCommands` and its result. -/
def flush (st : PState) : Plan :=
  let ac := appendAndClearNonEmpty st.arg st.command
  let cc := appendAndClearNonEmpty ac.2 st.commands
  let cl := appendAndClearNonEmpty cc.2 st.lines
  cl.2

/-- The loop of `parseCommands` over the text still to scan, then the flushes. -/
def parseLoop (caps : QStringList) : QString → PState → Plan
  | [], st => flush st
  | c :: rest, st =>
    match step caps c rest st with
    | .cont st1 => parseLoop caps rest st1
    | .brk st1 => flush st1
    | .ret lines => lines

/-- The function `parseCommands(cmd, capturedTexts)`. -/
def parseCommands (cmd : QString) (capturedTexts : QStringList) : Plan :=
  parseLoop capturedTexts cmd PState.init

/-- The library call `QString::trimmed`: whitespace removed from both ends. -/
def trimmed (s : QString) : QString :=
  ((s.dropWhile isSpace).reverse.dropWhile isSpace).reverse

/-- The library call `QStringList::join(sep)`. -/
def join (l : QStringList) (sep : QString) : QString := List.intercalate sep l

/-- The body of the inner loop of `Action::command()`: a `|` when the text so
far is not empty, then the arguments of the stage joined with spaces. -/
def commandStage (text : QString) (args : QStringList) : QString :=
  (if !text.isEmpty then text ++ ['|'] else text) ++ join args " ".toList

/-- The body of the outer loop of `Action::command()`: the stages of the line,
then a newline. -/
def commandLine (text : QString) (line : List QStringList) : QString :=
  line.foldl commandStage text ++ ['\n']

/-- The method `Action::command()` over the plan `m_cmds`. -/
def Action.command (m_cmds : Plan) : QString :=
  trimmed (m_cmds.foldl commandLine [])

/-- A plan without an empty line and without an empty stage. -/
def GoodPlan (p : Plan) : Prop :=
  ∀ line ∈ p, line ≠ [] ∧ ∀ stage ∈ line, stage ≠ []

/-- The loop invariant behind `GoodPlan`: the finished lines are good, no
finished stage of the current line is empty, and `script` is still empty. -/
def PState.Inv (st : PState) : Prop :=
  GoodPlan st.lines ∧ (∀ stage ∈ st.commands, stage ≠ []) ∧ st.script = []

/-- ASCII letters and digits. -/
def isAlnum (c : Char) : Bool :=
  let u := c.toNat
  (48 ≤ u && u ≤ 57) || (65 ≤ u && u ≤ 90) || (97 ≤ u && u ≤ 122)

/-- A plain word: a non-empty string of ASCII letters and digits. -/
def PlainWord (w : QString) : Prop := w ≠ [] ∧ ∀ c ∈ w, isAlnum c = true

/-- A character that the scanner, outside quotes and escapes, appends to the
current argument unless it completes `:` + newline or starts a label: not a
backslash, quote, `|`, newline, `;`, `%` or white space. -/
def isOrdinary (c : Char) : Bool :=
  c != backslash && c != squote && c != dquote && c != '|' && c != '\n' && c != ';'
    && c != '%' && !isSpace c

/-- The state between tokens of an unquoted, unescaped scan: `script` empty,
no open quote, no pending escape or percent. -/
def PState.plain (lines : Plan) (commands : List QStringList) (command : QStringList)
    (arg : QString) : PState :=
  { lines := lines, commands := commands, command := command, script := [], arg := arg,
    quote := nullChar, escape := false, percent := false }

/-- The text that a backslash followed by `c` adds to the current argument, as
the specification words it: `\\n` is a newline, `\\t` a tab, an escaped newline
is elided and any other character stands for itself. -/
def escapedText (c : Char) : QString :=
  if c = 'n' then ['\n'] else if c = 't' then ['\t'] else if c = '\n' then [] else [c]

/-- A run of blanks: spaces and tabs only. -/
def Blanks (b : QString) : Prop := ∀ c ∈ b, c = ' ' ∨ c = '\t'

/-- The source text of one pipeline stage: optional blanks, a first word,
further words each preceded by a separator, optional blanks. -/
structure StageSrc where
  lead : QString
  first : QString
  more : List (QString × QString)
  trail : QString

/-- The text of the words after the first: each separator followed by its word. -/
def moreText : List (QString × QString) → QString
  | [] => []
  | p :: r => p.1 ++ p.2 ++ moreText r

/-- The text of a stage. -/
def StageSrc.text (s : StageSrc) : QString :=
  s.lead ++ s.first ++ moreText s.more ++ s.trail

/-- The words of a stage, in order. -/
def StageSrc.words (s : StageSrc) : QStringList :=
  s.first :: s.more.map Prod.snd

/-- A well-formed stage source: plain words, joined by one or more spaces or
tabs, with optional spaces or tabs at both ends. -/
def StageSrc.WF (s : StageSrc) : Prop :=
  Blanks s.lead ∧ PlainWord s.first ∧
    (∀ p ∈ s.more, p.1 ≠ [] ∧ Blanks p.1 ∧ PlainWord p.2) ∧ Blanks s.trail

/-- The text of a line: the stage texts joined with `|`. -/
def pipelineText : List StageSrc → QString
  | [] => []
  | [s] => s.text
  | s :: t :: r => s.text ++ '|' :: pipelineText (t :: r)

/-- The state `st` with the lines `P` put before its finished lines. -/
def PState.prepend (P : Plan) (st : PState) : PState :=
  { st with lines := P ++ st.lines }

/-- The outcome of an iteration with the lines `P` put before its lines. -/
def Step.prepend (P : Plan) : Step → Step
  | .cont st => .cont (st.prepend P)
  | .brk st => .brk (st.prepend P)
  | .ret lines => .ret (P ++ lines)

/-- A state outside quotes and escapes whose `script` is empty. -/
def PState.Open (st : PState) : Prop :=
  st.quote = nullChar ∧ st.escape = false ∧ st.script = []

/-- The six label words: a script label is one of them followed by a colon. -/
def labelWords : QStringList :=
  ["copyq".toList, "sh".toList, "bash".toList, "perl".toList, "python".toList, "ruby".toList]

/-- Words after the first, each preceded by a single space. -/
def spaced (ws : QStringList) : List (QString × QString) :=
  ws.map (fun w => ([' '], w))

/-- A non-empty word of ordinary characters without a colon. -/
def OrdWord (w : QString) : Prop := w ≠ [] ∧ ∀ c ∈ w, isOrdinary c = true ∧ c ≠ ':'

/-- A character that is not white space, a quote, a backslash, `%`, `|`, `;`
or `:`. -/
def cleanChar (c : Char) : Bool :=
  !isSpace c && c != squote && c != dquote && c != backslash && c != '%' && c != '|'
    && c != ';' && c != ':'

/-- A token that is non-empty and made of clean characters. -/
def CleanToken (t : QString) : Prop := t ≠ [] ∧ ∀ c ∈ t, cleanChar c = true

instance (t : QString) : Decidable (CleanToken t) := by
  unfold CleanToken; infer_instance

/-- A character that opens no quote, escape, substitution or label. -/
def isTame (c : Char) : Bool :=
  c != squote && c != dquote && c != backslash && c != ':' && c != '%'

/-- Scanning the text `T` from the initial state leads to the state `S`,
whatever colon-free text follows. -/
def Reach (caps : QStringList) (T : QString) (S : PState) : Prop :=
  ∀ rest, ':' ∉ rest → parseLoop caps (T ++ rest) PState.init = parseLoop caps rest S

/-- No script label starts the text `t`. -/
def NoLabel (t : QString) : Prop :=
  ∀ command script, applyLabel t command script = (command, script)

/-- What may follow a word without turning its start into a label: the end of
the text or a character that is neither a letter, a digit nor a colon. -/
def EndsWord (rest : QString) : Prop :=
  ∀ c, rest.head? = some c → isAlnum c = false ∧ c ≠ ':'

/-- The state inside a line of the text of `Action::command`: the text so far
is tame and leads to a plain state that holds the stages `D` done so far in
this line, after the finished lines `L`. -/
def StageInv (caps : QStringList) (T : QString) (L : Plan) (D : List QStringList) : Prop :=
  (∀ c ∈ T, isTame c = true) ∧
  ∃ (CS : List QStringList) (C : QStringList) (a : QString),
    (appendAndClearNonEmpty (appendAndClearNonEmpty a C).2 CS).2 = D ∧
    Reach caps T (PState.plain L CS C a) ∧ (T = [] → CS = [] ∧ C = [] ∧ a = [])

/-- The state between lines of the text of `Action::command`. -/
def LineInv (caps : QStringList) (T : QString) (L : Plan) : Prop :=
  (∀ c ∈ T, isTame c = true) ∧ Reach caps T (PState.plain L [] [] [])

/-- Whether the iteration at `c` from the state `st` cuts a character in two:
the substitution branch is taken, so `arg.resize(arg.size() - 1)` runs, and
the last character of `arg` lies outside the Basic Multilingual Plane. The
code then keeps the high surrogate of that character in `arg`, which is not a
string of this model. -/
def cutsCharacter (c : Char) (st : PState) : Bool :=
  st.percent && (49 ≤ c.toNat && c.toNat ≤ 57) &&
    (match st.arg.getLast? with
     | some l => decide (0x10000 ≤ l.toNat)
     | none => false)

/-- The part of the loop of `parseCommands` over the prefix `pre` of the text
`pre ++ rest`: the state before the first character of `rest`, or `none` when
the loop ends inside `pre` by `break` or `return`, or when an iteration cuts a
character in two, after which the state of the code is none of this model. -/
def scanPrefix (caps : QStringList) : QString → QString → PState → Option PState
  | [], _, st => some st
  | c :: pre, rest, st =>
    if cutsCharacter c st then none
    else
      match step caps c (pre ++ rest) st with
      | .cont st1 => scanPrefix caps pre rest st1
      | .brk _ => none
      | .ret _ => none

/-- The script labels with the stage each makes of its script. -/
def scriptLabels : List (QString × (QString → QStringList)) :=
  [("copyq:".toList, fun s => ["copyq".toList, "eval".toList, "--".toList, s]),
   ("sh:".toList, fun s => ["sh".toList, "-c".toList, "--".toList, s, "--".toList]),
   ("bash:".toList, fun s => ["bash".toList, "-c".toList, "--".toList, s, "--".toList]),
   ("perl:".toList, fun s => ["perl".toList, "-e".toList, s, "--".toList]),
   ("python:".toList, fun s => ["python".toList, "-c".toList, s]),
   ("ruby:".toList, fun s => ["ruby".toList, "-e".toList, s, "--".toList])]

/-! ### The runner `Action` -/

/-- A `QByteArray`: `none` is the null byte array. -/
abbrev QByteArray := Option (List UInt8)

/-- The library call `QByteArray::isNull`. -/
def byteArrayIsNull (b : QByteArray) : Bool := b.isNone

/-- The library call `QByteArray::isEmpty`: true for the null and for the empty array. -/
def byteArrayIsEmpty (b : QByteArray) : Bool := (b.getD []).isEmpty

/-- The library call `QByteArray::append(ba)`: an array without data becomes
`ba`, appending an array without data changes nothing. -/
def byteArrayAppend : QByteArray → QByteArray → QByteArray
  | none, ba => ba
  | some x, none => some x
  | some x, some y => some (x ++ y)

/-- The pieces of `text` between the occurrences of the non-empty separator
`sep`, found from left to right without overlap; `skip` counts the characters
of a found separator still to pass, `cur` is the piece being read. -/
def splitGo (sep : QString) : QString → Nat → QString → QStringList
  | [], _, cur => [cur]
  | _ :: t, skip + 1, cur => splitGo sep t skip cur
  | c :: t, 0, cur =>
    if sep.isPrefixOf (c :: t) then cur :: splitGo sep t (sep.length - 1) []
    else splitGo sep t 0 (cur ++ [c])

/-- The library call `QString::split(sep)` (empty parts kept): the pieces
between the occurrences of `sep`; with an empty `sep`, an empty string, every
character, and an empty string. -/
def split (text sep : QString) : QStringList :=
  if sep.isEmpty then [] :: text.map (fun c => [c]) ++ [[]] else splitGo sep text 0 []

/-- What the runner needs from outside this file: the path of the running
application (`QCoreApplication::applicationFilePath`), the constant
`mimeText` of common/mimetypes.h and the decoder `QString::fromUtf8`. -/
structure Env where
  applicationFilePath : QString
  mimeText : QString
  fromUtf8 : List UInt8 → QString

/-- A process object: the action itself (`this`) or the n-th object made by
`new QProcess(this)`. -/
inductive ProcRef where
  | self
  | child (n : Nat)
  deriving DecidableEq, Repr

/-- The destination of new items: the model index `m_index` or the tab `m_tab`. -/
inductive Dest where
  | index
  | tab (name : QString)
  deriving DecidableEq, Repr

/-- The state `QProcess::state()` of a process. -/
inductive ProcessState where
  | NotRunning
  | Starting
  | Running
  deriving DecidableEq, Repr

/-- What the runner does to the outside: the signals it emits and the calls
it makes on process objects. -/
inductive Effect where
  | actionFinished
  | actionStarted
  | newItems (items : QStringList) (dest : Dest)
  | newItem (data : QByteArray) (format : QString) (dest : Dest)
  | setStandardOutputProcess (src dst : ProcRef)
  | start (process : ProcRef) (executable : QString) (arguments : QStringList)
  | closeReadChannel
  | write (process : ProcRef) (data : QByteArray)
  | closeWriteChannel (process : ProcRef)
  deriving DecidableEq, Repr

/-- The members of `Action` that its slots read and write; `m_indexValid` is
`m_index.isValid()` and `children` counts the objects made by
`new QProcess(this)`. -/
structure Action where
  m_cmds : Plan
  m_input : QByteArray
  m_outputFormat : QString
  m_sep : QString
  m_tab : QString
  m_indexValid : Bool
  m_failed : Bool
  m_firstProcess : Option ProcRef
  m_currentLine : Int
  m_lastOutput : QString
  m_outputData : QByteArray
  m_items : QStringList
  children : Nat
  deriving DecidableEq, Repr

/-- The action after its constructor (`m_failed(false)`, `m_firstProcess(NULL)`,
`m_currentLine(-1)`, the other members empty) and after the setters have
given it a plan, an input, an output format, a separator and a destination. -/
def Action.configured (cmds : Plan) (input : QByteArray) (outputFormat sep tab : QString)
    (indexValid : Bool) : Action :=
  { m_cmds := cmds, m_input := input, m_outputFormat := outputFormat, m_sep := sep,
    m_tab := tab, m_indexValid := indexValid, m_failed := false, m_firstProcess := none,
    m_currentLine := -1, m_lastOutput := [], m_outputData := none, m_items := [],
    children := 0 }

/-- The method `Action::hasTextOutput`. -/
def hasTextOutput (env : Env) (a : Action) : Bool :=
  !a.m_outputFormat.isEmpty && a.m_outputFormat == env.mimeText

/-- The method `Action::canEmitNewItems`. -/
def canEmitNewItems (env : Env) (a : Action) : Bool :=
  (a.m_indexValid || !a.m_tab.isEmpty)
    && ((!a.m_outputFormat.isEmpty && !byteArrayIsNull a.m_outputData)
        || (a.m_outputFormat == env.mimeText && !a.m_lastOutput.isEmpty))

/-- The function `startProcess(process, args)`. -/
def startProcess (env : Env) (process : ProcRef) (args : QStringList) : Effect :=
  let executable := args.headD []
  let executable1 := if executable == "copyq".toList then env.applicationFilePath else executable
  .start process executable1 (args.drop 1)

/-- The loop of `Action::start` over all stages but the last, with `cmds` the
stages from index `i` on, `lastProcess` the process that runs stage `i` and `n`
the count of process objects made so far; `none` is a failed `Q_ASSERT`. -/
def startPipe (env : Env) : List QStringList → ProcRef → Nat → Option (List Effect × Nat)
  | args :: next :: rest, lastProcess, n =>
    if args.isEmpty then none
    else
      let pn : ProcRef × Nat := if rest.isEmpty then (.self, n) else (.child n, n + 1)
      match startPipe env (next :: rest) pn.1 pn.2 with
      | none => none
      | some r =>
        some (.setStandardOutputProcess lastProcess pn.1 :: startProcess env lastProcess args
          :: r.1, r.2)
  | _, _, n => some ([], n)

/-- The part of the slot `Action::start` after `cmds = m_cmds[m_currentLine]`:
the processes of the line `cmds` are made, wired and started; `none` is a
failed `Q_ASSERT`. -/
def Action.realize (env : Env) (a1 : Action) (cmds : List QStringList) :
    Option (Action × List Effect) :=
  if cmds.isEmpty then none
  else
    let r : Option (Action × List Effect) :=
      if cmds.length > 1 then
        match startPipe env cmds (.child a1.children) (a1.children + 1) with
        | none => none
        | some en =>
          some ({ a1 with m_firstProcess := some (.child a1.children),
                          children := en.2 }, en.1)
      else some ({ a1 with m_firstProcess := some .self }, [])
    match r with
    | none => none
    | some ae =>
      let close : List Effect :=
        if ae.1.m_outputFormat.isEmpty then [.closeReadChannel] else []
      some (ae.1, ae.2 ++ close ++ [startProcess env .self (cmds.getLastD [])])

/-- The slot `Action::start`; `none` is a failed `Q_ASSERT` or an index out of
the bounds of `m_cmds`. -/
def Action.start (env : Env) (a : Action) : Option (Action × List Effect) :=
  if a.m_currentLine + 1 ≥ a.m_cmds.length then some (a, [.actionFinished])
  else
    let a1 := { a with m_currentLine := a.m_currentLine + 1 }
    if a1.m_currentLine < 0 then none
    else
      match a1.m_cmds[a1.m_currentLine.toNat]? with
      | none => none
      | some cmds => a1.realize env cmds

/-- The slot `Action::actionError(error)`, with `state` the value of `state()`. -/
def Action.actionError (a : Action) (state : ProcessState) : Action × List Effect :=
  if state != .Running then ({ a with m_failed := true }, [.actionFinished]) else (a, [])

/-- The slot `Action::actionStarted`. -/
def Action.actionStarted (a : Action) : Action × List Effect :=
  match a.m_firstProcess with
  | none => (a, [])
  | some p =>
    let w : List Effect := if !byteArrayIsEmpty a.m_input then [.write p a.m_input] else []
    ({ a with m_firstProcess := none }, w ++ [.closeWriteChannel p, .actionStarted])

/-- The slot `Action::actionOutput`, with `readAll` the bytes that `readAll()`
returns when it is called. -/
def Action.actionOutput (env : Env) (a : Action) (readAll : QByteArray) :
    Action × List Effect :=
  if hasTextOutput env a then
    let a1 := { a with m_lastOutput := a.m_lastOutput ++ env.fromUtf8 (readAll.getD []) }
    if !a1.m_lastOutput.isEmpty && !a1.m_sep.isEmpty then
      let items := split a1.m_lastOutput a1.m_sep
      let a2 := { a1 with m_lastOutput := items.getLastD [] }
      if a2.m_indexValid then (a2, [.newItems items.dropLast .index])
      else if !a2.m_tab.isEmpty then (a2, [.newItems items.dropLast (.tab a2.m_tab)])
      else (a2, [])
    else (a1, [])
  else if !a.m_outputFormat.isEmpty then
    ({ a with m_outputData := byteArrayAppend a.m_outputData readAll }, [])
  else (a, [])

/-- The part of the slot `Action::actionFinished` between its call of
`actionOutput()` and its call of `start()`: the flush of what is buffered. -/
def Action.finishFlush (env : Env) (a : Action) : Action × List Effect :=
  if hasTextOutput env a then
    if canEmitNewItems env a then
      let a1 := { a with m_items := a.m_items ++ [a.m_lastOutput] }
      let e : Effect :=
        if a1.m_indexValid then .newItems a1.m_items .index
        else .newItems a1.m_items (.tab a1.m_tab)
      ({ a1 with m_lastOutput := [], m_items := [] }, [e])
    else (a, [])
  else if canEmitNewItems env a then
    let e : Effect :=
      if a.m_indexValid then .newItem a.m_outputData a.m_outputFormat .index
      else .newItem a.m_outputData a.m_outputFormat (.tab a.m_tab)
    ({ a with m_outputData := none }, [e])
  else (a, [])

/-- The slot `Action::actionFinished`, with `readAll` as in `actionOutput`. -/
def Action.actionFinished (env : Env) (a : Action) (readAll : QByteArray) :
    Option (Action × List Effect) :=
  let o := a.actionOutput env readAll
  let f := o.1.finishFlush env
  match f.1.start env with
  | none => none
  | some s => some (s.1, o.2 ++ f.2 ++ s.2)

/-- What can happen to a runner: a call of `start()` and the signals of its
process that its slots are connected to. -/
inductive Event where
  | start
  | started
  | readyReadStandardOutput (readAll : QByteArray)
  | finished (readAll : QByteArray)
  | error (state : ProcessState)
  deriving DecidableEq, Repr

/-- The slot that an event runs. -/
def Action.handle (env : Env) (a : Action) : Event → Option (Action × List Effect)
  | .start => a.start env
  | .started => some a.actionStarted
  | .readyReadStandardOutput readAll => some (a.actionOutput env readAll)
  | .finished readAll => a.actionFinished env readAll
  | .error state => some (a.actionError state)

/-- A run of events from the state `a`: the last state and all effects in order. -/
def Action.run (env : Env) : List Event → Action → Option (Action × List Effect)
  | [], a => some (a, [])
  | e :: es, a =>
    match a.handle env e with
    | none => none
    | some r =>
      match Action.run env es r.1 with
      | none => none
      | some r1 => some (r1.1, r.2 ++ r1.2)

/-- An environment for examples: bytes decode as Latin-1 characters. -/
def exampleEnv : Env :=
  { applicationFilePath := "/usr/bin/copyq".toList, mimeText := "text/plain".toList,
    fromUtf8 := fun bs => bs.map (fun b => Char.ofNat b.toNat) }

/-- The bytes of an ASCII string. -/
def bytesOf (s : String) : QByteArray := some (s.toList.map (fun c => UInt8.ofNat c.toNat))

/-- The process of stage `k` of a line of `m` stages realized when `f` process
objects have been made before: the action itself for the last stage, a new
process object for any other. -/
def stageProc (f m k : Nat) : ProcRef :=
  if k + 1 = m then .self else .child (f + k)

/-- The effects that start a process. -/
def launches (effs : List Effect) : List Effect :=
  effs.filter (fun e => match e with | .start _ _ _ => true | _ => false)

/-- The effects that wire the output of a process to the input of another. -/
def wirings (effs : List Effect) : List Effect :=
  effs.filter (fun e => match e with | .setStandardOutputProcess _ _ => true | _ => false)

/-- The effects that start the process of the action itself. -/
def selfStarts (effs : List Effect) : List Effect :=
  effs.filter (fun e => match e with | .start .self _ _ => true | _ => false)

/-- The effects that write input to a process. -/
def inputWrites (effs : List Effect) : List Effect :=
  effs.filter (fun e => match e with | .write _ _ => true | _ => false)

/-- The emissions of the terminal signal `actionFinished(this)`. -/
def terminals (effs : List Effect) : List Effect :=
  effs.filter (fun e => e == Effect.actionFinished)

/-- A plan that `Action::start` can run without a failed `Q_ASSERT`: no line is
empty and no stage before the last of a line is empty. -/
def Runnable (plan : Plan) : Prop :=
  ∀ line ∈ plan, line ≠ [] ∧ ∀ s ∈ line.dropLast, s ≠ []

instance (plan : Plan) : Decidable (Runnable plan) := by
  unfold Runnable; infer_instance

/-- The state `b` differs from `a` only in the output buffers `m_lastOutput`,
`m_outputData` and `m_items`. -/
def Action.sameControl (a b : Action) : Prop :=
  b.m_cmds = a.m_cmds ∧ b.m_input = a.m_input ∧ b.m_outputFormat = a.m_outputFormat
    ∧ b.m_sep = a.m_sep ∧ b.m_tab = a.m_tab ∧ b.m_indexValid = a.m_indexValid
    ∧ b.m_failed = a.m_failed ∧ b.m_firstProcess = a.m_firstProcess
    ∧ b.m_currentLine = a.m_currentLine ∧ b.children = a.children

/-- Effects that start nothing, wire nothing, write no input and do not emit
the terminal signal. -/
def Quiet (l : List Effect) : Prop :=
  launches l = [] ∧ wirings l = [] ∧ selfStarts l = [] ∧ inputWrites l = [] ∧ terminals l = []

/-- What one slot does to the control state and to the counts of the effects:
the configuration stays, the failure flag is not reset, and either the cursor
stays, nothing is started and the input is written at most once, and only by
giving up the first process, or the cursor advances by one within the plan,
the process of the action is started once, a first process is set and no
input is written. -/
def StepFacts (a b : Action) (l : List Effect) : Prop :=
  (b.m_cmds = a.m_cmds ∧ b.m_input = a.m_input ∧ b.m_outputFormat = a.m_outputFormat
    ∧ b.m_sep = a.m_sep ∧ b.m_tab = a.m_tab ∧ b.m_indexValid = a.m_indexValid)
  ∧ (a.m_failed = true → b.m_failed = true)
  ∧ ((b.m_currentLine = a.m_currentLine ∧ selfStarts l = []
        ∧ ((b.m_firstProcess = a.m_firstProcess ∧ inputWrites l = [])
            ∨ (a.m_firstProcess ≠ none ∧ b.m_firstProcess = none
                ∧ (inputWrites l).length ≤ 1)))
      ∨ (b.m_currentLine = a.m_currentLine + 1 ∧ a.m_currentLine + 1 < a.m_cmds.length
          ∧ (selfStarts l).length = 1 ∧ b.m_firstProcess ≠ none ∧ inputWrites l = []))

/-! ### The registry of actions -/

/-- A `QVariantMap`, the data bag of an action: keys with byte arrays. -/
abbrev QVariantMap := List (QString × QByteArray)

/-- The library call `QVector::indexOf`: the first index of `x`, or -1. -/
def vectorIndexOf (l : List Nat) (x : Nat) : Int :=
  if l.indexOf x < l.length then (l.indexOf x : Int) else -1

/-- The static vector `Action::actions` of pointers to the live actions, with
the member `m_data` of the object at each address. -/
structure Registry where
  actions : List Nat
  m_data : Nat → QVariantMap

/-- No action has been constructed. -/
def Registry.empty : Registry := { actions := [], m_data := fun _ => [] }

/-- The end of the constructor `Action::Action` of the object at address `p`:
its `m_data` is empty and `this` is appended to `actions`. -/
def Registry.construct (w : Registry) (p : Nat) : Registry :=
  { actions := w.actions ++ [p], m_data := fun q => if q = p then [] else w.m_data q }

/-- The destructor `Action::~Action` of the object at address `p`; `none` is
the failed `Q_ASSERT(i != -1)`. -/
def Registry.destruct (w : Registry) (p : Nat) : Option Registry :=
  let i := vectorIndexOf w.actions p
  if i = -1 then none else some { w with actions := w.actions.eraseIdx i.toNat }

/-- The method `Action::setData` of the object at address `p`. -/
def Registry.setData (w : Registry) (p : Nat) (data : QVariantMap) : Registry :=
  { w with m_data := fun q => if q = p then data else w.m_data q }

/-- The static method `Action::data(id)`: the value returned and the registry
after the call. -/
def Registry.data (w : Registry) (id : Nat) : QVariantMap × Registry :=
  let i := vectorIndexOf w.actions id
  (if i ≠ -1 then w.m_data (w.actions.getD i.toNat 0) else [], w)

/-- What happens to actions: construction and destruction of the object at an
address and a call of `setData` on it. -/
inductive RegOp where
  | construct (p : Nat)
  | destruct (p : Nat)
  | setData (p : Nat) (data : QVariantMap)

/-- Whether an operation can happen: an object is constructed at an address
where no live action is, and only a live action is destroyed or gets data. -/
def RegOp.possible (w : Registry) : RegOp → Bool
  | .construct p => !w.actions.contains p
  | .destruct p => w.actions.contains p
  | .setData p _ => w.actions.contains p

/-- A history of operations, oldest first, from the registry `w`; `none` when
an operation cannot happen or an assertion fails. -/
def Registry.run : List RegOp → Registry → Option Registry
  | [], w => some w
  | op :: ops, w =>
    if op.possible w then
      match op with
      | .construct p => Registry.run ops (w.construct p)
      | .destruct p =>
        match w.destruct p with
        | none => none
        | some w1 => Registry.run ops w1
      | .setData p data => Registry.run ops (w.setData p data)
    else none

/-- The data bag that the specification gives for the identity `id` after a
history, most recent operation first: the data most recently set on the live
action with that identity, and the empty bag when there is no such action or
nothing was set on it. -/
def lastData : List RegOp → Nat → QVariantMap
  | [], _ => []
  | .construct p :: h, id => if p = id then [] else lastData h id
  | .destruct p :: h, id => if p = id then [] else lastData h id
  | .setData p data :: h, id => if p = id then data else lastData h id

/-- The address of the object that an operation is about. -/
def RegOp.target : RegOp → Nat
  | .construct p => p
  | .destruct p => p
  | .setData p _ => p

/-- Whether an action with the identity `id` is alive after a history, most
recent operation first: it was constructed and not destroyed since. -/
def isLive : List RegOp → Nat → Bool
  | [], _ => false
  | .construct p :: h, id => if p = id then true else isLive h id
  | .destruct p :: h, id => if p = id then false else isLive h id
  | .setData _ _ :: h, id => isLive h id

/-- The registry keeps each live action once, with the data of the history `h`. -/
def Registry.Inv (w : Registry) (h : List RegOp) : Prop :=
  w.actions.Nodup ∧ ∀ id, (id ∈ w.actions → w.m_data id = lastData h id)
    ∧ (id ∉ w.actions → lastData h id = []) ∧ (id ∈ w.actions ↔ isLive h id = true)

/-- A history for examples: the action at address 7 is made and gets a data
bag, then the action at address 9 is made and destroyed. -/
def exampleHistory : List RegOp :=
  [.construct 7, .setData 7 [("k".toList, some [1, 2])], .construct 9, .destruct 9]

/-! ### The server of client connections -/

/-- The arguments of a client, a vector of byte arrays. -/
abbrev Arguments := List (List UInt8)

/-- The states of a `QLocalSocket`. -/
inductive SocketState where
  | UnconnectedState
  | ConnectingState
  | ConnectedState
  | ClosingState
  deriving DecidableEq

/-- An inbound `QLocalSocket`: its state and the arguments that
`ClientSocket::readArguments` reads from it. -/
structure Socket where
  state : SocketState
  arguments : Arguments

/-- What `Server` does that can be seen from outside. -/
inductive ServerEffect where
  | logError (msg : String)
  | deleteLater
  | deleteClientSocket
  | newConnection (args : Arguments) (clientSocket : Nat)
  | socketClosed (clientSocket : Nat)
  deriving DecidableEq

/-- The value of a 32-bit `int` after an addition went past its range. -/
def wrapInt32 (x : Int) : Int := (x + 2 ^ 31) % 2 ^ 32 - 2 ^ 31

/-- The `Server`: the member `m_socketCount`, the client sockets whose
`destroyed()` is connected to `onSocketClosed`, and the next free object. -/
structure Server where
  m_socketCount : Int
  handlers : List Nat
  nextHandler : Nat

/-- The constructor `Server::Server`: `m_socketCount(0)`. -/
def Server.initial : Server := { m_socketCount := 0, handlers := [], nextHandler := 0 }

/-- The slot `Server::onNewConnection`, with the result of
`nextPendingConnection()`. -/
def Server.onNewConnection (s : Server) (pending : Option Socket) :
    Server × List ServerEffect :=
  match pending with
  | none => (s, [.logError "No pending client connections!"])
  | some socket =>
    if socket.state ≠ .ConnectedState then
      (s, [.logError "Client is not connected!", .deleteLater])
    else
      let args := socket.arguments
      if !args.isEmpty then
        ({ m_socketCount := wrapInt32 (s.m_socketCount + 1),
           handlers := s.nextHandler :: s.handlers,
           nextHandler := s.nextHandler + 1 },
         [.newConnection args s.nextHandler])
      else (s, [.deleteClientSocket])

/-- The slot `Server::onSocketClosed`; `none` is the failed
`Q_ASSERT(m_socketCount > 0)`. -/
def Server.onSocketClosed (s : Server) : Option Server :=
  if s.m_socketCount > 0 then some { s with m_socketCount := s.m_socketCount - 1 } else none

/-- What happens to the server: the listening socket announces a connection,
or a client socket is destroyed. -/
inductive ServerEvent where
  | connection (pending : Option Socket)
  | destroyed (clientSocket : Nat)

/-- One event: a connection runs `onNewConnection`; the destruction of a
client socket runs `onSocketClosed` when its `destroyed()` is connected to
that slot, and an object is destroyed once. -/
def Server.handle (s : Server) : ServerEvent → Option (Server × List ServerEffect)
  | .connection pending => some (s.onNewConnection pending)
  | .destroyed h =>
    if h ∈ s.handlers then
      match s.onSocketClosed with
      | none => none
      | some s1 => some ({ s1 with handlers := s1.handlers.erase h }, [.socketClosed h])
    else some (s, [])

/-- A sequence of events; `none` when an assertion fails. -/
def Server.run : List ServerEvent → Server → Option (Server × List ServerEffect)
  | [], s => some (s, [])
  | e :: es, s =>
    match s.handle e with
    | none => none
    | some r =>
      match Server.run es r.1 with
      | none => none
      | some r1 => some (r1.1, r.2 ++ r1.2)

/-- The arguments of the "new connection" events raised. -/
def raised : List ServerEffect → List Arguments
  | [] => []
  | .newConnection args _ :: l => args :: raised l
  | _ :: l => raised l

/-- The handlers accepted: the client sockets passed with a "new connection"
event. -/
def accepted : List ServerEffect → List Nat
  | [] => []
  | .newConnection _ h :: l => h :: accepted l
  | _ :: l => accepted l

/-- The handlers closed: the client sockets whose destruction ran
`onSocketClosed`. -/
def closed : List ServerEffect → List Nat
  | [] => []
  | .socketClosed h :: l => h :: closed l
  | _ :: l => closed l

/-- Events for examples: a client with one argument, a client with none, and
the destruction of the first client's socket. -/
def exampleEvents : List ServerEvent :=
  [.connection (some { state := .ConnectedState, arguments := [[1]] }),
   .connection (some { state := .ConnectedState, arguments := [] }),
   .destroyed 0]

/-- A connected socket for examples, with one argument. -/
def exampleSocket : Socket := { state := .ConnectedState, arguments := [[1]] }

/-! ### Renaming a tab through the scripting proxy -/

/-- The methods of `MainWindow` that `renameTab` calls, over the state `W` of
the window: `findTabIndex(name)`, which is -1 when no tab is found, and
`renameTab(name, tabIndex)`. -/
structure MainWindow (W : Type) where
  findTabIndex : W → QString → Int
  renameTab : W → QString → Int → W

/-- The message `tabNotFoundError()`, with the translation `tr`. -/
def tabNotFoundError (tr : QString → QString) : QString :=
  tr "Tab with given name doesn't exist!".toList

/-- The message `tabNameEmptyError()`, with the translation `tr`. -/
def tabNameEmptyError (tr : QString → QString) : QString :=
  tr "Tab name cannot be empty!".toList

/-- The method `ScriptableProxyHelper::renameTab(arg1, arg2)`: the value `v`
left for the caller and the window afterwards. -/
def ScriptableProxyHelper.renameTab {W : Type} (m : MainWindow W) (tr : QString → QString)
    (m_wnd : W) (arg1 arg2 : QString) : QString × W :=
  if arg1.isEmpty || arg2.isEmpty then (tabNameEmptyError tr, m_wnd)
  else
    let i := m.findTabIndex m_wnd arg2
    if i = -1 then (tabNotFoundError tr, m_wnd)
    else if m.findTabIndex m_wnd arg1 ≠ -1 then
      (tr "Tab with given name already exists!".toList, m_wnd)
    else ([], m.renameTab m_wnd arg1 i)

/-- The rename goes through: both names are non-empty, the window finds a tab
for the old name and none for the new one. -/
def CanRename {W : Type} (m : MainWindow W) (m_wnd : W) (newName oldName : QString) : Prop :=
  newName ≠ [] ∧ oldName ≠ [] ∧ m.findTabIndex m_wnd oldName ≠ -1
    ∧ m.findTabIndex m_wnd newName = -1

instance {W : Type} (m : MainWindow W) (m_wnd : W) (newName oldName : QString) :
    Decidable (CanRename m m_wnd newName oldName) := by
  unfold CanRename; infer_instance

/-- Modelled from the spec: a main window for examples, whose state is the
list of the names of its tabs; `MainWindow::findTabIndex` and
`MainWindow::renameTab` are not among the sources. A tab is found by its
name, and renaming writes the new name at the index. -/
def exampleWindow : MainWindow (List QString) :=
  { findTabIndex := fun tabs name =>
      if tabs.indexOf name < tabs.length then (tabs.indexOf name : Int) else -1,
    renameTab := fun tabs name i => tabs.set i.toNat name }

/-- The list `l` with `cur` put before its first element. -/
def consHead (cur : QString) : QStringList → QStringList
  | [] => []
  | h :: tl => (cur ++ h) :: tl

/-- The items of the `newItems` signals among the effects, in order. -/
def emitted : List Effect → QStringList
  | [] => []
  | .newItems items _ :: l => items ++ emitted l
  | _ :: l => emitted l

/-! ### Removing rows through the scripting proxy -/

/-- Modelled from the spec: `ClipboardBrowser::removeRow(row)`, which is not
among the sources, on the list of the items of the browser: the item at `row`
is removed, and a row out of range removes nothing. -/
def removeRow {α : Type} (items : List α) (row : Int) : List α :=
  if 0 ≤ row ∧ row < items.length then items.eraseIdx row.toNat else items

/-- The library call `qSort(rows.begin(), rows.end(), qGreater<int>())`: the
rows in descending order. -/
def qSortGreater (rows : List Int) : List Int :=
  rows.insertionSort (fun a b => a ≥ b)

/-- The method `ScriptableProxyHelper::browserRemoveRows(rows)`, with `c` the
items of the browser that `fetchBrowser()` returns, `none` when it returns
NULL; the result is the items of the browser afterwards. -/
def browserRemoveRows {α : Type} (c : Option (List α)) (rows : List Int) : Option (List α) :=
  match c with
  | none => none
  | some items => some ((qSortGreater rows).foldl removeRow items)

/-- The items that stay when the rows `rows` are deleted from a list whose
first item has the position `k`: an item stays exactly when its position is
not among the rows, and the items that stay keep their order. -/
def withoutRows {α : Type} (rows : List Int) : Nat → List α → List α
  | _, [] => []
  | k, x :: xs =>
    if (k : Int) ∈ rows then withoutRows rows (k + 1) xs else x :: withoutRows rows (k + 1) xs

/-- The bytes of the chunks, concatenated in order. -/
def allBytes (chunks : List QByteArray) : List UInt8 :=
  (chunks.map (fun c => c.getD [])).flatten

/-- The signals among the effects that pass new items on: `newItems` and `newItem`. -/
def itemSignals (effs : List Effect) : List Effect :=
  effs.filter (fun e => match e with
    | .newItems _ _ => true
    | .newItem _ _ _ => true
    | _ => false)

/-! ### The environment of the processes -/

/-- A `QProcessEnvironment`: variables with their values. -/
abbrev QProcessEnvironment := List (QString × QString)

/-- The library call `QProcessEnvironment::insert(name, value)`: the variable
is set, in place of a value it had. -/
def envInsert (env : QProcessEnvironment) (name value : QString) : QProcessEnvironment :=
  (name, value) :: env.filter (fun p => p.1 != name)

/-- The library call `QProcessEnvironment::value(name)`, `none` when the
variable is not set. -/
def envValue (env : QProcessEnvironment) (name : QString) : Option QString :=
  (env.find? (fun p => p.1 == name)).map Prod.snd

/-- The library call `QString::number(id)`: the decimal digits. -/
def number (id : Nat) : QString := Nat.toDigits 10 id

/-- The end of the constructor `Action::Action`, with `systemEnvironment` the
value of `QProcessEnvironment::systemEnvironment()` and `id` the value of
`actionId(this)`: the environment `env` that it passes to
`setProcessEnvironment(env)` after `env.insert("COPYQ_ACTION_ID",
QString::number(id))`. -/
def constructorEnvironment (systemEnvironment : QProcessEnvironment) (id : Nat) :
    QProcessEnvironment :=
  envInsert systemEnvironment "COPYQ_ACTION_ID".toList (number id)

/-- The environment set with `setProcessEnvironment` on a process object,
`none` when that is never called on it: the constructor calls it on the action
itself, and on the objects made by `new QProcess(this)` in `Action::start`
only `setStandardOutputProcess` and `start` are called. -/
def environmentSet (systemEnvironment : QProcessEnvironment) (id : Nat) :
    ProcRef → Option QProcessEnvironment
  | .self => some (constructorEnvironment systemEnvironment id)
  | .child _ => none

/-- The environment that the library call `QProcess::start` gives the new
process: the one set on the process object, or the environment of the calling
process, here the application, when none was set. -/
def processEnvironment (systemEnvironment : QProcessEnvironment) (id : Nat)
    (process : ProcRef) : QProcessEnvironment :=
  (environmentSet systemEnvironment id process).getD systemEnvironment

/-- The environments of the processes started, in the order of the starts. -/
def launchEnvironments (systemEnvironment : QProcessEnvironment) (id : Nat) :
    List Effect → List QProcessEnvironment
  | [] => []
  | .start p _ _ :: l =>
    processEnvironment systemEnvironment id p :: launchEnvironments systemEnvironment id l
  | _ :: l => launchEnvironments systemEnvironment id l

/-! ### The input dialog of the scripting proxy -/

/-- A `QVariant`, by the types that `createWidget` tells apart: `QFile*` is
`file` with the name of the file, and every other type is `string` with the
text that `toString()` gives. -/
inductive QVariant where
  | bool (b : Bool)
  | int (i : Int)
  | date (d : Nat)
  | time (t : Nat)
  | dateTime (d : Nat)
  | list (items : QStringList)
  | file (fileName : QString)
  | string (text : QString)
  deriving DecidableEq, Repr

/-- A `NamedValue`: a name with a value. -/
structure NamedValue where
  name : QString
  value : QVariant
  deriving DecidableEq, Repr

/-- The widget of an entry of the dialog, by what `inputDialog` reads from it:
its properties `CopyQ_widget_name` and `CopyQ_widget_property`, and the value
that the named property was given when the widget was made. -/
structure Widget where
  widgetName : QString
  widgetProperty : String
  value : QVariant
  deriving DecidableEq, Repr

/-- The template `createAndSetWidget<Widget>(propertyName, value, parent)`: the
property is set and its name kept in `CopyQ_widget_property`; no name yet. -/
def createAndSetWidget (propertyName : String) (value : QVariant) : Widget :=
  { widgetName := [], widgetProperty := propertyName, value := value }

/-- The functions `label(orientation, name, w)` and `label(name, w)`, by what
they do to the properties read later: `CopyQ_widget_name` is set to `name`. -/
def label (name : QString) (w : Widget) : Widget := { w with widgetName := name }

/-- The function `createDateTimeEdit(name, propertyName, value, parent)`. -/
def createDateTimeEdit (name : QString) (propertyName : String) (value : QVariant) : Widget :=
  label name (createAndSetWidget propertyName value)

/-- The function `createListWidget(name, items, parent)`: an editable combo box
whose text is the first item. -/
def createListWidget (name : QString) (items : QStringList) : Widget :=
  label name (createAndSetWidget "currentText" (.string (items.headD [])))

/-- The function `createSpinBox(name, value, parent)`. -/
def createSpinBox (name : QString) (value : QVariant) : Widget :=
  label name (createAndSetWidget "value" value)

/-- The function `createFileNameEdit(name, file, parent)`: the line edit that
it returns holds the file name and is given the name. -/
def createFileNameEdit (name : QString) (fileName : QString) : Widget :=
  { createAndSetWidget "text" (.string fileName) with widgetName := name }

/-- The function `createTextEdit(name, value, parent)`. -/
def createTextEdit (name : QString) (value : QVariant) : Widget :=
  label name (createAndSetWidget "plainText" value)

/-- The function `createWidget(name, value, parent)`: the switch over the type
of the value. -/
def createWidget (name : QString) (value : QVariant) : Widget :=
  match value with
  | .bool _ => label name (createAndSetWidget "checked" value)
  | .int _ => createSpinBox "value".toList value
  | .date _ => createDateTimeEdit name "date" value
  | .time _ => createDateTimeEdit name "time" value
  | .dateTime _ => createDateTimeEdit name "dateTime" value
  | .list items => createListWidget name items
  | .file fileName => createFileNameEdit name fileName
  | .string text =>
    if text.contains '\n' then createTextEdit name (.list [text])
    else label name (createAndSetWidget "text" value)

/-- The names that `inputDialog` takes as settings of the dialog itself. -/
def reservedNames : QStringList :=
  [".title".toList, ".icon".toList, ".style".toList, ".height".toList, ".width".toList,
   ".x".toList, ".y".toList, ".label".toList]

/-- The first loop of `inputDialog`: the widgets appended to `widgets`, one for
every entry whose name is not a setting of the dialog. -/
def dialogWidgets : List NamedValue → List Widget
  | [] => []
  | v :: vs =>
    if v.name ∈ reservedNames then dialogWidgets vs
    else createWidget v.name v.value :: dialogWidgets vs

/-- The method `ScriptableProxyHelper::inputDialog(values)`, by the value it
leaves in `v`: `accepted` is the result of `dialog.exec()` and `edited` gives
the value that the property of a widget holds when the dialog is closed. -/
def inputDialog (values : List NamedValue) (accepted : Bool) (edited : Widget → QVariant) :
    List NamedValue :=
  if accepted then
    (dialogWidgets values).map (fun w => { name := w.widgetName, value := edited w })
  else []

theorem parseLoop_nil (caps : QStringList) (st : PState) :
    parseLoop caps [] st = flush st := rfl

theorem parseLoop_cons (caps : QStringList) (c : Char) (rest : QString) (st : PState) :
    parseLoop caps (c :: rest) st =
      match step caps c rest st with
      | .cont st1 => parseLoop caps rest st1
      | .brk st1 => flush st1
      | .ret lines => lines := rfl

theorem applyLabel_cases (cm : QString) (command : QStringList) (script : QString) :
    applyLabel cm command script = (command, script) ∨
      ∃ toks s, toks ≠ [] ∧ applyLabel cm command script = (command ++ toks, s) := by
  unfold applyLabel
  repeat' split
  all_goals first
    | exact Or.inl rfl
    | exact Or.inr ⟨_, _, by simp, rfl⟩

theorem aac_fst {α : Type} (e : List α) (c : List (List α)) :
    (appendAndClearNonEmpty e c).1 = [] := by
  cases e <;> simp [appendAndClearNonEmpty]

theorem aac_snd_nil {α : Type} (c : List (List α)) :
    (appendAndClearNonEmpty [] c).2 = c := rfl

theorem aac_snd_ne {α : Type} (e : List α) (c : List (List α)) (h : e ≠ []) :
    (appendAndClearNonEmpty e c).2 = c ++ [e] := by
  cases e <;> simp [appendAndClearNonEmpty] at h ⊢

theorem aac_forall {α : Type} (P : List α → Prop) (e : List α) (c : List (List α))
    (hc : ∀ x ∈ c, P x) (he : e ≠ [] → P e) :
    ∀ x ∈ (appendAndClearNonEmpty e c).2, P x := by
  intro x hx
  by_cases h : e = []
  · subst h; exact hc x hx
  · rw [aac_snd_ne e c h] at hx
    rcases List.mem_append.mp hx with hx | hx
    · exact hc x hx
    · rw [List.mem_singleton.mp hx]; exact he h

theorem init_inv : PState.init.Inv := by
  simp [PState.Inv, PState.init, GoodPlan]

theorem aac_stages (e : QStringList) (c : List QStringList) (hc : ∀ x ∈ c, x ≠ []) :
    ∀ x ∈ (appendAndClearNonEmpty e c).2, x ≠ [] :=
  aac_forall (fun x => x ≠ []) e c hc id

theorem aac_lines (e : List QStringList) (c : Plan) (hc : GoodPlan c)
    (he : ∀ x ∈ e, x ≠ []) : GoodPlan (appendAndClearNonEmpty e c).2 :=
  aac_forall (fun l => l ≠ [] ∧ ∀ x ∈ l, x ≠ []) e c hc (fun h => ⟨h, he⟩)

theorem flush_good (st : PState) (h : st.Inv) : GoodPlan (flush st) := by
  obtain ⟨h1, h2, -⟩ := h
  exact aac_lines _ _ h1 (aac_stages _ _ h2)

theorem goodPlan_ret (lines : Plan) (commands : List QStringList) (command : QStringList)
    (h1 : GoodPlan lines) (h2 : ∀ x ∈ commands, x ≠ []) (h3 : command ≠ []) :
    GoodPlan (lines ++ [commands ++ [command]]) := by
  intro line hl
  rcases List.mem_append.mp hl with hl | hl
  · exact h1 line hl
  · rw [List.mem_singleton.mp hl]
    refine ⟨by simp, fun x hx => ?_⟩
    rcases List.mem_append.mp hx with hx | hx
    · exact h2 x hx
    · rw [List.mem_singleton.mp hx]; exact h3

theorem step_inv (caps : QStringList) (c : Char) (rest : QString) (st : PState)
    (h : st.Inv) :
    match step caps c rest st with
    | .cont st1 => st1.Inv
    | .brk st1 => st1.Inv
    | .ret lines => GoodPlan lines := by
  obtain ⟨h1, h2, h3⟩ := h
  generalize hs : step caps c rest st = r
  unfold step at hs
  by_cases p1 : (st.percent && (decide (49 ≤ c.toNat) && decide (c.toNat ≤ 57))) = true
  · rw [if_pos p1] at hs; subst hs; exact ⟨h1, h2, h3⟩
  rw [if_neg p1] at hs
  dsimp only at hs
  by_cases p2 : st.escape = true
  · rw [if_pos p2] at hs
    split_ifs at hs <;> subst hs <;> exact ⟨h1, h2, h3⟩
  rw [if_neg p2] at hs
  by_cases p3 : (c == backslash) = true
  · rw [if_pos p3] at hs; subst hs; exact ⟨h1, h2, h3⟩
  rw [if_neg p3] at hs
  by_cases p4 : (!isNull st.quote) = true
  · rw [if_pos p4] at hs
    split_ifs at hs <;> subst hs <;> exact ⟨h1, h2, h3⟩
  rw [if_neg p4] at hs
  by_cases p5 : (c == squote || c == dquote) = true
  · rw [if_pos p5] at hs; subst hs; exact ⟨h1, h2, h3⟩
  rw [if_neg p5] at hs
  by_cases p6 : (c == '|') = true
  · rw [if_pos p6] at hs; subst hs; exact ⟨h1, aac_stages _ _ h2, h3⟩
  rw [if_neg p6] at hs
  by_cases p7 : (c == '\n' || c == ';') = true
  · rw [if_pos p7] at hs; subst hs
    exact ⟨aac_lines _ _ h1 (aac_stages _ _ h2), by rw [aac_fst]; simp, h3⟩
  rw [if_neg p7] at hs
  by_cases p8 : isSpace c = true
  · rw [if_pos p8] at hs
    split_ifs at hs <;> subst hs <;> exact ⟨h1, h2, h3⟩
  rw [if_neg p8] at hs
  by_cases p9 : (c == ':' && rest.head? == some '\n') = true
  · rw [if_pos p9] at hs; subst hs; exact ⟨h1, h2, h3⟩
  rw [if_neg p9] at hs
  by_cases p10 : (st.arg.isEmpty && st.command.isEmpty) = true
  · rw [if_pos p10] at hs
    by_cases p11 : (!(applyLabel (c :: rest) st.command st.script).2.isEmpty) = true
    · rw [if_pos p11] at hs; subst hs
      rcases applyLabel_cases (c :: rest) st.command st.script with hl | ⟨toks, s, ht, hl⟩
      · rw [hl, h3] at p11; simp at p11
      · rw [hl]
        exact goodPlan_ret _ _ _ h1 h2 (by simp [ht])
    · rw [if_neg p11] at hs; subst hs
      exact ⟨h1, h2, by simpa using p11⟩
  · rw [if_neg p10] at hs; subst hs; exact ⟨h1, h2, h3⟩

theorem parseLoop_good (caps : QStringList) (cmd : QString) :
    ∀ st : PState, st.Inv → GoodPlan (parseLoop caps cmd st) := by
  induction cmd with
  | nil => intro st h; exact flush_good st h
  | cons c rest ih =>
    intro st h
    have hs := step_inv caps c rest st h
    rw [parseLoop_cons]
    cases hstep : step caps c rest st with
    | cont st1 => rw [hstep] at hs; exact ih st1 hs
    | brk st1 => rw [hstep] at hs; exact flush_good st1 hs
    | ret lines => rw [hstep] at hs; exact hs

theorem init_eq_plain : PState.init = PState.plain [] [] [] [] := rfl

/-! ## Characters -/

theorem isOrdinary_facts {c : Char} (h : isOrdinary c = true) :
    (c == backslash) = false ∧ (c == squote) = false ∧ (c == dquote) = false ∧
    (c == '|') = false ∧ (c == '\n') = false ∧ (c == ';') = false ∧ (c == '%') = false ∧
    isSpace c = false := by
  simpa [isOrdinary, bne_iff_ne, and_assoc] using h

theorem isAlnum_toNat {c : Char} (h : isAlnum c = true) :
    (48 ≤ c.toNat ∧ c.toNat ≤ 57) ∨ (65 ≤ c.toNat ∧ c.toNat ≤ 90) ∨
      (97 ≤ c.toNat ∧ c.toNat ≤ 122) := by
  simpa [isAlnum, or_assoc] using h

theorem isAlnum_ne {c d : Char} (h : isAlnum c = true) (hd : isAlnum d = false) : c ≠ d := by
  rintro rfl; rw [h] at hd; exact Bool.noConfusion hd

theorem isAlnum_isSpace {c : Char} (h : isAlnum c = true) : isSpace c = false := by
  have := isAlnum_toNat h
  simp only [isSpace, Bool.or_eq_false_iff, Bool.and_eq_false_iff, beq_eq_false_iff_ne,
    decide_eq_false_iff_not]
  omega

theorem isAlnum_isOrdinary {c : Char} (h : isAlnum c = true) : isOrdinary c = true := by
  have h1 : c ≠ backslash := isAlnum_ne h (by decide)
  have h2 : c ≠ squote := isAlnum_ne h (by decide)
  have h3 : c ≠ dquote := isAlnum_ne h (by decide)
  have h4 : c ≠ '|' := isAlnum_ne h (by decide)
  have h5 : c ≠ '\n' := isAlnum_ne h (by decide)
  have h6 : c ≠ ';' := isAlnum_ne h (by decide)
  have h7 : c ≠ '%' := isAlnum_ne h (by decide)
  simp [isOrdinary, h1, h2, h3, h4, h5, h6, h7, isAlnum_isSpace h]

/-! ## Script labels -/

theorem noLabel_of_dropWhile (t : QString)
    (h : (t.dropWhile isAlnum).head? ≠ some ':') : NoLabel t := by
  have key : ∀ l : QString, (∀ c ∈ l, isAlnum c = true) → (l ++ [':']).isPrefixOf t = false := by
    intro l hl
    by_contra hp
    rw [Bool.not_eq_false, List.isPrefixOf_iff_prefix] at hp
    obtain ⟨r, rfl⟩ := hp
    apply h
    rw [List.append_assoc, List.dropWhile_append_of_pos hl]
    simp [List.dropWhile, isAlnum]
  intro command script
  have k1 := key "copyq".toList (by decide)
  have k2 := key "sh".toList (by decide)
  have k3 := key "bash".toList (by decide)
  have k4 := key "perl".toList (by decide)
  have k5 := key "python".toList (by decide)
  have k6 := key "ruby".toList (by decide)
  simp only [String.toList, List.cons_append, List.nil_append] at k1 k2 k3 k4 k5 k6
  simp only [applyLabel, getScriptFromLabel, String.toList, k1, k2, k3, k4, k5, k6]
  simp

theorem noLabel_append (u v : QString) (hu : ':' ∉ u)
    (hv : ∀ c, v.head? = some c → isAlnum c = false ∧ c ≠ ':') : NoLabel (u ++ v) := by
  apply noLabel_of_dropWhile
  induction u with
  | nil =>
    cases v with
    | nil => simp
    | cons a v =>
      have := hv a rfl
      simp [List.dropWhile, this.1, this.2]
  | cons a u ih =>
    have ha : a ≠ ':' := fun e => hu (by simp [e])
    have hu1 : ':' ∉ u := fun e => hu (by simp [e])
    by_cases hal : isAlnum a = true
    · simpa [List.dropWhile, hal] using ih hu1
    · simp [List.dropWhile, hal, ha]

theorem noLabel_nil_or (u : QString) (hu : ':' ∉ u) : NoLabel u := by
  simpa using noLabel_append u [] hu (by simp)

/-! ## Single iterations from a plain state -/

theorem step_ordinary (caps : QStringList) (c : Char) (rest : QString) (L : Plan)
    (CS : List QStringList) (C : QStringList) (a : QString)
    (hc : isOrdinary c = true) (hcolon : (c == ':' && rest.head? == some '\n') = false)
    (hl : a ≠ [] ∨ C ≠ [] ∨ NoLabel (c :: rest)) :
    step caps c rest (PState.plain L CS C a) = .cont (PState.plain L CS C (a ++ [c])) := by
  obtain ⟨h1, h2, h3, h4, h5, h6, h7, h8⟩ := isOrdinary_facts hc
  by_cases he : a.isEmpty && C.isEmpty
  · have hn : NoLabel (c :: rest) := by
      rcases hl with h | h | h
      · simp [h] at he
      · simp [h] at he
      · exact h
    have ha : a = [] := by simp at he; exact he.1
    have hC : C = [] := by simp at he; exact he.2
    subst ha hC
    simp [step, PState.plain, isNull, nullChar, h1, h2, h3, h4, h5, h6, h7, h8, hcolon,
      hn [] []]
  · simp [step, PState.plain, isNull, nullChar, h1, h2, h3, h4, h5, h6, h7, h8, hcolon, he]

theorem step_bar (caps : QStringList) (rest : QString) (L : Plan)
    (CS : List QStringList) (C : QStringList) (a : QString) :
    step caps '|' rest (PState.plain L CS C a) =
      .cont (PState.plain L
        (appendAndClearNonEmpty (appendAndClearNonEmpty a C).2 CS).2 [] []) := by
  simp [step, PState.plain, isNull, nullChar, backslash, squote, dquote, aac_fst]

theorem step_sep (caps : QStringList) (c : Char) (rest : QString) (L : Plan)
    (CS : List QStringList) (C : QStringList) (a : QString) (hc : c = '\n' ∨ c = ';') :
    step caps c rest (PState.plain L CS C a) =
      .cont (PState.plain (flush (PState.plain L CS C a)) [] [] []) := by
  rcases hc with rfl | rfl <;>
    simp [step, PState.plain, isNull, nullChar, backslash, squote, dquote, aac_fst, flush]

theorem isSpace_facts {c : Char} (h : isSpace c = true) :
    (c == backslash) = false ∧ (c == squote) = false ∧ (c == dquote) = false ∧
    (c == '|') = false ∧ (c == ';') = false ∧ (c == '%') = false ∧ (c == ':') = false := by
  have hne : ∀ d : Char, isSpace d = false → (c == d) = false := by
    intro d hd
    rw [beq_eq_false_iff_ne]
    rintro rfl
    rw [h] at hd; exact Bool.noConfusion hd
  exact ⟨hne _ (by decide), hne _ (by decide), hne _ (by decide), hne _ (by decide),
    hne _ (by decide), hne _ (by decide), hne _ (by decide)⟩

theorem step_space (caps : QStringList) (c : Char) (rest : QString) (L : Plan)
    (CS : List QStringList) (C : QStringList) (a : QString)
    (hc : isSpace c = true) (hn : c ≠ '\n') :
    step caps c rest (PState.plain L CS C a) =
      .cont (PState.plain L CS (appendAndClearNonEmpty a C).2 []) := by
  obtain ⟨h1, h2, h3, h4, h5, h6, h7⟩ := isSpace_facts hc
  have h8 : (c == '\n') = false := by simpa using hn
  cases a <;>
    simp [step, PState.plain, isNull, nullChar, h1, h2, h3, h4, h5, h6, h7, h8, hc,
      appendAndClearNonEmpty]

theorem flush_plain_nil (L : Plan) : flush (PState.plain L [] [] []) = L := rfl

theorem flush_plain_arg (a : QString) :
    flush (PState.plain [] [] [] a) = if a = [] then [] else [[[a]]] := by
  cases a <;> simp [flush, PState.plain, appendAndClearNonEmpty]

theorem step_backslash (caps : QStringList) (rest : QString) (L : Plan)
    (CS : List QStringList) (C : QStringList) (a : QString) :
    step caps backslash rest (PState.plain L CS C a) =
      .cont { PState.plain L CS C a with escape := true } := by
  simp [step, PState.plain, backslash]

theorem step_escaped (caps : QStringList) (c : Char) (rest : QString) (L : Plan)
    (CS : List QStringList) (C : QStringList) (a : QString) :
    step caps c rest { PState.plain L CS C a with escape := true } =
      .cont (PState.plain L CS C (a ++ escapedText c)) := by
  by_cases h1 : c = 'n'
  · subst h1; simp [step, PState.plain, escapedText]
  by_cases h2 : c = 't'
  · subst h2; simp [step, PState.plain, escapedText]
  by_cases h3 : c = '\n'
  · subst h3; simp [step, PState.plain, escapedText]
  simp [step, PState.plain, escapedText, h1, h2, h3]

theorem step_quoted (caps : QStringList) (c Q : Char) (rest : QString) (L : Plan)
    (CS : List QStringList) (C : QStringList) (a : QString)
    (hQ : Q = squote ∨ Q = dquote) (h1 : c ≠ Q) (h2 : c ≠ backslash) (h3 : c ≠ '%') :
    step caps c rest { PState.plain L CS C a with quote := Q } =
      .cont { PState.plain L CS C (a ++ [c]) with quote := Q } := by
  have h1b : (Q == c) = false := by simpa using Ne.symm h1
  have h2b : (c == backslash) = false := by simpa using h2
  have h3b : (c == '%') = false := by simpa using h3
  have hn1 : isNull squote = false := by decide
  have hn2 : isNull dquote = false := by decide
  rcases hQ with rfl | rfl <;>
    simp [step, PState.plain, hn1, hn2, h2b, h3b, h1b]

theorem step_quote_open (caps : QStringList) (Q : Char) (rest : QString) (L : Plan)
    (CS : List QStringList) (C : QStringList) (a : QString)
    (hQ : Q = squote ∨ Q = dquote) :
    step caps Q rest (PState.plain L CS C a) =
      .cont { PState.plain L CS C a with quote := Q } := by
  rcases hQ with rfl | rfl <;>
    simp [step, PState.plain, isNull, nullChar, backslash, squote, dquote]

theorem step_quote_close (caps : QStringList) (Q : Char) (rest : QString) (L : Plan)
    (CS : List QStringList) (C : QStringList) (a : QString)
    (hQ : Q = squote ∨ Q = dquote) :
    step caps Q rest { PState.plain L CS C a with quote := Q } =
      .cont (PState.plain L CS (C ++ [a]) []) := by
  have hn1 : isNull squote = false := by decide
  have hn2 : isNull dquote = false := by decide
  have hb1 : (squote == backslash) = false := by decide
  have hb2 : (dquote == backslash) = false := by decide
  have hp1 : (squote == '%') = false := by decide
  have hp2 : (dquote == '%') = false := by decide
  rcases hQ with rfl | rfl <;>
    simp [step, PState.plain, hn1, hn2, hb1, hb2, hp1, hp2]

theorem value_digit (caps : QStringList) (c : Char) (h1 : 49 ≤ c.toNat) (h2 : c.toNat ≤ 57) :
    value caps (digitValue c - 1) = caps.getD (c.toNat - 49) [] := by
  have e : (((c.toNat : Int) - 48 - 1).toNat) = c.toNat - 49 := by omega
  have hv : digitValue c = (c.toNat : Int) - 48 := by
    unfold digitValue
    rw [if_pos ⟨by omega, h2⟩]
  unfold value
  rw [hv, if_neg (by omega), e]

theorem step_subst (caps : QStringList) (c : Char) (rest : QString) (st : PState)
    (hp : st.percent = true) (h1 : 49 ≤ c.toNat) (h2 : c.toNat ≤ 57) :
    step caps c rest st =
      .cont { st with arg := chopLast st.arg ++ caps.getD (c.toNat - 49) [] } := by
  unfold step
  rw [if_pos (by simp [hp, h1, h2]), value_digit caps c h1 h2]

theorem digitChar_toNat (k : Nat) (hk : k ≤ 9) : (Nat.digitChar k).toNat = 48 + k := by
  interval_cases k <;> rfl

/-! ## Runs of iterations -/

theorem parseLoop_word (caps : QStringList) (w rest : QString) (L : Plan)
    (CS : List QStringList) (C : QStringList) :
    ∀ a : QString, (∀ c ∈ w, isOrdinary c = true ∧ c ≠ ':') →
      (a ≠ [] ∨ C ≠ [] ∨ NoLabel (w ++ rest)) →
      parseLoop caps (w ++ rest) (PState.plain L CS C a) =
        parseLoop caps rest (PState.plain L CS C (a ++ w)) := by
  induction w with
  | nil => intro a _ _; simp
  | cons c w ih =>
    intro a hw hl
    have hc := hw c (by simp)
    have hcolon : (c == ':' && (w ++ rest).head? == some '\n') = false := by
      simp [hc.2]
    rw [List.cons_append, parseLoop_cons, step_ordinary caps c (w ++ rest) L CS C a hc.1 hcolon hl]
    dsimp only
    rw [ih (a ++ [c]) (fun x hx => hw x (by simp [hx])) (Or.inl (by simp))]
    simp

theorem parseLoop_quoted (caps : QStringList) (Q : Char) (q rest : QString) (L : Plan)
    (CS : List QStringList) (C : QStringList) (hQ : Q = squote ∨ Q = dquote) :
    ∀ a : QString, (∀ c ∈ q, c ≠ Q ∧ c ≠ backslash ∧ c ≠ '%') →
      parseLoop caps (q ++ rest) { PState.plain L CS C a with quote := Q } =
        parseLoop caps rest { PState.plain L CS C (a ++ q) with quote := Q } := by
  induction q with
  | nil => intro a _; simp
  | cons c q ih =>
    intro a hq
    obtain ⟨h1, h2, h3⟩ := hq c (by simp)
    rw [List.cons_append, parseLoop_cons, step_quoted caps c Q (q ++ rest) L CS C a hQ h1 h2 h3]
    dsimp only
    rw [ih (a ++ [c]) (fun x hx => hq x (by simp [hx]))]
    simp

theorem isAlnum_word {w : QString} (hw : ∀ c ∈ w, isAlnum c = true) :
    (∀ c ∈ w, isOrdinary c = true ∧ c ≠ ':') ∧ ':' ∉ w := by
  refine ⟨fun c hc => ⟨isAlnum_isOrdinary (hw c hc), isAlnum_ne (hw c hc) (by decide)⟩, ?_⟩
  intro h
  exact absurd (hw _ h) (by decide)

/-! ## Words, blanks and pipes -/

theorem blank_facts {c : Char} (h : c = ' ' ∨ c = '\t') : isSpace c = true ∧ c ≠ '\n' := by
  rcases h with rfl | rfl <;> decide

theorem parseLoop_blanks_nil (caps : QStringList) (rest : QString) (L : Plan)
    (CS : List QStringList) (C : QStringList) (b : QString) (hb : Blanks b) :
    parseLoop caps (b ++ rest) (PState.plain L CS C []) =
      parseLoop caps rest (PState.plain L CS C []) := by
  induction b with
  | nil => rfl
  | cons c b ih =>
    obtain ⟨h1, h2⟩ := blank_facts (hb c (by simp))
    rw [List.cons_append, parseLoop_cons, step_space caps c _ L CS C [] h1 h2]
    exact ih (fun x hx => hb x (by simp [hx]))

theorem parseLoop_blanks (caps : QStringList) (rest : QString) (L : Plan)
    (CS : List QStringList) (C : QStringList) (a b : QString) (hb : Blanks b) (hne : b ≠ []) :
    parseLoop caps (b ++ rest) (PState.plain L CS C a) =
      parseLoop caps rest (PState.plain L CS (appendAndClearNonEmpty a C).2 []) := by
  cases b with
  | nil => exact absurd rfl hne
  | cons c b =>
    obtain ⟨h1, h2⟩ := blank_facts (hb c (by simp))
    rw [List.cons_append, parseLoop_cons, step_space caps c _ L CS C a h1 h2]
    exact parseLoop_blanks_nil caps rest L CS _ b (fun x hx => hb x (by simp [hx]))

theorem endsWord_blanks (b rest : QString) (hb : Blanks b) (hne : b ≠ []) :
    EndsWord (b ++ rest) := by
  cases b with
  | nil => exact absurd rfl hne
  | cons c b =>
    intro d hd
    simp at hd
    subst hd
    rcases hb c (by simp) with rfl | rfl <;> decide

theorem endsWord_blanks_of (b rest : QString) (hb : Blanks b) (hr : EndsWord rest) :
    EndsWord (b ++ rest) := by
  cases b with
  | nil => exact hr
  | cons c b => exact endsWord_blanks (c :: b) rest hb (by simp)

theorem endsWord_moreText (more : List (QString × QString)) (rest : QString)
    (hm : ∀ p ∈ more, p.1 ≠ [] ∧ Blanks p.1 ∧ PlainWord p.2) (hr : EndsWord rest) :
    EndsWord (moreText more ++ rest) := by
  cases more with
  | nil => exact hr
  | cons p more =>
    obtain ⟨h1, h2, -⟩ := hm p (by simp)
    have e : moreText (p :: more) ++ rest = p.1 ++ (p.2 ++ moreText more ++ rest) := by
      simp [moreText]
    rw [e]
    exact endsWord_blanks p.1 _ h2 h1

theorem plainWord_ord {w : QString} (h : PlainWord w) : OrdWord w :=
  ⟨h.1, (isAlnum_word h.2).1⟩

theorem parseLoop_words_gen (caps : QStringList) (L : Plan) (CS : List QStringList) :
    ∀ (more : List (QString × QString)) (first : QString) (C : QStringList),
      OrdWord first → (∀ p ∈ more, p.1 ≠ [] ∧ Blanks p.1 ∧ OrdWord p.2) →
      ∃ (C1 : QStringList) (a1 : QString),
        (appendAndClearNonEmpty a1 C1).2 = C ++ first :: more.map Prod.snd ∧
        ∀ rest, (C ≠ [] ∨ NoLabel (first ++ moreText more ++ rest)) →
          parseLoop caps (first ++ moreText more ++ rest) (PState.plain L CS C []) =
            parseLoop caps rest (PState.plain L CS C1 a1) := by
  intro more
  induction more with
  | nil =>
    intro first C hf _
    refine ⟨C, first, aac_snd_ne _ _ hf.1, fun rest hr => ?_⟩
    have h := parseLoop_word caps first rest L CS C [] hf.2
      (Or.inr (by simpa [moreText] using hr))
    simpa [moreText] using h
  | cons p more ih =>
    intro first C hf hm
    obtain ⟨hp1, hp2, hp3⟩ := hm p (by simp)
    obtain ⟨C1, a1, h1, h2⟩ := ih p.2 (C ++ [first]) hp3 (fun q hq => hm q (by simp [hq]))
    refine ⟨C1, a1, by simpa using h1, fun rest hr => ?_⟩
    have e : first ++ moreText (p :: more) ++ rest
        = first ++ (p.1 ++ (p.2 ++ moreText more ++ rest)) := by
      simp [moreText]
    rw [e] at hr ⊢
    rw [parseLoop_word caps first _ L CS C [] hf.2 (Or.inr hr),
      parseLoop_blanks caps _ L CS C _ p.1 hp2 hp1, List.nil_append,
      aac_snd_ne _ _ hf.1, h2 rest (Or.inl (by simp))]

theorem parseLoop_words (caps : QStringList) (L : Plan) (CS : List QStringList)
    (more : List (QString × QString)) (first : QString) (C : QStringList)
    (hf : PlainWord first) (hm : ∀ p ∈ more, p.1 ≠ [] ∧ Blanks p.1 ∧ PlainWord p.2) :
    ∃ (C1 : QStringList) (a1 : QString),
      (appendAndClearNonEmpty a1 C1).2 = C ++ first :: more.map Prod.snd ∧
      ∀ rest, EndsWord rest →
        parseLoop caps (first ++ moreText more ++ rest) (PState.plain L CS C []) =
          parseLoop caps rest (PState.plain L CS C1 a1) := by
  obtain ⟨C1, a1, h1, h2⟩ := parseLoop_words_gen caps L CS more first C (plainWord_ord hf)
    (fun p hp => ⟨(hm p hp).1, (hm p hp).2.1, plainWord_ord (hm p hp).2.2⟩)
  refine ⟨C1, a1, h1, fun rest hr => h2 rest (Or.inr ?_)⟩
  rw [List.append_assoc]
  exact noLabel_append first _ (isAlnum_word hf.2).2 (endsWord_moreText more rest hm hr)

theorem parseLoop_stage (caps : QStringList) (L : Plan) (CS : List QStringList)
    (s : StageSrc) (hs : s.WF) :
    ∃ (C1 : QStringList) (a1 : QString),
      (appendAndClearNonEmpty a1 C1).2 = s.words ∧
      ∀ rest, EndsWord rest →
        parseLoop caps (s.text ++ rest) (PState.plain L CS [] []) =
          parseLoop caps rest (PState.plain L CS C1 a1) := by
  obtain ⟨h1, h2, h3, h4⟩ := hs
  obtain ⟨C1, a1, hw, hrun⟩ := parseLoop_words caps L CS s.more s.first [] h2 h3
  rw [List.nil_append] at hw
  have e : ∀ rest, s.text ++ rest
      = s.lead ++ (s.first ++ moreText s.more ++ (s.trail ++ rest)) := by
    intro rest; simp [StageSrc.text]
  by_cases ht : s.trail = []
  · refine ⟨C1, a1, hw, fun rest hr => ?_⟩
    rw [e, parseLoop_blanks_nil caps _ L CS [] s.lead h1,
      hrun _ (endsWord_blanks_of _ _ h4 hr), ht, List.nil_append]
  · refine ⟨s.words, [], rfl, fun rest hr => ?_⟩
    rw [e, parseLoop_blanks_nil caps _ L CS [] s.lead h1,
      hrun _ (endsWord_blanks_of _ _ h4 hr), parseLoop_blanks caps rest L CS C1 a1 _ h4 ht,
      hw, StageSrc.words]

theorem stageWords_ne (s : StageSrc) : s.words ≠ [] := by
  simp [StageSrc.words]

theorem parseLoop_stage_bar (caps : QStringList) (L : Plan) (CS : List QStringList)
    (s : StageSrc) (hs : s.WF) (rest : QString) :
    parseLoop caps (s.text ++ '|' :: rest) (PState.plain L CS [] []) =
      parseLoop caps rest (PState.plain L (CS ++ [s.words]) [] []) := by
  obtain ⟨C1, a1, hw, hrun⟩ := parseLoop_stage caps L CS s hs
  rw [hrun _ (by intro d hd; simp at hd; subst hd; decide), parseLoop_cons, step_bar, hw,
    aac_snd_ne _ _ (stageWords_ne s)]

theorem parseLoop_stage_end (caps : QStringList) (L : Plan) (CS : List QStringList)
    (s : StageSrc) (hs : s.WF) :
    parseLoop caps s.text (PState.plain L CS [] []) = L ++ [CS ++ [s.words]] := by
  obtain ⟨C1, a1, hw, hrun⟩ := parseLoop_stage caps L CS s hs
  have h := hrun [] (by intro d hd; simp at hd)
  rw [List.append_nil] at h
  rw [h, parseLoop_nil]
  simp only [flush, PState.plain]
  rw [hw, aac_snd_ne _ _ (stageWords_ne s), aac_snd_ne _ _ (by simp)]

theorem parseLoop_pipeline (caps : QStringList) (L : Plan) :
    ∀ (l : List StageSrc) (CS : List QStringList), l ≠ [] → (∀ s ∈ l, s.WF) →
      parseLoop caps (pipelineText l) (PState.plain L CS [] []) =
        L ++ [CS ++ l.map StageSrc.words] := by
  intro l
  induction l with
  | nil => intro CS h; exact absurd rfl h
  | cons s t ih =>
    intro CS _ hwf
    cases t with
    | nil => simpa [pipelineText] using parseLoop_stage_end caps L CS s (hwf s (by simp))
    | cons t r =>
      rw [pipelineText, parseLoop_stage_bar caps L CS s (hwf s (by simp)),
        ih (CS ++ [s.words]) (by simp) (fun x hx => hwf x (by simp [hx]))]
      simp

/-! ## Lines already finished do not influence the scan -/

theorem aac_snd_prepend {α : Type} (e : List α) (P c : List (List α)) :
    (appendAndClearNonEmpty e (P ++ c)).2 = P ++ (appendAndClearNonEmpty e c).2 := by
  cases e <;> simp [appendAndClearNonEmpty]

theorem aac_fst_prepend {α : Type} (e : List α) (P c : List (List α)) :
    (appendAndClearNonEmpty e (P ++ c)).1 = (appendAndClearNonEmpty e c).1 := by
  cases e <;> simp [appendAndClearNonEmpty]

theorem flush_prepend (P : Plan) (st : PState) :
    flush (st.prepend P) = P ++ flush st := by
  simp only [flush, PState.prepend, aac_snd_prepend]

theorem step_prepend (caps : QStringList) (c : Char) (rest : QString) (P : Plan)
    (st : PState) :
    step caps c rest (st.prepend P) = (step caps c rest st).prepend P := by
  unfold step
  dsimp only [PState.prepend]
  by_cases p1 : (st.percent && (decide (49 ≤ c.toNat) && decide (c.toNat ≤ 57))) = true
  · simp only [if_pos p1]; rfl
  simp only [if_neg p1]
  by_cases p2 : st.escape = true
  · simp only [if_pos p2]
    split_ifs <;> rfl
  simp only [if_neg p2]
  by_cases p3 : (c == backslash) = true
  · simp only [if_pos p3]; rfl
  simp only [if_neg p3]
  by_cases p4 : (!isNull st.quote) = true
  · simp only [if_pos p4]
    split_ifs <;> rfl
  simp only [if_neg p4]
  by_cases p5 : (c == squote || c == dquote) = true
  · simp only [if_pos p5]; rfl
  simp only [if_neg p5]
  by_cases p6 : (c == '|') = true
  · simp only [if_pos p6]; rfl
  simp only [if_neg p6]
  by_cases p7 : (c == '\n' || c == ';') = true
  · simp only [if_pos p7, aac_snd_prepend, aac_fst_prepend]; rfl
  simp only [if_neg p7]
  by_cases p8 : isSpace c = true
  · simp only [if_pos p8]
    split_ifs <;> rfl
  simp only [if_neg p8]
  by_cases p9 : (c == ':' && rest.head? == some '\n') = true
  · simp only [if_pos p9]; rfl
  simp only [if_neg p9]
  by_cases p10 : (st.arg.isEmpty && st.command.isEmpty) = true
  · simp only [if_pos p10]
    by_cases p11 : (!(applyLabel (c :: rest) st.command st.script).2.isEmpty) = true
    · simp only [if_pos p11, Step.prepend, List.append_assoc]
    · simp only [if_neg p11]; rfl
  · simp only [if_neg p10]; rfl

theorem parseLoop_prepend (caps : QStringList) (P : Plan) (t : QString) :
    ∀ st : PState, parseLoop caps t (st.prepend P) = P ++ parseLoop caps t st := by
  induction t with
  | nil => intro st; exact flush_prepend P st
  | cons c rest ih =>
    intro st
    rw [parseLoop_cons, parseLoop_cons, step_prepend]
    cases step caps c rest st with
    | cont st1 => exact ih st1
    | brk st1 => exact flush_prepend P st1
    | ret lines => rfl

/-! ## Iterations that do not depend on the text ahead -/

theorem step_percent_sign (caps : QStringList) (rest : QString) (L : Plan)
    (CS : List QStringList) (C : QStringList) (a : QString) :
    step caps '%' rest (PState.plain L CS C a) =
      .cont { PState.plain L CS C (a ++ ['%']) with percent := true } := by
  have hn : NoLabel ('%' :: rest) :=
    noLabel_of_dropWhile _ (by simp [List.dropWhile, isAlnum])
  by_cases he : a.isEmpty && C.isEmpty
  · have ha : a = [] := by simp at he; exact he.1
    have hC : C = [] := by simp at he; exact he.2
    subst ha hC
    simp [step, PState.plain, isNull, nullChar, backslash, squote, dquote, isSpace, hn [] []]
  · simp [step, PState.plain, isNull, nullChar, backslash, squote, dquote, isSpace, he]

theorem step_percent_irrel (caps : QStringList) (c : Char) (rest : QString) (L : Plan)
    (CS : List QStringList) (C : QStringList) (sc a : QString) (q : Char) (e : Bool)
    (hd : ¬ (49 ≤ c.toNat ∧ c.toNat ≤ 57)) :
    step caps c rest ⟨L, CS, C, sc, a, q, e, true⟩ =
      step caps c rest ⟨L, CS, C, sc, a, q, e, false⟩ := by
  have h : (decide (49 ≤ c.toNat) && decide (c.toNat ≤ 57)) = false := by
    simpa using hd
  unfold step
  dsimp only
  rw [h]
  rfl

theorem plain_open (L : Plan) (CS : List QStringList) (C : QStringList) (a : QString) :
    (PState.plain L CS C a).Open := ⟨rfl, rfl, rfl⟩

theorem step_plain_open (caps : QStringList) (c : Char) (L : Plan)
    (CS : List QStringList) (C : QStringList) (a : QString)
    (hc : c ≠ squote ∧ c ≠ dquote ∧ c ≠ backslash ∧ c ≠ ':') :
    ∃ st1 : PState, st1.Open ∧
      ∀ rest, NoLabel (c :: rest) → step caps c rest (PState.plain L CS C a) = .cont st1 := by
  obtain ⟨h1, h2, h3, h4⟩ := hc
  by_cases c1 : c = '%'
  · subst c1
    exact ⟨_, ⟨rfl, rfl, rfl⟩, fun rest _ => step_percent_sign caps rest L CS C a⟩
  by_cases c2 : c = '|'
  · subst c2
    exact ⟨_, plain_open _ _ _ _, fun rest _ => step_bar caps rest L CS C a⟩
  by_cases c3 : c = '\n' ∨ c = ';'
  · exact ⟨_, plain_open _ _ _ _, fun rest _ => step_sep caps c rest L CS C a c3⟩
  by_cases c4 : isSpace c = true
  · exact ⟨_, plain_open _ _ _ _,
      fun rest _ => step_space caps c rest L CS C a c4 (fun e => c3 (Or.inl e))⟩
  · have ho : isOrdinary c = true := by
      simp only [not_or] at c3
      simp [isOrdinary, h1, h2, h3, c1, c2, c3.1, c3.2, c4]
    exact ⟨_, plain_open _ _ _ _, fun rest hn =>
      step_ordinary caps c rest L CS C a ho (by simp [h4]) (Or.inr (Or.inr hn))⟩

theorem step_open (caps : QStringList) (c : Char) (st : PState) (ho : st.Open)
    (hc : c ≠ squote ∧ c ≠ dquote ∧ c ≠ backslash ∧ c ≠ ':') :
    ∃ st1 : PState, st1.Open ∧
      ∀ rest, NoLabel (c :: rest) → step caps c rest st = .cont st1 := by
  obtain ⟨L, CS, C, sc, a, q, e, p⟩ := st
  obtain ⟨h1, h2, h3⟩ := ho
  simp only at h1 h2 h3
  subst h1 h2 h3
  cases p with
  | false => exact step_plain_open caps c L CS C a hc
  | true =>
    by_cases hd : 49 ≤ c.toNat ∧ c.toNat ≤ 57
    · exact ⟨_, ⟨rfl, rfl, rfl⟩, fun rest _ => step_subst caps c rest _ rfl hd.1 hd.2⟩
    · obtain ⟨st1, hs1, hs2⟩ := step_plain_open caps c L CS C a hc
      exact ⟨st1, hs1, fun rest hn => by
        rw [step_percent_irrel caps c rest L CS C [] a nullChar false hd]
        exact hs2 rest hn⟩

theorem flush_open_sep (caps : QStringList) (c : Char) (rest : QString) (st : PState)
    (ho : st.Open) (hc : c = '\n' ∨ c = ';') :
    step caps c rest st = .cont (PState.plain (flush st) [] [] []) := by
  obtain ⟨L, CS, C, sc, a, q, e, p⟩ := st
  obtain ⟨h1, h2, h3⟩ := ho
  simp only at h1 h2 h3
  subst h1 h2 h3
  have hd : ¬ (49 ≤ c.toNat ∧ c.toNat ≤ 57) := by
    rcases hc with rfl | rfl <;> decide
  cases p with
  | false => exact step_sep caps c rest L CS C a hc
  | true =>
    rw [step_percent_irrel caps c rest L CS C [] a nullChar false hd]
    exact step_sep caps c rest L CS C a hc

theorem parseLoop_split (caps : QStringList) (sep : Char) (t2 : QString)
    (hsep : sep = '\n' ∨ sep = ';') :
    ∀ (t1 : QString) (st : PState), st.Open →
      (∀ c ∈ t1, c ≠ squote ∧ c ≠ dquote ∧ c ≠ backslash ∧ c ≠ ':') →
      parseLoop caps (t1 ++ sep :: t2) st = parseLoop caps t1 st ++ parseCommands t2 caps := by
  have hsepw : EndsWord (sep :: t2) := by
    intro d hd
    simp at hd
    subst hd
    rcases hsep with rfl | rfl <;> decide
  intro t1
  induction t1 with
  | nil =>
    intro st ho _
    rw [List.nil_append, parseLoop_cons, flush_open_sep caps sep t2 st ho hsep, parseLoop_nil]
    have h := parseLoop_prepend caps (flush st) t2 PState.init
    simpa [PState.prepend, PState.init, PState.plain, parseCommands] using h
  | cons c t1 ih =>
    intro st ho ht
    have hcolon : ':' ∉ c :: t1 := fun h => (ht _ h).2.2.2 rfl
    have hn1 : NoLabel (c :: (t1 ++ sep :: t2)) :=
      noLabel_append (c :: t1) (sep :: t2) hcolon hsepw
    have hn2 : NoLabel (c :: t1) := noLabel_nil_or (c :: t1) hcolon
    obtain ⟨st1, ho1, hs⟩ := step_open caps c st ho (ht c (by simp))
    rw [List.cons_append, parseLoop_cons, parseLoop_cons, hs _ hn1, hs _ hn2]
    exact ih st1 ho1 (fun x hx => ht x (by simp [hx]))

/-! ## The colon at the end of a line -/

theorem eq_of_colon_split :
    ∀ (l w x y : QString), ':' ∉ l → ':' ∉ w → l ++ ':' :: x = w ++ ':' :: y → l = w := by
  intro l
  induction l with
  | nil =>
    intro w x y _ hw h
    cases w with
    | nil => rfl
    | cons b w =>
      simp at h
      exact absurd (by rw [h.1]; exact List.mem_cons_self _ _) hw
  | cons a l ih =>
    intro w x y hl hw h
    cases w with
    | nil =>
      simp at h
      exact absurd (by rw [← h.1]; exact List.mem_cons_self _ _) hl
    | cons b w =>
      simp at h
      rw [h.1, ih w x y (fun e => hl (by simp [e])) (fun e => hw (by simp [e])) h.2]

theorem noLabel_word_colon (w rest : QString) (hw : ':' ∉ w) (hl : w ∉ labelWords) :
    NoLabel (w ++ ':' :: rest) := by
  have hall : ∀ l ∈ labelWords, ':' ∉ l := by decide
  have key : ∀ l : QString, l ∈ labelWords →
      (l ++ [':']).isPrefixOf (w ++ ':' :: rest) = false := by
    intro l hmem
    by_contra hp
    rw [Bool.not_eq_false, List.isPrefixOf_iff_prefix] at hp
    obtain ⟨r, hr⟩ := hp
    have hcl : ':' ∉ l := hall l hmem
    rw [List.append_assoc, List.singleton_append] at hr
    have := eq_of_colon_split l w r rest hcl hw hr
    exact hl (this ▸ hmem)
  intro command script
  have k1 := key "copyq".toList (by decide)
  have k2 := key "sh".toList (by decide)
  have k3 := key "bash".toList (by decide)
  have k4 := key "perl".toList (by decide)
  have k5 := key "python".toList (by decide)
  have k6 := key "ruby".toList (by decide)
  simp only [String.toList, List.cons_append, List.nil_append] at k1 k2 k3 k4 k5 k6
  simp only [applyLabel, getScriptFromLabel, String.toList, k1, k2, k3, k4, k5, k6]
  simp

theorem step_colon_break (caps : QStringList) (r : QString) (L : Plan)
    (CS : List QStringList) (C : QStringList) (a : QString) :
    step caps ':' ('\n' :: r) (PState.plain L CS C a) =
      .brk (PState.plain L CS (appendAndClearNonEmpty a C).2 r) := by
  simp [step, PState.plain, isNull, nullChar, backslash, squote, dquote, isSpace]

theorem join_spaced (w : QString) (ws : QStringList) :
    join (w :: ws) " ".toList = w ++ moreText (spaced ws) := by
  have hs : " ".toList = [' '] := rfl
  rw [hs]
  induction ws generalizing w with
  | nil => simp [join, moreText, spaced, List.intercalate]
  | cons v ws ih =>
    have h := ih v
    simp only [join, List.intercalate, List.intersperse, spaced, List.map, moreText] at h ⊢
    simp [h]

theorem spaced_wf (ws : QStringList) (hw : ∀ w ∈ ws, OrdWord w) :
    ∀ p ∈ spaced ws, p.1 ≠ [] ∧ Blanks p.1 ∧ OrdWord p.2 := by
  intro p hp
  simp only [spaced, List.mem_map] at hp
  obtain ⟨w, hw1, rfl⟩ := hp
  exact ⟨by simp, by intro c hc; simp at hc; exact Or.inl hc, hw w hw1⟩

theorem spaced_snd (ws : QStringList) : (spaced ws).map Prod.snd = ws := by
  simp [spaced, Function.comp_def]

/-! ## Tame text and trimming -/

theorem isTame_facts {c : Char} (h : isTame c = true) :
    c ≠ squote ∧ c ≠ dquote ∧ c ≠ backslash ∧ c ≠ ':' ∧ c ≠ '%' := by
  simpa [isTame, bne_iff_ne, and_assoc] using h

theorem cleanChar_facts {c : Char} (h : cleanChar c = true) :
    isOrdinary c = true ∧ c ≠ ':' ∧ isTame c = true := by
  have h1 : isSpace c = false ∧ c ≠ squote ∧ c ≠ dquote ∧ c ≠ backslash ∧ c ≠ '%' ∧
      c ≠ '|' ∧ c ≠ ';' ∧ c ≠ ':' := by
    simpa [cleanChar, bne_iff_ne, and_assoc] using h
  obtain ⟨a1, a2, a3, a4, a5, a6, a7, a8⟩ := h1
  have a9 : c ≠ '\n' := by
    rintro rfl; exact absurd a1 (by decide)
  refine ⟨?_, a8, ?_⟩
  · simp [isOrdinary, a1, a2, a3, a4, a5, a6, a7, a9]
  · simp [isTame, a2, a3, a4, a5, a8]

theorem cleanToken_ord {t : QString} (h : CleanToken t) : OrdWord t :=
  ⟨h.1, fun c hc => ⟨(cleanChar_facts (h.2 c hc)).1, (cleanChar_facts (h.2 c hc)).2.1⟩⟩

theorem isSpace_tame {c : Char} (h : isSpace c = true) : isTame c = true := by
  obtain ⟨h1, h2, h3, -, -, h6, h7⟩ := isSpace_facts h
  simp only [beq_eq_false_iff_ne] at h1 h2 h3 h6 h7
  simp [isTame, h1, h2, h3, h6, h7]

theorem tame_no_colon {x : QString} (h : ∀ c ∈ x, isTame c = true) : ':' ∉ x :=
  fun hc => absurd (h _ hc) (by decide)

theorem step_tame (caps : QStringList) (c : Char) (L : Plan)
    (CS : List QStringList) (C : QStringList) (a : QString) (hc : isTame c = true) :
    ∃ (L1 : Plan) (CS1 : List QStringList) (C1 : QStringList) (a1 : QString),
      ∀ rest, NoLabel (c :: rest) →
        step caps c rest (PState.plain L CS C a) = .cont (PState.plain L1 CS1 C1 a1) := by
  obtain ⟨h1, h2, h3, h4, h5⟩ := isTame_facts hc
  by_cases c2 : c = '|'
  · subst c2
    exact ⟨_, _, _, _, fun rest _ => step_bar caps rest L CS C a⟩
  by_cases c3 : c = '\n' ∨ c = ';'
  · exact ⟨_, _, _, _, fun rest _ => step_sep caps c rest L CS C a c3⟩
  by_cases c4 : isSpace c = true
  · exact ⟨_, _, _, _,
      fun rest _ => step_space caps c rest L CS C a c4 (fun e => c3 (Or.inl e))⟩
  · have ho : isOrdinary c = true := by
      simp only [not_or] at c3
      simp [isOrdinary, h1, h2, h3, h5, c2, c3.1, c3.2, c4]
    exact ⟨_, _, _, _, fun rest hn =>
      step_ordinary caps c rest L CS C a ho (by simp [h4]) (Or.inr (Or.inr hn))⟩

theorem parseLoop_tame (caps : QStringList) :
    ∀ (x : QString) (L : Plan) (CS : List QStringList) (C : QStringList) (a : QString),
      (∀ c ∈ x, isTame c = true) →
      ∃ (L1 : Plan) (CS1 : List QStringList) (C1 : QStringList) (a1 : QString),
        ∀ rest, ':' ∉ rest →
          parseLoop caps (x ++ rest) (PState.plain L CS C a) =
            parseLoop caps rest (PState.plain L1 CS1 C1 a1) := by
  intro x
  induction x with
  | nil => intro L CS C a _; exact ⟨L, CS, C, a, fun rest _ => rfl⟩
  | cons c x ih =>
    intro L CS C a hx
    obtain ⟨L1, CS1, C1, a1, hs⟩ := step_tame caps c L CS C a (hx c (by simp))
    have hx1 : ∀ d ∈ x, isTame d = true := fun d hd => hx d (by simp [hd])
    obtain ⟨L2, CS2, C2, a2, hr⟩ := ih L1 CS1 C1 a1 hx1
    refine ⟨L2, CS2, C2, a2, fun rest hrest => ?_⟩
    have hn : NoLabel (c :: (x ++ rest)) := by
      apply noLabel_nil_or
      intro hmem
      rcases List.mem_cons.mp hmem with e | e
      · exact (isTame_facts (hx c (by simp))).2.2.2.1 e.symm
      · rcases List.mem_append.mp e with e | e
        · exact tame_no_colon hx1 e
        · exact hrest e
    rw [List.cons_append, parseLoop_cons, hs _ hn]
    exact hr rest hrest

theorem parseLoop_spaces (caps : QStringList) :
    ∀ (ws : QString) (L : Plan) (CS : List QStringList) (C : QStringList) (a : QString),
      (∀ c ∈ ws, isSpace c = true) →
      parseLoop caps ws (PState.plain L CS C a) = flush (PState.plain L CS C a) := by
  intro ws
  induction ws with
  | nil => intro L CS C a _; rfl
  | cons c ws ih =>
    intro L CS C a hws
    have hws1 : ∀ d ∈ ws, isSpace d = true := fun d hd => hws d (by simp [hd])
    by_cases hc : c = '\n'
    · rw [parseLoop_cons, step_sep caps c ws L CS C a (Or.inl hc)]
      exact ih _ _ _ _ hws1
    · rw [parseLoop_cons, step_space caps c ws L CS C a (hws c (by simp)) hc]
      dsimp only
      rw [ih _ _ _ _ hws1]
      simp [flush, PState.plain, aac_snd_nil]

theorem parseLoop_lead_spaces (caps : QStringList) (z : QString) (L : Plan) :
    ∀ (ws : QString), (∀ c ∈ ws, isSpace c = true) →
      parseLoop caps (ws ++ z) (PState.plain L [] [] []) =
        parseLoop caps z (PState.plain L [] [] []) := by
  intro ws
  induction ws with
  | nil => intro _; rfl
  | cons c ws ih =>
    intro hws
    have hws1 : ∀ d ∈ ws, isSpace d = true := fun d hd => hws d (by simp [hd])
    by_cases hc : c = '\n'
    · rw [List.cons_append, parseLoop_cons, step_sep caps c _ L [] [] [] (Or.inl hc)]
      exact ih hws1
    · rw [List.cons_append, parseLoop_cons,
        step_space caps c _ L [] [] [] (hws c (by simp)) hc]
      exact ih hws1

theorem trimmed_decomp (x : QString) :
    ∃ lead ws : QString, (∀ c ∈ lead, isSpace c = true) ∧ (∀ c ∈ ws, isSpace c = true) ∧
      x = lead ++ (trimmed x ++ ws) := by
  refine ⟨x.takeWhile isSpace, ((x.dropWhile isSpace).reverse.takeWhile isSpace).reverse,
    fun c hc => (List.mem_takeWhile_imp hc), ?_, ?_⟩
  · intro c hc
    exact List.mem_takeWhile_imp (List.mem_reverse.mp hc)
  · have h1 : trimmed x ++ ((x.dropWhile isSpace).reverse.takeWhile isSpace).reverse
        = x.dropWhile isSpace := by
      rw [trimmed, ← List.reverse_append, List.takeWhile_append_dropWhile,
        List.reverse_reverse]
    rw [h1, List.takeWhile_append_dropWhile]

theorem parseLoop_trimmed (caps : QStringList) (x : QString)
    (hx : ∀ c ∈ x, isTame c = true) :
    parseLoop caps (trimmed x) PState.init = parseLoop caps x PState.init := by
  obtain ⟨lead, ws, h1, h2, h3⟩ := trimmed_decomp x
  have ht : ∀ c ∈ trimmed x, isTame c = true := by
    intro c hc
    apply hx c
    rw [h3]
    simp [hc]
  obtain ⟨L1, CS1, C1, a1, hr⟩ := parseLoop_tame caps (trimmed x) [] [] [] [] ht
  have e1 := hr [] (by simp)
  have e2 := hr ws (tame_no_colon (fun c hc => isSpace_tame (h2 c hc)))
  rw [List.append_nil] at e1
  rw [init_eq_plain]
  conv_rhs => rw [h3]
  rw [parseLoop_lead_spaces caps _ [] lead h1, e1, e2, parseLoop_spaces caps ws _ _ _ _ h2]
  rfl

/-! ## Re-parsing the text of `Action::command` -/

theorem mem_moreText_spaced (ws : QStringList) (c : Char) (h : c ∈ moreText (spaced ws)) :
    c = ' ' ∨ ∃ w ∈ ws, c ∈ w := by
  induction ws with
  | nil => simp [spaced, moreText] at h
  | cons v ws ih =>
    simp only [spaced, List.map, moreText, List.mem_append, List.mem_singleton] at h
    rcases h with (h | h) | h
    · exact Or.inl h
    · exact Or.inr ⟨v, by simp, h⟩
    · rcases ih h with e | ⟨w, hw, hc⟩
      · exact Or.inl e
      · exact Or.inr ⟨w, by simp [hw], hc⟩

theorem join_tame (args : QStringList) (h : ∀ tok ∈ args, CleanToken tok) :
    ∀ c ∈ join args " ".toList, isTame c = true := by
  intro c hc
  cases args with
  | nil => simp [join, List.intercalate] at hc
  | cons w ws =>
    rw [join_spaced] at hc
    rcases List.mem_append.mp hc with e | e
    · exact (cleanChar_facts ((h w (by simp)).2 c e)).2.2
    · rcases mem_moreText_spaced ws c e with rfl | ⟨v, hv, hcv⟩
      · decide
      · exact (cleanChar_facts ((h v (by simp [hv])).2 c hcv)).2.2

theorem join_ne_nil (args : QStringList) (hne : args ≠ [])
    (h : ∀ tok ∈ args, CleanToken tok) : join args " ".toList ≠ [] := by
  cases args with
  | nil => exact absurd rfl hne
  | cons w ws =>
    rw [join_spaced]
    have := (h w (by simp)).1
    simp [this]

theorem parseLoop_args (caps : QStringList) (L : Plan) (CS : List QStringList)
    (args : QStringList) (hne : args ≠ []) (h : ∀ tok ∈ args, CleanToken tok) :
    ∃ (C1 : QStringList) (a1 : QString),
      (appendAndClearNonEmpty a1 C1).2 = args ∧
      ∀ rest, ':' ∉ rest →
        parseLoop caps (join args " ".toList ++ rest) (PState.plain L CS [] []) =
          parseLoop caps rest (PState.plain L CS C1 a1) := by
  cases args with
  | nil => exact absurd rfl hne
  | cons w ws =>
    obtain ⟨C1, a1, h1, h2⟩ := parseLoop_words_gen caps L CS (spaced ws) w []
      (cleanToken_ord (h w (by simp)))
      (spaced_wf ws (fun x hx => cleanToken_ord (h x (by simp [hx]))))
    rw [List.nil_append, spaced_snd] at h1
    refine ⟨C1, a1, h1, fun rest hr => ?_⟩
    have ht := join_tame (w :: ws) h
    rw [join_spaced] at ht ⊢
    apply h2 rest (Or.inr (noLabel_nil_or _ ?_))
    intro hmem
    rcases List.mem_append.mp hmem with e | e
    · exact tame_no_colon ht e
    · exact hr e

theorem reach_append (caps : QStringList) (T piece : QString) (S S1 : PState)
    (h : Reach caps T S) (hp : ':' ∉ piece)
    (hrun : ∀ rest, ':' ∉ rest → parseLoop caps (piece ++ rest) S = parseLoop caps rest S1) :
    Reach caps (T ++ piece) S1 := by
  intro rest hr
  rw [List.append_assoc, h (piece ++ rest) (by simp [hp, hr])]
  exact hrun rest hr

theorem stageInv_step (caps : QStringList) (T : QString) (L : Plan) (D : List QStringList)
    (args : QStringList) (hne : args ≠ []) (hc : ∀ tok ∈ args, CleanToken tok)
    (h : StageInv caps T L D) :
    StageInv caps (commandStage T args) L (D ++ [args]) ∧ commandStage T args ≠ [] := by
  obtain ⟨ht, CS, C, a, hD, hreach, hnil⟩ := h
  obtain ⟨C1, a1, h1, hrun⟩ := parseLoop_args caps L D args hne hc
  have hj := join_tame args hc
  have hjne := join_ne_nil args hne hc
  have hnext : (appendAndClearNonEmpty (appendAndClearNonEmpty a1 C1).2 D).2 = D ++ [args] := by
    rw [h1, aac_snd_ne _ _ hne]
  by_cases hT : T = []
  · obtain ⟨e1, e2, e3⟩ := hnil hT
    subst hT e1 e2 e3
    have hD0 : D = [] := by rw [← hD]; rfl
    subst hD0
    refine ⟨⟨?_, [], C1, a1, hnext, ?_, ?_⟩, ?_⟩
    · simpa [commandStage] using hj
    · have := reach_append caps [] (join args " ".toList) _ _ hreach (tame_no_colon hj) hrun
      simpa [commandStage] using this
    · intro e; simp [commandStage] at e; exact absurd e hjne
    · simpa [commandStage] using hjne
  · have hbar : ∀ rest, ':' ∉ rest →
        parseLoop caps (('|' :: join args " ".toList) ++ rest) (PState.plain L CS C a)
          = parseLoop caps rest (PState.plain L D C1 a1) := by
      intro rest hr
      rw [List.cons_append, parseLoop_cons, step_bar, hD]
      exact hrun rest hr
    have hcs : commandStage T args = T ++ '|' :: join args " ".toList := by
      simp [commandStage, hT]
    rw [hcs]
    refine ⟨⟨?_, D, C1, a1, hnext, ?_, ?_⟩, by simp⟩
    · intro c hmem
      rcases List.mem_append.mp hmem with e | e
      · exact ht c e
      · rcases List.mem_cons.mp e with rfl | e
        · decide
        · exact hj c e
    · apply reach_append caps T _ _ _ hreach ?_ hbar
      intro hmem
      rcases List.mem_cons.mp hmem with e | e
      · exact absurd e (by decide)
      · exact tame_no_colon hj e
    · intro e; simp at e

theorem stageInv_foldl (caps : QStringList) (L : Plan) :
    ∀ (stages : List QStringList) (T : QString) (D : List QStringList),
      (∀ st ∈ stages, st ≠ [] ∧ ∀ tok ∈ st, CleanToken tok) →
      StageInv caps T L D → StageInv caps (stages.foldl commandStage T) L (D ++ stages) := by
  intro stages
  induction stages with
  | nil => intro T D _ h; simpa using h
  | cons st stages ih =>
    intro T D hs h
    obtain ⟨h1, h2⟩ := hs st (by simp)
    have h3 := (stageInv_step caps T L D st h1 h2 h).1
    have h4 := ih (commandStage T st) (D ++ [st]) (fun x hx => hs x (by simp [hx])) h3
    simpa using h4

theorem lineInv_step (caps : QStringList) (T : QString) (L : Plan) (line : List QStringList)
    (hne : line ≠ []) (hs : ∀ st ∈ line, st ≠ [] ∧ ∀ tok ∈ st, CleanToken tok)
    (h : LineInv caps T L) : LineInv caps (commandLine T line) (L ++ [line]) := by
  obtain ⟨ht, hreach⟩ := h
  have h0 : StageInv caps T L [] := ⟨ht, [], [], [], rfl, hreach, fun _ => ⟨rfl, rfl, rfl⟩⟩
  obtain ⟨ht1, CS, C, a, hD, hreach1, -⟩ := stageInv_foldl caps L line T [] hs h0
  rw [List.nil_append] at hD
  refine ⟨?_, ?_⟩
  · intro c hmem
    rcases List.mem_append.mp hmem with e | e
    · exact ht1 c e
    · rw [List.mem_singleton.mp e]; decide
  · apply reach_append caps _ ['\n'] _ _ hreach1 (by decide)
    intro rest _
    rw [List.singleton_append, parseLoop_cons, step_sep caps _ rest L CS C a (Or.inl rfl)]
    simp only [flush, PState.plain]
    rw [hD, aac_snd_ne _ _ hne]

theorem lineInv_foldl (caps : QStringList) :
    ∀ (lines : Plan) (T : QString) (L : Plan),
      (∀ line ∈ lines, line ≠ [] ∧ ∀ st ∈ line, st ≠ [] ∧ ∀ tok ∈ st, CleanToken tok) →
      LineInv caps T L → LineInv caps (lines.foldl commandLine T) (L ++ lines) := by
  intro lines
  induction lines with
  | nil => intro T L _ h; simpa using h
  | cons line lines ih =>
    intro T L hl h
    obtain ⟨h1, h2⟩ := hl line (by simp)
    have h3 := lineInv_step caps T L line h1 h2 h
    have h4 := ih (commandLine T line) (L ++ [line]) (fun x hx => hl x (by simp [hx])) h3
    simpa using h4

theorem parseCommands_command (caps : QStringList) (plan : Plan) (hg : GoodPlan plan)
    (hc : ∀ line ∈ plan, ∀ st ∈ line, ∀ tok ∈ st, CleanToken tok) :
    parseCommands (Action.command plan) caps = plan := by
  have h0 : LineInv caps [] [] := ⟨by simp, fun rest _ => rfl⟩
  obtain ⟨ht, hreach⟩ := lineInv_foldl caps plan [] []
    (fun line hl => ⟨(hg line hl).1, fun st hs => ⟨(hg line hl).2 st hs, hc line hl st hs⟩⟩) h0
  rw [List.nil_append] at hreach
  have h := hreach [] (by simp)
  rw [List.append_nil, parseLoop_nil, flush_plain_nil] at h
  rw [parseCommands, Action.command, parseLoop_trimmed caps _ ht, h]

/-! ## A script label after other text -/

theorem scanPrefix_cut :
    scanPrefix [[Char.ofNat 0x1F600]] "%19".toList "sh:x".toList PState.init = none := by
  decide

theorem splitGo_ne_nil (sep : QString) :
    ∀ (text : QString) (skip : Nat) (cur : QString), splitGo sep text skip cur ≠ [] := by
  intro text
  induction text with
  | nil => intro skip cur; simp [splitGo]
  | cons c t ih =>
    intro skip cur
    cases skip with
    | zero =>
      rw [splitGo]
      split
      · simp
      · exact ih 0 _
    | succ k => rw [splitGo]; exact ih k cur

theorem join_cons_of_ne_nil (x : QString) (l : QStringList) (sep : QString) (hl : l ≠ []) :
    join (x :: l) sep = x ++ sep ++ join l sep := by
  cases l with
  | nil => exact absurd rfl hl
  | cons y l => simp [join, List.intercalate, List.intersperse]

theorem isPrefixOf_split {sep text : QString} (h : sep.isPrefixOf text = true) :
    text = sep ++ text.drop sep.length := by
  rw [List.isPrefixOf_iff_prefix] at h
  obtain ⟨r, rfl⟩ := h
  simp

theorem join_splitGo (sep : QString) (hsep : sep ≠ []) :
    ∀ (text : QString) (skip : Nat) (cur : QString), skip ≤ text.length →
      join (splitGo sep text skip cur) sep = cur ++ text.drop skip := by
  intro text
  induction text with
  | nil => intro skip cur _; simp [splitGo, join, List.intercalate]
  | cons c t ih =>
    intro skip cur hk
    cases skip with
    | succ k =>
      rw [splitGo, ih k cur (by simpa using hk)]
      simp
    | zero =>
      rw [splitGo]
      split
      · rename_i hp
        have hlen : 1 ≤ sep.length := List.length_pos.mpr hsep
        have hdec := isPrefixOf_split hp
        have hle : sep.length ≤ (c :: t).length := by
          have := congrArg List.length hdec
          simp only [List.length_append] at this
          omega
        have hdrop : (c :: t).drop sep.length = t.drop (sep.length - 1) := by
          obtain ⟨m, hm⟩ : ∃ m, sep.length = m + 1 := ⟨sep.length - 1, by omega⟩
          rw [hm]; simp
        rw [join_cons_of_ne_nil _ _ _ (splitGo_ne_nil sep _ _ _),
          ih (sep.length - 1) [] (by simp at hle; omega), List.nil_append, ← hdrop]
        rw [List.drop_zero, List.append_assoc, ← hdec]
      · rw [ih 0 (cur ++ [c]) (Nat.zero_le _)]
        simp

theorem join_split (text sep : QString) (hsep : sep ≠ []) :
    join (split text sep) sep = text := by
  have h : sep.isEmpty = false := by cases sep <;> simp at hsep ⊢
  rw [split, h]
  simpa using join_splitGo sep hsep text 0 [] (Nat.zero_le _)

theorem split_ne_nil (text sep : QString) : split text sep ≠ [] := by
  unfold split
  split
  · simp
  · exact splitGo_ne_nil sep text 0 []

theorem noSep_splitGo (sep : QString) (hsep : sep ≠ []) :
    ∀ (text : QString) (skip : Nat) (cur : QString),
      (skip = 0 → ∀ s t, cur ++ text = s ++ sep ++ t → cur.length ≤ s.length) →
      (skip ≠ 0 → cur = []) →
      ∀ x ∈ splitGo sep text skip cur, ¬ sep <:+: x := by
  have hlen : 1 ≤ sep.length := List.length_pos.mpr hsep
  have piece : ∀ (cur text : QString),
      (∀ s t, cur ++ text = s ++ sep ++ t → cur.length ≤ s.length) → ¬ sep <:+: cur := by
    rintro cur text h ⟨s, t, hst⟩
    have h1 := h s (t ++ text) (by rw [← hst]; simp)
    have h2 := congrArg List.length hst
    simp only [List.length_append] at h2
    omega
  intro text
  induction text with
  | nil =>
    intro skip cur h0 h1 x hx
    simp only [splitGo, List.mem_singleton] at hx
    subst hx
    by_cases hk : skip = 0
    · exact piece x [] (h0 hk)
    · rw [h1 hk]
      rintro ⟨s, t, hst⟩
      have h2 := congrArg List.length hst
      simp only [List.length_append, List.length_nil] at h2
      omega
  | cons c t ih =>
    intro skip cur h0 h1
    cases skip with
    | succ k =>
      rw [splitGo, h1 (by simp)]
      exact ih k [] (fun _ s t _ => Nat.zero_le _) (fun _ => rfl)
    | zero =>
      rw [splitGo]
      split
      · intro x hx
        rcases List.mem_cons.mp hx with rfl | hx
        · exact piece x (c :: t) (h0 rfl)
        · exact ih _ [] (fun _ s t _ => Nat.zero_le _) (fun _ => rfl) x hx
      · rename_i hp
        apply ih 0 (cur ++ [c]) _ (fun h => absurd rfl h)
        intro _ s u hsu
        have hsu1 : cur ++ c :: t = s ++ sep ++ u := by simpa using hsu
        have h2 := h0 rfl s u hsu1
        simp only [List.length_append, List.length_singleton]
        by_contra hlt
        have heq : cur.length = s.length := by omega
        rw [List.append_assoc] at hsu1
        have h3 := List.append_inj hsu1 heq
        apply hp
        rw [List.isPrefixOf_iff_prefix, h3.2]
        exact List.prefix_append sep u

theorem noSep_split (text sep : QString) (hsep : sep ≠ []) :
    ∀ x ∈ split text sep, ¬ sep <:+: x := by
  have h : sep.isEmpty = false := by cases sep <;> simp at hsep ⊢
  rw [split, h]
  exact noSep_splitGo sep hsep text 0 [] (fun _ s t _ => Nat.zero_le _) (fun h => absurd rfl h)

theorem dropLast_append_getLastD {α : Type} (d : α) :
    ∀ l : List α, l ≠ [] → l.dropLast ++ [l.getLastD d] = l := by
  intro l
  induction l with
  | nil => intro h; exact absurd rfl h
  | cons x l ih =>
    intro _
    cases l with
    | nil => rfl
    | cons y l =>
      have h := ih (by simp)
      simp only [List.dropLast_cons₂, List.getLastD_cons, List.cons_append] at h ⊢
      rw [h]

theorem mem_getLastD_of_ne_nil {α : Type} (d : α) (l : List α) (h : l ≠ []) :
    l.getLastD d ∈ l := by
  have e := dropLast_append_getLastD d l h
  rw [← e]
  simp

/-! ## Realizing a line -/

theorem stageProc_not_last {f m k : Nat} (h : k + 1 ≠ m) :
    stageProc f m k = .child (f + k) := by
  simp [stageProc, h]

theorem stageProc_last {f m k : Nat} (h : k + 1 = m) : stageProc f m k = .self := by
  simp [stageProc, h]

theorem startPipe_spec (env : Env) (f m : Nat) :
    ∀ (l : List QStringList) (j n : Nat), j + l.length = m →
      (2 ≤ l.length → n = f + j + 1) → (∀ s ∈ l.dropLast, s ≠ []) →
      ∃ (effs : List Effect) (n2 : Nat),
        startPipe env l (stageProc f m j) n = some (effs, n2)
        ∧ launches effs
            = (l.dropLast.enumFrom j).map (fun p => startProcess env (stageProc f m p.1) p.2)
        ∧ wirings effs
            = (l.dropLast.enumFrom j).map
                (fun p => Effect.setStandardOutputProcess (stageProc f m p.1)
                  (stageProc f m (p.1 + 1)))
        ∧ selfStarts effs = [] ∧ inputWrites effs = [] ∧ terminals effs = [] := by
  intro l
  induction l with
  | nil => intro j n _ _ _; exact ⟨[], n, rfl, rfl, rfl, rfl, rfl, rfl⟩
  | cons args l ih =>
    intro j n hm hn hne
    cases l with
    | nil => exact ⟨[], n, rfl, rfl, rfl, rfl, rfl, rfl⟩
    | cons next rest =>
      have hargs : args ≠ [] := hne args (by simp [List.dropLast])
      have hargs1 : args.isEmpty = false := by
        cases args with
        | nil => exact absurd rfl hargs
        | cons _ _ => rfl
      have hn1 : n = f + j + 1 := hn (by simp)
      have hj : j + 1 ≠ m := by simp at hm; omega
      obtain ⟨pn, hpd⟩ : ∃ pn : ProcRef × Nat, pn = (if rest.isEmpty then
          ((ProcRef.self, n) : ProcRef × Nat) else (ProcRef.child n, n + 1)) := ⟨_, rfl⟩
      have hpn : pn.1 = stageProc f m (j + 1) := by
        rw [hpd]
        cases rest with
        | nil =>
          have : j + 1 + 1 = m := by simp at hm; omega
          simp [stageProc_last this]
        | cons r rs =>
          have : j + 1 + 1 ≠ m := by simp at hm; omega
          simp [stageProc_not_last this, hn1]; omega
      obtain ⟨effs, n2, h1, h2, h3, h4, h5, h6⟩ :=
        ih (j + 1) pn.2
          (by simp at hm ⊢; omega)
          (by
            intro h2
            rw [hpd]
            cases rest with
            | nil => simp at h2
            | cons r rs => simp [hn1]; omega)
          (fun s hs => hne s (by
            rw [List.dropLast_cons₂]; exact List.mem_cons_of_mem _ hs))
      rw [← hpn] at h1
      refine ⟨Effect.setStandardOutputProcess (stageProc f m j) pn.1
        :: startProcess env (stageProc f m j) args :: effs, n2, ?_, ?_, ?_, ?_, ?_, ?_⟩
      · rw [startPipe, if_neg (by simp [hargs1])]
        dsimp only
        rw [← hpd, h1]
      · simp only [launches, startProcess, List.filter_cons, List.dropLast_cons₂,
          List.enumFrom_cons, List.map_cons] at h2 ⊢
        simp only [if_true, Bool.false_eq_true, if_false]
        rw [h2]
      · rw [hpn]
        simp only [wirings, startProcess, List.filter_cons, List.dropLast_cons₂,
          List.enumFrom_cons, List.map_cons] at h3 ⊢
        simp only [if_true, Bool.false_eq_true, if_false]
        rw [h3]
      · simp only [selfStarts, startProcess, List.filter_cons, stageProc_not_last hj] at h4 ⊢
        simp only [Bool.false_eq_true, if_false]
        exact h4
      · simp only [inputWrites, startProcess, List.filter_cons] at h5 ⊢
        simp only [Bool.false_eq_true, if_false]
        exact h5
      · simp only [terminals, startProcess, List.filter_cons] at h6 ⊢
        have e1 : (Effect.setStandardOutputProcess (stageProc f m j) pn.1
            == Effect.actionFinished) = false := rfl
        have e2 : ∀ x y z, (Effect.start x y z == Effect.actionFinished) = false :=
          fun _ _ _ => rfl
        rw [e1, e2]
        simp only [Bool.false_eq_true, if_false]
        exact h6

theorem enumFrom_dropLast {α : Type} (d : α) :
    ∀ (l : List α) (j : Nat), l ≠ [] →
      l.enumFrom j = l.dropLast.enumFrom j ++ [(j + (l.length - 1), l.getLastD d)] := by
  intro l
  induction l with
  | nil => intro j h; exact absurd rfl h
  | cons x l ih =>
    intro j _
    cases l with
    | nil => simp
    | cons y l =>
      have h := ih (j + 1) (by simp)
      simp only [List.enumFrom_cons, List.dropLast_cons₂, List.cons_append, List.length_cons,
        List.getLastD_cons] at h ⊢
      rw [h]
      simp only [List.cons.injEq, true_and]
      congr 2
      simp only [List.cons.injEq, Prod.mk.injEq, and_true]
      omega

theorem launches_append (a b : List Effect) : launches (a ++ b) = launches a ++ launches b :=
  List.filter_append _ _

theorem wirings_append (a b : List Effect) : wirings (a ++ b) = wirings a ++ wirings b :=
  List.filter_append _ _

theorem selfStarts_append (a b : List Effect) :
    selfStarts (a ++ b) = selfStarts a ++ selfStarts b :=
  List.filter_append _ _

theorem inputWrites_append (a b : List Effect) :
    inputWrites (a ++ b) = inputWrites a ++ inputWrites b :=
  List.filter_append _ _

theorem terminals_append (a b : List Effect) :
    terminals (a ++ b) = terminals a ++ terminals b :=
  List.filter_append _ _

theorem realize_spec (env : Env) (a1 : Action) (cmds : List QStringList)
    (hne : cmds ≠ []) (hst : ∀ s ∈ cmds.dropLast, s ≠ []) :
    ∃ (n : Nat) (effs : List Effect),
      a1.realize env cmds
        = some ({ a1 with m_firstProcess := some (stageProc a1.children cmds.length 0),
                          children := n }, effs)
      ∧ launches effs
          = cmds.enum.map
              (fun p => startProcess env (stageProc a1.children cmds.length p.1) p.2)
      ∧ wirings effs
          = cmds.dropLast.enum.map
              (fun p => Effect.setStandardOutputProcess
                (stageProc a1.children cmds.length p.1)
                (stageProc a1.children cmds.length (p.1 + 1)))
      ∧ selfStarts effs = [startProcess env .self (cmds.getLastD [])]
      ∧ inputWrites effs = [] ∧ terminals effs = [] := by
  have hemp : cmds.isEmpty = false := by
    cases cmds with
    | nil => exact absurd rfl hne
    | cons _ _ => rfl
  have hlen : 1 ≤ cmds.length := List.length_pos.mpr hne
  have hlast : stageProc a1.children cmds.length (0 + (cmds.length - 1)) = .self :=
    stageProc_last (by omega)
  have henum : cmds.enum.map
        (fun p => startProcess env (stageProc a1.children cmds.length p.1) p.2)
      = cmds.dropLast.enum.map
          (fun p => startProcess env (stageProc a1.children cmds.length p.1) p.2)
        ++ [startProcess env .self (cmds.getLastD [])] := by
    rw [List.enum, enumFrom_dropLast ([] : QStringList) cmds 0 hne, List.map_append]
    simp only [List.map_cons, List.map_nil, hlast, List.enum]
  have hclose : ∀ b : Bool, launches (if b then [Effect.closeReadChannel] else []) = []
      ∧ wirings (if b then [Effect.closeReadChannel] else []) = []
      ∧ selfStarts (if b then [Effect.closeReadChannel] else []) = []
      ∧ inputWrites (if b then [Effect.closeReadChannel] else []) = []
      ∧ terminals (if b then [Effect.closeReadChannel] else []) = [] := by
    intro b; cases b <;> exact ⟨rfl, rfl, rfl, rfl, rfl⟩
  obtain ⟨c1, c2, c3, c4, c5⟩ := hclose a1.m_outputFormat.isEmpty
  have s1 : launches [startProcess env .self (cmds.getLastD [])]
      = [startProcess env .self (cmds.getLastD [])] := rfl
  have s2 : wirings [startProcess env .self (cmds.getLastD [])] = [] := rfl
  have s3 : selfStarts [startProcess env .self (cmds.getLastD [])]
      = [startProcess env .self (cmds.getLastD [])] := rfl
  have s4 : inputWrites [startProcess env .self (cmds.getLastD [])] = [] := rfl
  have s5 : terminals [startProcess env .self (cmds.getLastD [])] = [] := rfl
  by_cases hm : cmds.length > 1
  · obtain ⟨effs, n2, h1, h2, h3, h4, h5, h6⟩ :=
      startPipe_spec env a1.children cmds.length cmds 0 (a1.children + 1) (by simp)
        (fun _ => by omega) hst
    have h0 : stageProc a1.children cmds.length 0 = .child a1.children := by
      rw [stageProc_not_last (by omega)]; rfl
    rw [h0] at h1
    refine ⟨n2, effs ++ (if a1.m_outputFormat.isEmpty then [Effect.closeReadChannel] else [])
      ++ [startProcess env .self (cmds.getLastD [])], ?_, ?_, ?_, ?_, ?_, ?_⟩
    · unfold Action.realize
      rw [hemp, if_pos hm, h1, h0]
      rfl
    · rw [launches_append, launches_append, h2, c1, s1, List.append_nil, henum]; rfl
    · rw [wirings_append, wirings_append, h3, c2, s2, List.append_nil, List.append_nil]; rfl
    · rw [selfStarts_append, selfStarts_append, h4, c3, s3]; rfl
    · rw [inputWrites_append, inputWrites_append, h5, c4, s4]; rfl
    · rw [terminals_append, terminals_append, h6, c5, s5]; rfl
  · have h1 : cmds.length = 1 := by omega
    have hdl : cmds.dropLast = [] := by
      cases cmds with
      | nil => rfl
      | cons x l =>
        cases l with
        | nil => rfl
        | cons y l => simp at h1
    have h0 : stageProc a1.children cmds.length 0 = .self := stageProc_last (by omega)
    refine ⟨a1.children, [] ++ (if a1.m_outputFormat.isEmpty then [Effect.closeReadChannel]
      else []) ++ [startProcess env .self (cmds.getLastD [])], ?_, ?_, ?_, ?_, ?_, ?_⟩
    · unfold Action.realize
      rw [hemp, if_neg hm, h0]
      rfl
    · rw [launches_append, launches_append, c1, s1, henum, hdl]; rfl
    · rw [wirings_append, wirings_append, c2, s2, hdl]; rfl
    · rw [selfStarts_append, selfStarts_append, c3, s3]; rfl
    · rw [inputWrites_append, inputWrites_append, c4, s4]; rfl
    · rw [terminals_append, terminals_append, c5, s5]; rfl

/-! ## The slots of the runner, one at a time -/

theorem quiet_newItems (items : QStringList) (d : Dest) : Quiet [Effect.newItems items d] :=
  ⟨rfl, rfl, rfl, rfl, rfl⟩

theorem quiet_newItem (data : QByteArray) (fmt : QString) (d : Dest) :
    Quiet [Effect.newItem data fmt d] :=
  ⟨rfl, rfl, rfl, rfl, rfl⟩

theorem quiet_append {a b : List Effect} (ha : Quiet a) (hb : Quiet b) : Quiet (a ++ b) := by
  obtain ⟨a1, a2, a3, a4, a5⟩ := ha
  obtain ⟨b1, b2, b3, b4, b5⟩ := hb
  refine ⟨?_, ?_, ?_, ?_, ?_⟩
  · rw [launches_append, a1, b1]; rfl
  · rw [wirings_append, a2, b2]; rfl
  · rw [selfStarts_append, a3, b3]; rfl
  · rw [inputWrites_append, a4, b4]; rfl
  · rw [terminals_append, a5, b5]; rfl

theorem sameControl_trans {a b c : Action} (h1 : a.sameControl b) (h2 : b.sameControl c) :
    a.sameControl c := by
  obtain ⟨a1, a2, a3, a4, a5, a6, a7, a8, a9, a10⟩ := h1
  obtain ⟨b1, b2, b3, b4, b5, b6, b7, b8, b9, b10⟩ := h2
  exact ⟨b1.trans a1, b2.trans a2, b3.trans a3, b4.trans a4, b5.trans a5, b6.trans a6,
    b7.trans a7, b8.trans a8, b9.trans a9, b10.trans a10⟩

theorem actionOutput_frame (env : Env) (a : Action) (readAll : QByteArray) :
    a.sameControl (a.actionOutput env readAll).1 ∧ Quiet (a.actionOutput env readAll).2 := by
  unfold Action.actionOutput
  dsimp only
  split_ifs <;>
    exact ⟨⟨rfl, rfl, rfl, rfl, rfl, rfl, rfl, rfl, rfl, rfl⟩, ⟨rfl, rfl, rfl, rfl, rfl⟩⟩

theorem finishFlush_frame (env : Env) (a : Action) :
    a.sameControl (a.finishFlush env).1 ∧ Quiet (a.finishFlush env).2 := by
  unfold Action.finishFlush
  dsimp only
  split_ifs <;>
    exact ⟨⟨rfl, rfl, rfl, rfl, rfl, rfl, rfl, rfl, rfl, rfl⟩, ⟨rfl, rfl, rfl, rfl, rfl⟩⟩

theorem start_done (env : Env) (a : Action) (h : a.m_currentLine + 1 ≥ a.m_cmds.length) :
    a.start env = some (a, [.actionFinished]) := by
  unfold Action.start
  rw [if_pos h]

theorem start_realize (env : Env) (a : Action) (cmds : List QStringList)
    (hcur : -1 ≤ a.m_currentLine)
    (hline : a.m_cmds[(a.m_currentLine + 1).toNat]? = some cmds) :
    a.start env = { a with m_currentLine := a.m_currentLine + 1 }.realize env cmds := by
  have hlt : (a.m_currentLine + 1).toNat < a.m_cmds.length := by
    by_contra hge
    rw [List.getElem?_eq_none (by omega)] at hline
    exact Option.noConfusion hline
  unfold Action.start
  rw [if_neg (by omega)]
  dsimp only
  rw [if_neg (by omega), hline]

/-! ## Runs of events -/

theorem startPipe_some (env : Env) :
    ∀ (l : List QStringList) (p : ProcRef) (n : Nat) (r : List Effect × Nat),
      startPipe env l p n = some r → ∀ s ∈ l.dropLast, s ≠ [] := by
  intro l
  induction l with
  | nil => intro p n r _ s hs; simp at hs
  | cons args l ih =>
    intro p n r h
    cases l with
    | nil => intro s hs; simp at hs
    | cons next rest =>
      rw [startPipe] at h
      by_cases ha : args.isEmpty = true
      · rw [if_pos ha] at h; exact Option.noConfusion h
      · rw [if_neg ha] at h
        dsimp only at h
        cases hsp : startPipe env (next :: rest)
            (if rest.isEmpty then ((ProcRef.self, n) : ProcRef × Nat)
              else (ProcRef.child n, n + 1)).1
            (if rest.isEmpty then ((ProcRef.self, n) : ProcRef × Nat)
              else (ProcRef.child n, n + 1)).2 with
        | none => rw [hsp] at h; exact Option.noConfusion h
        | some r1 =>
          intro s hs
          rw [List.dropLast_cons₂] at hs
          rcases List.mem_cons.mp hs with rfl | hs
          · intro e; rw [e] at ha; exact ha rfl
          · exact ih _ _ r1 hsp s hs

theorem realize_some (env : Env) (a1 : Action) (cmds : List QStringList)
    (r : Action × List Effect) (h : a1.realize env cmds = some r) :
    cmds ≠ [] ∧ ∀ s ∈ cmds.dropLast, s ≠ [] := by
  unfold Action.realize at h
  by_cases he : cmds.isEmpty = true
  · rw [if_pos he] at h; exact Option.noConfusion h
  · refine ⟨fun e => he (by rw [e]; rfl), ?_⟩
    rw [if_neg he] at h
    dsimp only at h
    by_cases hm : cmds.length > 1
    · rw [if_pos hm] at h
      cases hsp : startPipe env cmds (.child a1.children) (a1.children + 1) with
      | none => rw [hsp] at h; exact Option.noConfusion h
      | some r1 => exact startPipe_some env cmds _ _ r1 hsp
    · intro s hs
      have : cmds.dropLast = [] := by
        cases cmds with
        | nil => rfl
        | cons x l =>
          cases l with
          | nil => rfl
          | cons y l => simp at hm
      rw [this] at hs
      simp at hs

theorem start_cases (env : Env) (a : Action) (r : Action × List Effect)
    (h : a.start env = some r) :
    (a.m_currentLine + 1 ≥ a.m_cmds.length ∧ r = (a, [.actionFinished]))
    ∨ (a.m_currentLine + 1 < a.m_cmds.length ∧ 0 ≤ a.m_currentLine + 1
        ∧ ∃ cmds, a.m_cmds[(a.m_currentLine + 1).toNat]? = some cmds
          ∧ { a with m_currentLine := a.m_currentLine + 1 }.realize env cmds = some r) := by
  unfold Action.start at h
  by_cases h1 : a.m_currentLine + 1 ≥ a.m_cmds.length
  · rw [if_pos h1] at h
    exact Or.inl ⟨h1, (Option.some.inj h).symm⟩
  · rw [if_neg h1] at h
    dsimp only at h
    by_cases h2 : a.m_currentLine + 1 < 0
    · rw [if_pos h2] at h; exact Option.noConfusion h
    · rw [if_neg h2] at h
      cases hc : a.m_cmds[(a.m_currentLine + 1).toNat]? with
      | none => rw [hc] at h; exact Option.noConfusion h
      | some cmds =>
        rw [hc] at h
        exact Or.inr ⟨by omega, by omega, cmds, rfl, h⟩

theorem start_facts (env : Env) (a : Action) (r : Action × List Effect)
    (h : a.start env = some r) : StepFacts a r.1 r.2 := by
  rcases start_cases env a r h with ⟨-, rfl⟩ | ⟨h1, -, cmds, -, hr⟩
  · exact ⟨⟨rfl, rfl, rfl, rfl, rfl, rfl⟩, id, Or.inl ⟨rfl, rfl, Or.inl ⟨rfl, rfl⟩⟩⟩
  · obtain ⟨hne, hst⟩ := realize_some env _ cmds r hr
    obtain ⟨n, effs, e1, -, -, e4, e5, -⟩ :=
      realize_spec env { a with m_currentLine := a.m_currentLine + 1 } cmds hne hst
    rw [hr] at e1
    have e := Option.some.inj e1
    rw [e]
    exact ⟨⟨rfl, rfl, rfl, rfl, rfl, rfl⟩, id,
      Or.inr ⟨rfl, h1, by rw [e4]; rfl, by simp, e5⟩⟩

theorem stepFacts_of_frame {a b c : Action} {l1 l2 : List Effect}
    (h1 : a.sameControl b) (q : Quiet l1) (h2 : StepFacts b c l2) :
    StepFacts a c (l1 ++ l2) := by
  obtain ⟨a1, a2, a3, a4, a5, a6, a7, a8, a9, -⟩ := h1
  obtain ⟨-, -, q3, q4, -⟩ := q
  obtain ⟨⟨c1, c2, c3, c4, c5, c6⟩, hf, hc⟩ := h2
  rw [a1, a9, a8] at hc
  refine ⟨⟨c1.trans a1, c2.trans a2, c3.trans a3, c4.trans a4, c5.trans a5, c6.trans a6⟩,
    fun h => hf (a7.trans h), ?_⟩
  rw [selfStarts_append, inputWrites_append, q3, q4, List.nil_append, List.nil_append]
  exact hc

theorem handle_facts (env : Env) (a : Action) (e : Event) (r : Action × List Effect)
    (h : a.handle env e = some r) : StepFacts a r.1 r.2 := by
  cases e with
  | start => exact start_facts env a r h
  | started =>
    have e := (Option.some.inj h).symm
    rw [e]
    unfold Action.actionStarted
    cases hp : a.m_firstProcess with
    | none =>
      exact ⟨⟨rfl, rfl, rfl, rfl, rfl, rfl⟩, id, Or.inl ⟨rfl, rfl, Or.inl ⟨rfl, rfl⟩⟩⟩
    | some p =>
      refine ⟨⟨rfl, rfl, rfl, rfl, rfl, rfl⟩, id, Or.inl ⟨rfl, ?_, Or.inr ⟨?_, rfl, ?_⟩⟩⟩
      · dsimp only
        cases byteArrayIsEmpty a.m_input <;> rfl
      · intro hn; rw [hn] at hp; exact Option.noConfusion hp
      · dsimp only
        cases byteArrayIsEmpty a.m_input <;> simp [inputWrites]
  | readyReadStandardOutput b =>
    have e := (Option.some.inj h).symm
    rw [e]
    obtain ⟨h1, q⟩ := actionOutput_frame env a b
    have := stepFacts_of_frame h1 q
      (⟨⟨rfl, rfl, rfl, rfl, rfl, rfl⟩, id, Or.inl ⟨rfl, rfl, Or.inl ⟨rfl, rfl⟩⟩⟩ :
        StepFacts (a.actionOutput env b).1 (a.actionOutput env b).1 [])
    simpa using this
  | finished b =>
    simp only [Action.handle, Action.actionFinished] at h
    cases hs : ((a.actionOutput env b).1.finishFlush env).1.start env with
    | none => rw [hs] at h; exact Option.noConfusion h
    | some s =>
      rw [hs] at h
      have e := (Option.some.inj h).symm
      rw [e]
      obtain ⟨h1, q1⟩ := actionOutput_frame env a b
      obtain ⟨h2, q2⟩ := finishFlush_frame env (a.actionOutput env b).1
      exact stepFacts_of_frame (sameControl_trans h1 h2) (quiet_append q1 q2)
        (start_facts env _ s hs)
  | error st =>
    have e := (Option.some.inj h).symm
    rw [e]
    unfold Action.actionError
    split_ifs
    · exact ⟨⟨rfl, rfl, rfl, rfl, rfl, rfl⟩, fun _ => rfl,
        Or.inl ⟨rfl, rfl, Or.inl ⟨rfl, rfl⟩⟩⟩
    · exact ⟨⟨rfl, rfl, rfl, rfl, rfl, rfl⟩, id, Or.inl ⟨rfl, rfl, Or.inl ⟨rfl, rfl⟩⟩⟩

theorem run_invariant (env : Env) (P : Action → List Effect → Prop)
    (hstep : ∀ a log e r, P a log → a.handle env e = some r → P r.1 (log ++ r.2)) :
    ∀ (events : List Event) (a : Action) (log : List Effect) (r : Action × List Effect),
      P a log → Action.run env events a = some r → P r.1 (log ++ r.2) := by
  intro events
  induction events with
  | nil =>
    intro a log r hp h
    rw [Action.run] at h
    rw [← Option.some.inj h]
    simpa using hp
  | cons e es ih =>
    intro a log r hp h
    rw [Action.run] at h
    cases h1 : a.handle env e with
    | none => rw [h1] at h; exact Option.noConfusion h
    | some r1 =>
      rw [h1] at h
      dsimp only at h
      cases h2 : Action.run env es r1.1 with
      | none => rw [h2] at h; exact Option.noConfusion h
      | some r2 =>
        rw [h2] at h
        rw [← Option.some.inj h]
        have := ih r1.1 (log ++ r1.2) r2 (hstep a log e r1 hp h1) h2
        simpa [List.append_assoc] using this

theorem run_cons (env : Env) (e : Event) (es : List Event) (a : Action) :
    Action.run env (e :: es) a =
      match a.handle env e with
      | none => none
      | some r =>
        match Action.run env es r.1 with
        | none => none
        | some r1 => some (r1.1, r.2 ++ r1.2) := rfl

theorem run_append (env : Env) (e : Event) :
    ∀ (es : List Event) (a : Action),
      Action.run env (es ++ [e]) a =
        match Action.run env es a with
        | none => none
        | some r =>
          match r.1.handle env e with
          | none => none
          | some r1 => some (r1.1, r.2 ++ r1.2) := by
  intro es
  induction es with
  | nil =>
    intro a
    rw [List.nil_append, run_cons]
    cases h : a.handle env e <;> simp [Action.run, h]
  | cons x es ih =>
    intro a
    rw [List.cons_append, run_cons, run_cons]
    cases h1 : a.handle env x with
    | none => rfl
    | some r1 =>
      dsimp only
      rw [ih r1.1]
      cases h2 : Action.run env es r1.1 with
      | none => rfl
      | some r2 =>
        dsimp only
        cases h3 : r2.1.handle env e with
        | none => rfl
        | some r3 => simp [List.append_assoc]

theorem start_step (env : Env) (a : Action) (hr : Runnable a.m_cmds)
    (hcur : -1 ≤ a.m_currentLine) :
    ∃ (b : Action) (l : List Effect),
      a.start env = some (b, l) ∧ b.m_cmds = a.m_cmds
      ∧ b.m_currentLine
          = (if a.m_currentLine + 1 ≥ a.m_cmds.length then a.m_currentLine
             else a.m_currentLine + 1)
      ∧ selfStarts l
          = (a.m_cmds[(a.m_currentLine + 1).toNat]?).toList.map
              (fun line => startProcess env .self (line.getLastD []))
      ∧ terminals l
          = (if a.m_currentLine + 1 ≥ a.m_cmds.length then [.actionFinished] else [])
      ∧ (a.m_currentLine + 1 ≥ a.m_cmds.length → l = [.actionFinished]) := by
  by_cases h : a.m_currentLine + 1 ≥ a.m_cmds.length
  · refine ⟨a, [.actionFinished], start_done env a h, rfl, by rw [if_pos h], ?_,
      by rw [if_pos h]; rfl, fun _ => rfl⟩
    rw [List.getElem?_eq_none (by omega)]
    rfl
  · have hlt : (a.m_currentLine + 1).toNat < a.m_cmds.length := by omega
    have hget : a.m_cmds[(a.m_currentLine + 1).toNat]?
        = some (a.m_cmds[(a.m_currentLine + 1).toNat]) := List.getElem?_eq_getElem hlt
    obtain ⟨hne, hst⟩ := hr _ (List.getElem_mem hlt)
    obtain ⟨n, effs, e1, -, -, e4, -, e6⟩ :=
      realize_spec env { a with m_currentLine := a.m_currentLine + 1 } _ hne hst
    refine ⟨_, effs, (start_realize env a _ hcur hget).trans e1, rfl, by rw [if_neg h], ?_,
      by rw [if_neg h, e6], fun h1 => absurd h1 h⟩
    rw [e4, hget]
    rfl

theorem finished_step (env : Env) (a : Action) (readAll : QByteArray)
    (hr : Runnable a.m_cmds) (hcur : -1 ≤ a.m_currentLine) :
    ∃ (b : Action) (l : List Effect),
      a.actionFinished env readAll = some (b, l) ∧ b.m_cmds = a.m_cmds
      ∧ b.m_currentLine
          = (if a.m_currentLine + 1 ≥ a.m_cmds.length then a.m_currentLine
             else a.m_currentLine + 1)
      ∧ selfStarts l
          = (a.m_cmds[(a.m_currentLine + 1).toNat]?).toList.map
              (fun line => startProcess env .self (line.getLastD []))
      ∧ terminals l
          = (if a.m_currentLine + 1 ≥ a.m_cmds.length then [.actionFinished] else [])
      ∧ (a.m_currentLine + 1 ≥ a.m_cmds.length → l.getLast? = some .actionFinished) := by
  obtain ⟨h1, q1⟩ := actionOutput_frame env a readAll
  obtain ⟨h2, q2⟩ := finishFlush_frame env (a.actionOutput env readAll).1
  obtain ⟨c1, -, -, -, -, -, -, -, c9, -⟩ := sameControl_trans h1 h2
  obtain ⟨-, -, q3, -, q5⟩ := quiet_append q1 q2
  obtain ⟨b, l, e1, e2, e3, e4, e5, e6⟩ :=
    start_step env ((a.actionOutput env readAll).1.finishFlush env).1
      (by rw [c1]; exact hr) (by rw [c9]; exact hcur)
  simp only [c1, c9] at e2 e3 e4 e5 e6
  refine ⟨b, (a.actionOutput env readAll).2
      ++ ((a.actionOutput env readAll).1.finishFlush env).2 ++ l, ?_, e2, e3, ?_, ?_, ?_⟩
  · simp only [Action.actionFinished, e1]
  · rw [selfStarts_append, q3, e4]; rfl
  · rw [terminals_append, q5, e5]; rfl
  · intro h
    rw [e6 h]
    simp

theorem run_lines (env : Env) (a0 : Action) (hr : Runnable a0.m_cmds)
    (h0 : a0.m_currentLine = -1) :
    ∀ bs : List QByteArray, bs.length ≤ a0.m_cmds.length →
      ∃ (a : Action) (log : List Effect),
        Action.run env (.start :: bs.map .finished) a0 = some (a, log)
        ∧ a.m_cmds = a0.m_cmds
        ∧ a.m_currentLine
            = (if bs.length < a0.m_cmds.length then (bs.length : Int)
               else (a0.m_cmds.length : Int) - 1)
        ∧ selfStarts log
            = (a0.m_cmds.take (bs.length + 1)).map
                (fun line => startProcess env .self (line.getLastD []))
        ∧ terminals log
            = (if bs.length = a0.m_cmds.length then [.actionFinished] else [])
        ∧ (bs.length = a0.m_cmds.length → log.getLast? = some .actionFinished) := by
  intro bs
  induction bs using List.reverseRecOn with
  | nil =>
    intro _
    obtain ⟨b, l, e1, e2, e3, e4, e5, e6⟩ := start_step env a0 hr (by omega)
    rw [h0] at e3 e4 e5 e6
    refine ⟨b, l, ?_, e2, ?_, ?_, ?_, ?_⟩
    · simp [Action.run, Action.handle, e1]
    · rw [e3]
      simp only [List.length_nil]
      split_ifs <;> omega
    · rw [e4]
      have : ((-1 : Int) + 1).toNat = 0 := rfl
      rw [this]
      simp only [List.length_nil, Nat.zero_add]
      rw [List.take_succ]
      simp
    · rw [e5]
      simp only [List.length_nil]
      split_ifs <;> first | rfl | omega
    · intro h
      rw [e6 (by simp at h; omega)]
      rfl
  | append_singleton bs b ih =>
    intro hlen
    simp only [List.length_append, List.length_singleton] at hlen
    obtain ⟨a, log, r1, r2, r3, r4, r5, -⟩ := ih (by omega)
    rw [if_pos (by omega)] at r3
    rw [if_neg (by omega)] at r5
    obtain ⟨c, l, e1, e2, e3, e4, e5, e6⟩ :=
      finished_step env a b (by rw [r2]; exact hr) (by omega)
    simp only [r2, r3] at e2 e3 e4 e5 e6
    refine ⟨c, log ++ l, ?_, e2, ?_, ?_, ?_, ?_⟩
    · have : Event.start :: (bs ++ [b]).map Event.finished
          = (Event.start :: bs.map Event.finished) ++ [Event.finished b] := by simp
      rw [this, run_append, r1]
      simp only [Action.handle, e1]
    · rw [e3]
      simp only [List.length_append, List.length_singleton]
      split_ifs <;> omega
    · rw [selfStarts_append, r4, e4]
      have : ((bs.length : Int) + 1).toNat = bs.length + 1 := by omega
      rw [this]
      simp only [List.length_append, List.length_singleton]
      rw [List.take_succ (n := bs.length + 1), List.map_append]
    · rw [terminals_append, r5, e5]
      simp only [List.length_append, List.length_singleton, List.nil_append]
      split_ifs <;> first | rfl | omega
    · intro h
      simp only [List.length_append, List.length_singleton] at h
      have := e6 (by omega)
      rw [List.getLast?_append, this]
      rfl

/-! ## Invariants of the runner -/

theorem start_buffers (env : Env) (a : Action) (r : Action × List Effect)
    (h : a.start env = some r) :
    r.1.m_items = a.m_items ∧ r.1.m_outputData = a.m_outputData
      ∧ r.1.m_lastOutput = a.m_lastOutput := by
  rcases start_cases env a r h with ⟨-, rfl⟩ | ⟨-, -, cmds, -, hr⟩
  · exact ⟨rfl, rfl, rfl⟩
  · obtain ⟨hne, hst⟩ := realize_some env _ cmds r hr
    obtain ⟨n, effs, e1, -⟩ :=
      realize_spec env { a with m_currentLine := a.m_currentLine + 1 } cmds hne hst
    rw [hr] at e1
    rw [Option.some.inj e1]
    exact ⟨rfl, rfl, rfl⟩

theorem actionOutput_text (env : Env) (a : Action) (readAll : QByteArray)
    (ht : hasTextOutput env a = true) :
    (a.actionOutput env readAll).1.m_items = a.m_items
      ∧ (a.actionOutput env readAll).1.m_outputData = a.m_outputData := by
  unfold Action.actionOutput
  rw [if_pos ht]
  dsimp only
  split_ifs <;> exact ⟨rfl, rfl⟩

theorem finishFlush_text (env : Env) (a : Action) (ht : hasTextOutput env a = true)
    (hi : a.m_items = []) :
    (a.finishFlush env).1.m_items = [] ∧ (a.finishFlush env).1.m_outputData = a.m_outputData := by
  unfold Action.finishFlush
  rw [if_pos ht]
  dsimp only
  split_ifs <;> exact ⟨by first | rfl | exact hi, rfl⟩

theorem hasTextOutput_congr (env : Env) {a b : Action}
    (h : b.m_outputFormat = a.m_outputFormat) : hasTextOutput env b = hasTextOutput env a := by
  simp only [hasTextOutput, h]

theorem handle_text (env : Env) (a : Action) (e : Event) (r : Action × List Effect)
    (ht : hasTextOutput env a = true) (hi : a.m_items = []) (hd : a.m_outputData = none)
    (h : a.handle env e = some r) :
    hasTextOutput env r.1 = true ∧ r.1.m_items = [] ∧ r.1.m_outputData = none := by
  have hf := (handle_facts env a e r h).1.2.2.1
  refine ⟨(hasTextOutput_congr env hf).trans ht, ?_⟩
  cases e with
  | start =>
    obtain ⟨h1, h2, -⟩ := start_buffers env a r h
    exact ⟨h1.trans hi, h2.trans hd⟩
  | started =>
    rw [← Option.some.inj h]
    unfold Action.actionStarted
    cases a.m_firstProcess <;> exact ⟨hi, hd⟩
  | readyReadStandardOutput b =>
    rw [← Option.some.inj h]
    obtain ⟨h1, h2⟩ := actionOutput_text env a b ht
    exact ⟨h1.trans hi, h2.trans hd⟩
  | finished b =>
    simp only [Action.handle, Action.actionFinished] at h
    cases hs : ((a.actionOutput env b).1.finishFlush env).1.start env with
    | none => rw [hs] at h; exact Option.noConfusion h
    | some s =>
      rw [hs] at h
      rw [← Option.some.inj h]
      obtain ⟨h1, h2⟩ := actionOutput_text env a b ht
      have ht1 : hasTextOutput env (a.actionOutput env b).1 = true :=
        (hasTextOutput_congr env (actionOutput_frame env a b).1.2.2.1).trans ht
      obtain ⟨h3, h4⟩ := finishFlush_text env _ ht1 (h1.trans hi)
      obtain ⟨h5, h6, -⟩ := start_buffers env _ s hs
      exact ⟨h5.trans h3, h6.trans (h4.trans (h2.trans hd))⟩
  | error st =>
    rw [← Option.some.inj h]
    unfold Action.actionError
    split_ifs <;> exact ⟨hi, hd⟩

theorem run_text (env : Env) (events : List Event) (a : Action) (r : Action × List Effect)
    (ht : hasTextOutput env a = true) (hi : a.m_items = []) (hd : a.m_outputData = none)
    (h : Action.run env events a = some r) :
    hasTextOutput env r.1 = true ∧ r.1.m_items = [] ∧ r.1.m_outputData = none :=
  run_invariant env
    (fun a _ => hasTextOutput env a = true ∧ a.m_items = [] ∧ a.m_outputData = none)
    (fun a _ e r hp hh => handle_text env a e r hp.1 hp.2.1 hp.2.2 hh)
    events a [] r ⟨ht, hi, hd⟩ h

theorem run_counts (env : Env) (events : List Event) (a0 : Action)
    (r : Action × List Effect) (h0 : a0.m_currentLine = -1) (hf : a0.m_firstProcess = none)
    (h : Action.run env events a0 = some r) :
    r.1.m_cmds = a0.m_cmds ∧ -1 ≤ r.1.m_currentLine
      ∧ r.1.m_currentLine + 1 ≤ a0.m_cmds.length
      ∧ ((selfStarts r.2).length : Int) = r.1.m_currentLine + 1
      ∧ (inputWrites r.2).length ≤ (selfStarts r.2).length
      ∧ (r.1.m_firstProcess ≠ none → (inputWrites r.2).length + 1 ≤ (selfStarts r.2).length) := by
  have key := run_invariant env
    (fun a log => a.m_cmds = a0.m_cmds ∧ -1 ≤ a.m_currentLine
      ∧ a.m_currentLine + 1 ≤ a0.m_cmds.length
      ∧ ((selfStarts log).length : Int) = a.m_currentLine + 1
      ∧ (inputWrites log).length ≤ (selfStarts log).length
      ∧ (a.m_firstProcess ≠ none → (inputWrites log).length + 1 ≤ (selfStarts log).length))
    (fun a log e r1 hp hh => by
      obtain ⟨p1, p2, p3, p4, p5, p6⟩ := hp
      obtain ⟨⟨c1, -⟩, -, hc⟩ := handle_facts env a e r1 hh
      rw [selfStarts_append, inputWrites_append, List.length_append, List.length_append]
      rcases hc with ⟨d1, d2, d3⟩ | ⟨d1, d2, d3, d4, d5⟩
      · rw [d2, d1]
        rcases d3 with ⟨d4, d5⟩ | ⟨d4, d5, d6⟩
        · rw [d5, d4]
          exact ⟨c1.trans p1, p2, p3, by simpa using p4, by simpa using p5,
            by simpa using p6⟩
        · have := p6 d4
          refine ⟨c1.trans p1, p2, p3, by simpa using p4, ?_, fun hn => absurd d5 hn⟩
          simp only [List.length_nil, Nat.add_zero]
          omega
      · rw [d1, d3, d5]
        rw [p1] at d2
        refine ⟨c1.trans p1, by omega, by omega, ?_, ?_, fun _ => ?_⟩
        · push_cast; omega
        · simp only [List.length_nil, Nat.add_zero]; omega
        · simp only [List.length_nil, Nat.add_zero]; omega)
    events a0 [] r
    ⟨rfl, by omega, by omega, by simp [selfStarts, h0], by simp [selfStarts, inputWrites],
      fun hn => absurd hf hn⟩ h
  simpa using key

/-! ## The registry of actions -/

theorem vectorIndexOf_mem (l : List Nat) (x : Nat) (h : x ∈ l) :
    vectorIndexOf l x ≠ -1 ∧ (vectorIndexOf l x).toNat = l.indexOf x
      ∧ l.getD (vectorIndexOf l x).toNat 0 = x := by
  have hlt : l.indexOf x < l.length := List.indexOf_lt_length.mpr h
  have e : vectorIndexOf l x = (l.indexOf x : Int) := by
    unfold vectorIndexOf; rw [if_pos hlt]
  rw [e]
  refine ⟨by omega, by omega, ?_⟩
  have : ((l.indexOf x : Int)).toNat = l.indexOf x := by omega
  rw [this, List.getD_eq_getElem?_getD, List.getElem?_eq_getElem hlt, List.getElem_indexOf hlt]
  rfl

theorem vectorIndexOf_not_mem (l : List Nat) (x : Nat) (h : x ∉ l) :
    vectorIndexOf l x = -1 := by
  have : ¬ l.indexOf x < l.length := fun hlt => h (List.indexOf_lt_length.mp hlt)
  unfold vectorIndexOf; rw [if_neg this]

theorem registry_data_eq (w : Registry) (id : Nat) :
    (w.data id).1 = (if id ∈ w.actions then w.m_data id else []) ∧ (w.data id).2 = w := by
  refine ⟨?_, rfl⟩
  unfold Registry.data
  dsimp only
  by_cases h : id ∈ w.actions
  · obtain ⟨h1, -, h3⟩ := vectorIndexOf_mem w.actions id h
    rw [if_pos h1, if_pos h, h3]
  · rw [vectorIndexOf_not_mem w.actions id h, if_neg h]
    rfl

theorem registry_run_inv :
    ∀ (ops : List RegOp) (w w1 : Registry) (h : List RegOp), w.Inv h →
      Registry.run ops w = some w1 → w1.Inv (ops.reverse ++ h) := by
  intro ops
  induction ops with
  | nil =>
    intro w w1 h hinv hrun
    rw [Registry.run] at hrun
    rw [← Option.some.inj hrun]
    simpa using hinv
  | cons op ops ih =>
    intro w w1 h hinv hrun
    obtain ⟨hnd, hdata⟩ := hinv
    by_cases hp : op.possible w = true
    · have e : (op :: ops).reverse ++ h = ops.reverse ++ (op :: h) := by simp
      rw [e]
      cases op with
      | construct p =>
        have hp1 : p ∉ w.actions := by simpa [RegOp.possible] using hp
        simp only [Registry.run, hp, if_true] at hrun
        apply ih (w.construct p) w1 (.construct p :: h) _ hrun
        refine ⟨?_, fun id => ?_⟩
        · simp only [Registry.construct]
          rw [List.nodup_append]
          refine ⟨hnd, by simp, ?_⟩
          intro a ha hb
          simp at hb
          exact hp1 (hb ▸ ha)
        · simp only [Registry.construct, List.mem_append, List.mem_singleton, lastData]
          by_cases hid : id = p
          · subst hid; simp [isLive]
          · have hid1 : ¬ p = id := fun e => hid e.symm
            simp only [hid, hid1, or_false, if_false, isLive]
            exact hdata id
      | destruct p =>
        have hp1 : p ∈ w.actions := by simpa [RegOp.possible] using hp
        obtain ⟨h1, h2, -⟩ := vectorIndexOf_mem w.actions p hp1
        have hd : w.destruct p = some { w with actions := w.actions.erase p } := by
          unfold Registry.destruct
          dsimp only
          rw [if_neg h1, h2, List.eraseIdx_indexOf_eq_erase]
        simp only [Registry.run, hp, if_true, hd] at hrun
        apply ih _ w1 (.destruct p :: h) _ hrun
        refine ⟨hnd.erase p, fun id => ?_⟩
        simp only [lastData, hnd.mem_erase_iff, isLive]
        by_cases hid : id = p
        · subst hid; simp
        · have hid1 : ¬ p = id := fun e => hid e.symm
          simp only [hid1, if_false, ne_eq, hid, not_false_eq_true, true_and]
          exact hdata id
      | setData p data =>
        have hp1 : p ∈ w.actions := by simpa [RegOp.possible] using hp
        simp only [Registry.run, hp, if_true] at hrun
        apply ih (w.setData p data) w1 (.setData p data :: h) _ hrun
        refine ⟨hnd, fun id => ?_⟩
        simp only [Registry.setData, lastData, isLive]
        by_cases hid : id = p
        · subst hid; simp [hp1, ← (hdata id).2.2]
        · have hid1 : ¬ p = id := fun e => hid e.symm
          simp only [hid, hid1, if_false]
          exact hdata id
    · cases op <;> simp [Registry.run, hp] at hrun

theorem registry_run_append (a b : List RegOp) :
    ∀ w : Registry, Registry.run (a ++ b) w = (Registry.run a w).bind (Registry.run b) := by
  induction a with
  | nil => intro w; rfl
  | cons op a ih =>
    intro w
    by_cases hp : op.possible w = true
    · cases op with
      | construct p =>
        simp only [List.cons_append, Registry.run, hp, if_true]
        exact ih _
      | destruct p =>
        simp only [List.cons_append, Registry.run, hp, if_true]
        cases w.destruct p with
        | none => rfl
        | some w1 => exact ih w1
      | setData p data =>
        simp only [List.cons_append, Registry.run, hp, if_true]
        exact ih _
    · cases op <;> simp [Registry.run, hp]

theorem registry_empty_inv : Registry.empty.Inv [] := by
  refine ⟨List.nodup_nil, fun id => ?_⟩
  simp [Registry.empty, lastData, isLive]

theorem lastData_skip (id : Nat) (h : List RegOp) :
    ∀ l : List RegOp, (∀ op ∈ l, op.target ≠ id) → lastData (l ++ h) id = lastData h id := by
  intro l
  induction l with
  | nil => intro _; rfl
  | cons op l ih =>
    intro hl
    have h1 : op.target ≠ id := hl op (List.mem_cons_self _ _)
    have h2 := ih (fun o ho => hl o (List.mem_cons_of_mem _ ho))
    cases op <;> simp only [RegOp.target] at h1 <;>
      simp only [List.cons_append, lastData, if_neg h1] <;> exact h2


theorem isLive_skip (id : Nat) (h : List RegOp) :
    ∀ l : List RegOp, (∀ op ∈ l, op.target ≠ id) → isLive (l ++ h) id = isLive h id := by
  intro l
  induction l with
  | nil => intro _; rfl
  | cons op l ih =>
    intro hl
    have h1 : op.target ≠ id := hl op (List.mem_cons_self _ _)
    have h2 := ih (fun o ho => hl o (List.mem_cons_of_mem _ ho))
    cases op <;> simp only [RegOp.target] at h1 <;>
      simp only [List.cons_append, isLive, if_neg h1] <;> exact h2


/-! ## The server of client connections -/

theorem wrapInt32_id (x : Int) (h0 : 0 ≤ x) (h1 : x < 2 ^ 31) : wrapInt32 x = x := by
  unfold wrapInt32
  have : (x + 2 ^ 31) % 2 ^ 32 = x + 2 ^ 31 := Int.emod_eq_of_lt (by omega) (by omega)
  rw [this]; omega

theorem accepted_append (a b : List ServerEffect) : accepted (a ++ b) = accepted a ++ accepted b := by
  induction a with
  | nil => rfl
  | cons e a ih => cases e <;> simp [accepted, ih]

theorem closed_append (a b : List ServerEffect) : closed (a ++ b) = closed a ++ closed b := by
  induction a with
  | nil => rfl
  | cons e a ih => cases e <;> simp [closed, ih]

theorem onNewConnection_cases (s : Server) (pending : Option Socket)
    (h0 : 0 ≤ s.m_socketCount) (h1 : s.m_socketCount + 1 < 2 ^ 31)
    (hc : s.m_socketCount = s.handlers.length) :
    ((s.onNewConnection pending).1.m_socketCount : Int)
        = (s.onNewConnection pending).1.handlers.length
      ∧ (s.onNewConnection pending).1.m_socketCount
        = s.m_socketCount + (accepted (s.onNewConnection pending).2).length
          - (closed (s.onNewConnection pending).2).length
      ∧ (s.onNewConnection pending).1.m_socketCount ≤ s.m_socketCount + 1 := by
  unfold Server.onNewConnection
  cases pending with
  | none => simp [accepted, closed, hc]
  | some socket =>
    dsimp only
    by_cases hs : socket.state ≠ .ConnectedState
    · rw [if_pos hs]; simp [accepted, closed, hc]
    · rw [if_neg hs]
      by_cases ha : (!socket.arguments.isEmpty) = true
      · rw [if_pos ha]
        simp only [accepted, closed, List.length_cons, List.length_nil]
        rw [wrapInt32_id _ (by omega) h1]
        refine ⟨by push_cast; omega, by push_cast; omega, by omega⟩
      · rw [if_neg ha]; simp [accepted, closed, hc]

theorem server_run_inv :
    ∀ (events : List ServerEvent) (s : Server), 0 ≤ s.m_socketCount →
      s.m_socketCount = s.handlers.length → s.m_socketCount + events.length < 2 ^ 31 →
      ∃ r, Server.run events s = some r ∧ 0 ≤ r.1.m_socketCount
        ∧ r.1.m_socketCount = r.1.handlers.length
        ∧ r.1.m_socketCount
          = s.m_socketCount + (accepted r.2).length - (closed r.2).length := by
  intro events
  induction events with
  | nil =>
    intro s h0 hc _
    exact ⟨(s, []), rfl, h0, hc, by simp [accepted, closed]⟩
  | cons e es ih =>
    intro s h0 hc hlen
    rw [List.length_cons] at hlen
    push_cast at hlen
    have step : ∃ r, s.handle e = some r ∧ 0 ≤ r.1.m_socketCount
        ∧ r.1.m_socketCount = r.1.handlers.length
        ∧ r.1.m_socketCount = s.m_socketCount + (accepted r.2).length - (closed r.2).length
        ∧ r.1.m_socketCount ≤ s.m_socketCount + 1 := by
      cases e with
      | connection pending =>
        obtain ⟨c1, c2, c3⟩ := onNewConnection_cases s pending h0 (by omega) hc
        exact ⟨_, rfl, by rw [c1]; exact Int.natCast_nonneg _, c1, c2, c3⟩
      | destroyed h =>
        by_cases hm : h ∈ s.handlers
        · have hpos : s.m_socketCount > 0 := by
            rw [hc]
            exact_mod_cast List.length_pos_of_mem hm
          refine ⟨({ s with m_socketCount := s.m_socketCount - 1,
                            handlers := s.handlers.erase h }, [.socketClosed h]), ?_, ?_, ?_, ?_, ?_⟩
          · simp [Server.handle, hm, Server.onSocketClosed, hpos]
          · show 0 ≤ s.m_socketCount - 1
            omega
          · show s.m_socketCount - 1 = ((s.handlers.erase h).length : Int)
            rw [List.length_erase_of_mem hm, hc]
            have := List.length_pos_of_mem hm
            omega
          · show s.m_socketCount - 1 = _
            simp [accepted, closed]
          · show s.m_socketCount - 1 ≤ _
            omega
        · refine ⟨(s, []), by simp [Server.handle, hm], h0, hc, by simp [accepted, closed], ?_⟩
          show s.m_socketCount ≤ s.m_socketCount + 1
          omega
    obtain ⟨r, hr, r0, rc, ra, rle⟩ := step
    obtain ⟨r1, hr1, q0, qc, qa⟩ := ih r.1 r0 rc (by omega)
    refine ⟨(r1.1, r.2 ++ r1.2), ?_, q0, qc, ?_⟩
    · simp only [Server.run, hr, hr1]
    · show r1.1.m_socketCount = _
      rw [accepted_append, closed_append, List.length_append, List.length_append, qa, ra]
      push_cast
      omega

/-! ## A percent sign that substitutes nothing -/

theorem flush_single (a : QString) (ha : a ≠ []) (pc : Bool) :
    flush { PState.plain [] [] [] a with percent := pc } = [[[a]]] := by
  cases a with
  | nil => exact absurd rfl ha
  | cons c t => rfl

theorem parseLoop_after_percent (caps : QStringList) (s a : QString) (ha : a ≠ [])
    (hs : ∀ c ∈ s, isAlnum c = true)
    (hd : ∀ c, s.head? = some c → ¬ (49 ≤ c.toNat ∧ c.toNat ≤ 57)) :
    parseLoop caps s { PState.plain [] [] [] a with percent := true } = [[[a ++ s]]] := by
  cases s with
  | nil =>
    rw [parseLoop_nil, List.append_nil]
    exact flush_single a ha true
  | cons c t =>
    have hc : isAlnum c = true := hs c (List.mem_cons_self _ _)
    have ht : ∀ x ∈ t, isAlnum x = true := fun x hx => hs x (List.mem_cons_of_mem _ hx)
    have e1 : step caps c t { PState.plain [] [] [] a with percent := true }
        = step caps c t (PState.plain [] [] [] a) :=
      step_percent_irrel caps c t [] [] [] [] a nullChar false (hd c rfl)
    have hcol : (c == ':' && t.head? == some '\n') = false := by
      have : (c == ':') = false := by
        have := isAlnum_ne hc (show isAlnum ':' = false by decide)
        simpa using this
      rw [this]; rfl
    rw [parseLoop_cons, e1,
      step_ordinary caps c t [] [] [] a (isAlnum_isOrdinary hc) hcol (Or.inl ha)]
    dsimp only
    have e2 := parseLoop_word caps t [] [] [] [] (a ++ [c]) (isAlnum_word ht).1
      (Or.inl (by simp))
    rw [List.append_nil] at e2
    rw [e2, parseLoop_nil]
    have := flush_single (a ++ [c] ++ t) (by simp) false
    simpa using this

/-! ## A label after the first word of a stage -/

theorem parseLoop_second_word (caps : QStringList) (w lw s : QString)
    (hlw : ∀ c ∈ lw, isAlnum c = true) (hs : ∀ c ∈ s, isAlnum c = true) :
    parseLoop caps (lw ++ ':' :: s) (PState.plain [] [] [w] []) = [[[w, lw ++ ':' :: s]]] := by
  have e1 := parseLoop_word caps lw (':' :: s) [] [] [w] [] (isAlnum_word hlw).1
    (Or.inr (Or.inl (by simp)))
  have hcol : (':' == ':' && s.head? == some '\n') = false := by
    cases s with
    | nil => rfl
    | cons c t =>
      have hc : isAlnum c = true := hs c (List.mem_cons_self _ _)
      have : c ≠ '\n' := isAlnum_ne hc (by decide)
      simpa using this
  have e2 := step_ordinary caps ':' s [] [] [w] ([] ++ lw) (by decide) hcol
    (Or.inr (Or.inl (by simp)))
  have e3 := parseLoop_word caps s [] [] [] [w] ([] ++ lw ++ [':']) (isAlnum_word hs).1
    (Or.inl (by simp))
  rw [List.append_nil] at e3
  rw [e1, parseLoop_cons, e2]
  dsimp only
  rw [e3, parseLoop_nil]
  simp [flush, PState.plain, appendAndClearNonEmpty]

/-! ## Text without any word -/

theorem parseLoop_degenerate (caps : QStringList) :
    ∀ text : QString, (∀ c ∈ text, isSpace c = true ∨ c = '|' ∨ c = ';' ∨ c = '\n') →
      parseLoop caps text (PState.plain [] [] [] []) = [] := by
  intro text
  induction text with
  | nil => intro _; rfl
  | cons c t ih =>
    intro h
    have ht := ih (fun x hx => h x (List.mem_cons_of_mem _ hx))
    rw [parseLoop_cons]
    by_cases hn : c = '\n' ∨ c = ';'
    · rw [step_sep caps c t [] [] [] [] hn]
      exact ht
    · rcases h c (List.mem_cons_self _ _) with h1 | h1 | h1 | h1
      · rw [step_space caps c t [] [] [] [] h1 (fun e => hn (Or.inl e))]
        exact ht
      · subst h1
        rw [step_bar]
        exact ht
      · exact absurd (Or.inr h1) hn
      · exact absurd (Or.inl h1) hn

/-! ## Splitting does not depend on the chunks -/

theorem splitGo_cur (sep : QString) :
    ∀ (text : QString) (skip : Nat) (cur : QString),
      splitGo sep text skip cur = consHead cur (splitGo sep text skip []) := by
  intro text
  induction text with
  | nil => intro skip cur; simp [splitGo, consHead]
  | cons c t ih =>
    intro skip cur
    cases skip with
    | succ k => rw [splitGo, splitGo]; exact ih k cur
    | zero =>
      rw [splitGo, splitGo]
      by_cases hp : sep.isPrefixOf (c :: t) = true
      · rw [if_pos hp, if_pos hp]; simp [consHead]
      · rw [if_neg hp, if_neg hp, ih 0 (cur ++ [c]), ih 0 ([] ++ [c])]
        cases splitGo sep t 0 [] with
        | nil => rfl
        | cons h tl => simp [consHead]

theorem splitGo_short (sep : QString) :
    ∀ (text cur : QString), text.length < sep.length →
      splitGo sep text 0 cur = [cur ++ text] := by
  intro text
  induction text with
  | nil => intro cur _; simp [splitGo]
  | cons c t ih =>
    intro cur hlen
    have hp : ¬ sep.isPrefixOf (c :: t) = true := by
      intro hp
      have := (List.isPrefixOf_iff_prefix.mp hp).length_le
      omega
    rw [splitGo, if_neg hp, ih (cur ++ [c]) (by simp at hlen ⊢; omega)]
    simp

theorem isPrefixOf_append_short {sep x y : QString} (h : sep.isPrefixOf (x ++ y) = true)
    (hn : ¬ sep.isPrefixOf x = true) : x.length < sep.length := by
  by_contra hlen
  apply hn
  rw [List.isPrefixOf_iff_prefix] at h ⊢
  exact List.prefix_of_prefix_length_le h (List.prefix_append x y) (by omega)

theorem splitGo_single (sep : QString) (hsep : sep ≠ []) (t h : QString)
    (e : splitGo sep t 0 [] = [h]) : h = t := by
  have := join_splitGo sep hsep t 0 [] (Nat.zero_le _)
  rw [e] at this
  simpa [join, List.intercalate] using this

theorem splitGo_chunk (sep : QString) (hsep : sep ≠ []) (t2 : QString) :
    ∀ (t1 : QString) (skip : Nat), skip ≤ t1.length →
      splitGo sep (t1 ++ t2) skip []
        = (splitGo sep t1 skip []).dropLast
          ++ splitGo sep ((splitGo sep t1 skip []).getLastD [] ++ t2) 0 [] := by
  intro t1
  induction t1 with
  | nil =>
    intro skip hk
    have : skip = 0 := by simpa using hk
    subst this
    simp [splitGo]
  | cons c t ih =>
    intro skip hk
    cases skip with
    | succ k =>
      rw [List.cons_append, splitGo, splitGo]
      exact ih k (by simpa using hk)
    | zero =>
      by_cases hp : sep.isPrefixOf (c :: t) = true
      · have hp2 : sep.isPrefixOf (c :: (t ++ t2)) = true := by
          rw [List.isPrefixOf_iff_prefix] at hp ⊢
          exact hp.trans (List.prefix_append (c :: t) t2)
        have hle : sep.length - 1 ≤ t.length := by
          have := (List.isPrefixOf_iff_prefix.mp hp).length_le
          simp at this
          omega
        rw [List.cons_append, splitGo, if_pos hp2, splitGo, if_pos hp, ih _ hle]
        cases hR : splitGo sep t (sep.length - 1) [] with
        | nil => exact absurd hR (splitGo_ne_nil sep _ _ _)
        | cons r rs => simp [List.dropLast, List.getLastD_cons]
      · cases hS : splitGo sep t 0 [] with
        | nil => exact absurd hS (splitGo_ne_nil sep _ _ _)
        | cons h tl =>
          have e1 : splitGo sep (c :: t) 0 [] = (c :: h) :: tl := by
            rw [splitGo, if_neg hp, splitGo_cur, hS]
            simp [consHead]
          cases tl with
          | nil =>
            have hh := splitGo_single sep hsep t h hS
            subst hh
            rw [e1]
            simp
          | cons x xs =>
            have hp2 : ¬ sep.isPrefixOf (c :: (t ++ t2)) = true := by
              intro hp2
              have hlen := isPrefixOf_append_short (x := c :: t) (y := t2) hp2 hp
              have := splitGo_short sep t [] (by simp at hlen; omega)
              rw [hS] at this
              simp at this
            rw [e1, List.cons_append, splitGo, if_neg hp2, splitGo_cur, ih 0 (Nat.zero_le _), hS]
            simp [consHead, List.dropLast, List.getLastD_cons]

theorem split_chunk (sep : QString) (hsep : sep ≠ []) (c1 c2 : QString) :
    split (c1 ++ c2) sep
      = (split c1 sep).dropLast ++ split ((split c1 sep).getLastD [] ++ c2) sep := by
  have h : sep.isEmpty = false := by cases sep <;> simp at hsep ⊢
  simp only [split, h, Bool.false_eq_true, if_false]
  exact splitGo_chunk sep hsep c2 c1 0 (Nat.zero_le _)

theorem actionOutput_pieces (env : Env) (a : Action) (readAll : QByteArray)
    (hfmt : hasTextOutput env a = true) (hsep : a.m_sep ≠ [])
    (hdest : a.m_indexValid = true ∨ a.m_tab ≠ []) :
    (a.actionOutput env readAll).1
        = { a with m_lastOutput :=
              (split (a.m_lastOutput ++ env.fromUtf8 (readAll.getD [])) a.m_sep).getLastD [] }
      ∧ emitted (a.actionOutput env readAll).2
        = (split (a.m_lastOutput ++ env.fromUtf8 (readAll.getD [])) a.m_sep).dropLast := by
  have h1 : a.m_sep.isEmpty = false := by
    cases hs : a.m_sep <;> simp [hs] at hsep ⊢
  by_cases hne : a.m_lastOutput ++ env.fromUtf8 (readAll.getD []) = []
  · have hout : a.actionOutput env readAll = ({ a with m_lastOutput := [] }, []) := by
      unfold Action.actionOutput
      rw [if_pos hfmt]
      dsimp only
      rw [hne]
      rfl
    rw [hout, hne]
    simp [split, h1, splitGo, emitted]
  · have h2 : (a.m_lastOutput ++ env.fromUtf8 (readAll.getD [])).isEmpty = false := by
      cases ht : a.m_lastOutput ++ env.fromUtf8 (readAll.getD []) <;> simp [ht] at hne ⊢
    have hout : a.actionOutput env readAll
        = ({ a with m_lastOutput :=
                (split (a.m_lastOutput ++ env.fromUtf8 (readAll.getD [])) a.m_sep).getLastD [] },
            [.newItems (split (a.m_lastOutput ++ env.fromUtf8 (readAll.getD [])) a.m_sep).dropLast
              (if a.m_indexValid then Dest.index else Dest.tab a.m_tab)]) := by
      unfold Action.actionOutput
      rw [if_pos hfmt]
      dsimp only
      rw [h1, h2]
      rcases hdest with hd | hd
      · simp [hd]
      · cases hi : a.m_indexValid
        · have h3 : a.m_tab.isEmpty = false := by
            cases ht : a.m_tab <;> simp [ht] at hd ⊢
          simp [h3]
        · simp
    rw [hout]
    simp [emitted]

theorem emitted_append (a b : List Effect) : emitted (a ++ b) = emitted a ++ emitted b := by
  induction a with
  | nil => rfl
  | cons e a ih => cases e <;> simp [emitted, ih]

/-! ## Removing rows in descending order -/

theorem withoutRows_congr {α : Type} (s1 s2 : List Int) :
    ∀ (xs : List α) (k : Nat), (∀ j : Nat, k ≤ j → ((j : Int) ∈ s1 ↔ (j : Int) ∈ s2)) →
      withoutRows s1 k xs = withoutRows s2 k xs := by
  intro xs
  induction xs with
  | nil => intro k _; rfl
  | cons x xs ih =>
    intro k h
    have e := ih (k + 1) (fun j hj => h j (by omega))
    have hk := h k (le_refl k)
    by_cases hm : (k : Int) ∈ s1
    · simp only [withoutRows, if_pos hm, if_pos (hk.mp hm)]
      exact e
    · simp only [withoutRows, if_neg hm, if_neg (fun h2 => hm (hk.mpr h2))]
      rw [e]

theorem withoutRows_nil {α : Type} : ∀ (xs : List α) (k : Nat), withoutRows [] k xs = xs := by
  intro xs
  induction xs with
  | nil => intro k; rfl
  | cons x xs ih => intro k; simp [withoutRows, ih]

theorem withoutRows_below {α : Type} (s : List Int) (xs : List α) (k : Nat)
    (h : ∀ j ∈ s, j < (k : Int)) : withoutRows s k xs = xs := by
  rw [withoutRows_congr s [] xs k, withoutRows_nil]
  intro j hj
  constructor
  · intro hm
    have := h _ hm
    omega
  · intro hm
    exact absurd hm (List.not_mem_nil _)

theorem withoutRows_eraseIdx {α : Type} (s : List Int) :
    ∀ (items : List α) (r k : Nat), (∀ j ∈ s, j < ((r + k : Nat) : Int)) →
      withoutRows s k (items.eraseIdx r) = withoutRows (((r + k : Nat) : Int) :: s) k items := by
  intro items
  induction items with
  | nil => intro r k _; rfl
  | cons x xs ih =>
    intro r k h
    cases r with
    | zero =>
      have h0 : ∀ j ∈ s, j < (k : Int) := fun j hj => by simpa using h j hj
      have h1 : ∀ j ∈ ((0 + k : Nat) : Int) :: s, j < ((k + 1 : Nat) : Int) := by
        intro j hj
        rcases List.mem_cons.mp hj with e | e
        · rw [e]; push_cast; omega
        · have := h0 j e
          push_cast; omega
      rw [List.eraseIdx_cons_zero, withoutRows_below s xs k h0]
      simp only [withoutRows, Nat.zero_add, List.mem_cons, true_or, if_true]
      rw [Nat.zero_add] at h1
      rw [withoutRows_below _ xs (k + 1) h1]
    | succ r =>
      have hne : (k : Int) ≠ ((r + 1 + k : Nat) : Int) := by push_cast; omega
      have e := ih r (k + 1) (fun j hj => by
        have := h j hj
        push_cast at this ⊢
        omega)
      have e2 : ((r + (k + 1) : Nat) : Int) = ((r + 1 + k : Nat) : Int) := by
        push_cast; omega
      rw [e2] at e
      rw [List.eraseIdx_cons_succ]
      by_cases hm : (k : Int) ∈ s
      · have hm2 : (k : Int) ∈ ((r + 1 + k : Nat) : Int) :: s := List.mem_cons_of_mem _ hm
        simp only [withoutRows, if_pos hm, if_pos hm2]
        exact e
      · have hm2 : ¬ (k : Int) ∈ ((r + 1 + k : Nat) : Int) :: s := by
          intro h2
          rcases List.mem_cons.mp h2 with e3 | e3
          · exact hne e3
          · exact hm e3
        simp only [withoutRows, if_neg hm, if_neg hm2]
        rw [e]

theorem removeRow_eraseIdx {α : Type} (items : List α) (row : Int) (h : 0 ≤ row) :
    removeRow items row = items.eraseIdx row.toNat := by
  unfold removeRow
  by_cases hr : row < items.length
  · rw [if_pos ⟨h, hr⟩]
  · rw [if_neg (fun h2 => hr h2.2), List.eraseIdx_of_length_le (by omega)]

theorem foldl_removeRow {α : Type} :
    ∀ (s : List Int), s.Pairwise (fun a b => a > b) → (∀ r ∈ s, 0 ≤ r) →
      ∀ items : List α, s.foldl removeRow items = withoutRows s 0 items := by
  intro s
  induction s with
  | nil => intro _ _ items; rw [withoutRows_nil]; rfl
  | cons r s ih =>
    intro hp h0 items
    have hp1 := List.pairwise_cons.mp hp
    have hr : 0 ≤ r := h0 r (List.mem_cons_self _ _)
    have hcast : ((r.toNat + 0 : Nat) : Int) = r := by
      rw [Nat.add_zero]; exact Int.toNat_of_nonneg hr
    rw [List.foldl_cons, ih hp1.2 (fun x hx => h0 x (List.mem_cons_of_mem _ hx)),
      removeRow_eraseIdx items r hr,
      withoutRows_eraseIdx s items r.toNat 0 (fun j hj => by
        rw [hcast]; exact hp1.1 j hj), hcast]

theorem browserRemoveRows_eq {α : Type} (items : List α) (rows : List Int)
    (hnd : rows.Nodup) (hin : ∀ r ∈ rows, 0 ≤ r ∧ r < items.length) :
    browserRemoveRows (some items) rows = some (withoutRows rows 0 items) := by
  have hperm : (qSortGreater rows).Perm rows := List.perm_insertionSort _ rows
  have hsorted : (qSortGreater rows).Sorted (fun a b => a ≥ b) :=
    List.sorted_insertionSort _ rows
  have hgt : (qSortGreater rows).Pairwise (fun a b => a > b) :=
    hsorted.gt_of_ge (hperm.nodup_iff.mpr hnd)
  unfold browserRemoveRows
  dsimp only
  rw [foldl_removeRow _ hgt (fun r hr => (hin r (hperm.mem_iff.mp hr)).1)]
  rw [withoutRows_congr (qSortGreater rows) rows items 0 (fun j _ => hperm.mem_iff)]

theorem foldl_removeRow_length {α : Type} :
    ∀ (s : List Int), s.Pairwise (fun a b => a > b) →
      ∀ items : List α, (∀ r ∈ s, 0 ≤ r ∧ r < items.length) →
        (s.foldl removeRow items).length + s.length = items.length := by
  intro s
  induction s with
  | nil => intro _ items _; rfl
  | cons r s ih =>
    intro hp items hin
    have hp1 := List.pairwise_cons.mp hp
    have hr := hin r (List.mem_cons_self _ _)
    have hlt : r.toNat < items.length := by omega
    have hlen : (removeRow items r).length = items.length - 1 := by
      rw [removeRow_eraseIdx items r hr.1, List.length_eraseIdx, if_pos hlt]
    have hin1 : ∀ j ∈ s, 0 ≤ j ∧ j < (removeRow items r).length := by
      intro j hj
      have h1 := hin j (List.mem_cons_of_mem _ hj)
      have h2 := hp1.1 j hj
      rw [hlen]
      omega
    rw [List.foldl_cons, List.length_cons]
    have := ih hp1.2 (removeRow items r) hin1
    omega

theorem browserRemoveRows_length {α : Type} (items : List α) (rows : List Int)
    (hnd : rows.Nodup) (hin : ∀ r ∈ rows, 0 ≤ r ∧ r < items.length) :
    ((qSortGreater rows).foldl removeRow items).length + rows.length = items.length := by
  have hperm : (qSortGreater rows).Perm rows := List.perm_insertionSort _ rows
  have hsorted : (qSortGreater rows).Sorted (fun a b => a ≥ b) :=
    List.sorted_insertionSort _ rows
  have hgt : (qSortGreater rows).Pairwise (fun a b => a > b) :=
    hsorted.gt_of_ge (hperm.nodup_iff.mpr hnd)
  have := foldl_removeRow_length _ hgt items (fun r hr => hin r (hperm.mem_iff.mp hr))
  rw [hperm.length_eq] at this
  exact this

/-! ## Output that is not text -/

theorem byteArrayAppend_getD (b c : QByteArray) :
    (byteArrayAppend b c).getD [] = b.getD [] ++ c.getD [] := by
  cases b <;> cases c <;> simp [byteArrayAppend]

theorem foldl_byteArrayAppend (chunks : List QByteArray) :
    ∀ b : QByteArray, (chunks.foldl byteArrayAppend b).getD [] = b.getD [] ++ allBytes chunks := by
  induction chunks with
  | nil => intro b; simp [allBytes]
  | cons c cs ih =>
    intro b
    rw [List.foldl_cons, ih, byteArrayAppend_getD]
    simp [allBytes]

theorem itemSignals_append (a b : List Effect) :
    itemSignals (a ++ b) = itemSignals a ++ itemSignals b :=
  List.filter_append _ _

theorem actionOutput_binary (env : Env) (a : Action) (c : QByteArray)
    (hfmt : a.m_outputFormat ≠ []) (hnt : a.m_outputFormat ≠ env.mimeText) :
    a.actionOutput env c = ({ a with m_outputData := byteArrayAppend a.m_outputData c }, []) := by
  have h1 : hasTextOutput env a = false := by
    simp [hasTextOutput, hnt]
  have h2 : a.m_outputFormat.isEmpty = false := by
    cases h : a.m_outputFormat <;> simp [h] at hfmt ⊢
  unfold Action.actionOutput
  rw [h1, h2]
  rfl

theorem run_outputs_binary (env : Env) :
    ∀ (chunks : List QByteArray) (a : Action), a.m_outputFormat ≠ [] →
      a.m_outputFormat ≠ env.mimeText →
      Action.run env (chunks.map .readyReadStandardOutput) a
        = some ({ a with m_outputData := chunks.foldl byteArrayAppend a.m_outputData }, []) := by
  intro chunks
  induction chunks with
  | nil => intro a _ _; rfl
  | cons c cs ih =>
    intro a hfmt hnt
    have h := ih { a with m_outputData := byteArrayAppend a.m_outputData c } hfmt hnt
    rw [List.map_cons, run_cons]
    simp only [Action.handle, actionOutput_binary env a c hfmt hnt, h]
    rfl

theorem startPipe_itemSignals (env : Env) :
    ∀ (l : List QStringList) (p : ProcRef) (n : Nat) (r : List Effect × Nat),
      startPipe env l p n = some r → itemSignals r.1 = [] := by
  intro l
  induction l with
  | nil => intro p n r h; simp [startPipe] at h; rw [← h]; rfl
  | cons args t ih =>
    intro p n r h
    cases t with
    | nil => simp [startPipe] at h; rw [← h]; rfl
    | cons next rest =>
      rw [startPipe] at h
      by_cases he : args.isEmpty = true
      · rw [if_pos he] at h; exact Option.noConfusion h
      · rw [if_neg he] at h
        dsimp only at h
        cases hr : startPipe env (next :: rest)
            (if rest.isEmpty = true then (ProcRef.self, n) else (ProcRef.child n, n + 1)).1
            (if rest.isEmpty = true then (ProcRef.self, n) else (ProcRef.child n, n + 1)).2 with
        | none => rw [hr] at h; exact Option.noConfusion h
        | some r1 =>
          rw [hr] at h
          have h1 := ih _ _ r1 hr
          rw [← Option.some.inj h]
          simp only [itemSignals, List.filter_cons, startProcess] at h1 ⊢
          exact h1

theorem start_itemSignals (env : Env) (a : Action) (r : Action × List Effect)
    (h : a.start env = some r) : itemSignals r.2 = [] := by
  rcases start_cases env a r h with ⟨-, e⟩ | ⟨-, -, cmds, -, hre⟩
  · rw [e]; rfl
  · unfold Action.realize at hre
    by_cases hc : cmds.isEmpty = true
    · rw [if_pos hc] at hre; exact Option.noConfusion hre
    · rw [if_neg hc] at hre
      dsimp only at hre
      by_cases hl : cmds.length > 1
      · rw [if_pos hl] at hre
        cases hp : startPipe env cmds (.child (a.children)) (a.children + 1) with
        | none => simp [hp] at hre
        | some en =>
          have h1 := startPipe_itemSignals env _ _ _ en hp
          simp only [hp] at hre
          rw [← Option.some.inj hre]
          dsimp only
          rw [itemSignals_append, itemSignals_append, h1]
          split_ifs <;> rfl
      · rw [if_neg hl] at hre
        simp only at hre
        rw [← Option.some.inj hre]
        dsimp only
        rw [itemSignals_append, itemSignals_append]
        split_ifs <;> rfl

theorem actionOutput_noFormat (env : Env) (a : Action) (c : QByteArray)
    (hf : a.m_outputFormat = []) : a.actionOutput env c = (a, []) := by
  unfold Action.actionOutput
  simp [hasTextOutput, hf]

theorem finishFlush_noFormat (env : Env) (a : Action) (hf : a.m_outputFormat = [])
    (hl : a.m_lastOutput = []) : a.finishFlush env = (a, []) := by
  unfold Action.finishFlush
  simp [hasTextOutput, canEmitNewItems, hf, hl]

theorem handle_noFormat (env : Env) (a : Action) (e : Event) (r : Action × List Effect)
    (hf : a.m_outputFormat = []) (hl : a.m_lastOutput = [])
    (h : a.handle env e = some r) :
    r.1.m_outputFormat = [] ∧ r.1.m_lastOutput = [] ∧ r.1.m_outputData = a.m_outputData
      ∧ itemSignals r.2 = [] := by
  have hstart : ∀ r1, a.start env = some r1 →
      r1.1.m_outputFormat = [] ∧ r1.1.m_lastOutput = [] ∧ r1.1.m_outputData = a.m_outputData
        ∧ itemSignals r1.2 = [] := by
    intro r1 h1
    obtain ⟨⟨-, -, c3, -⟩, -⟩ := start_facts env a r1 h1
    obtain ⟨-, b2, b3⟩ := start_buffers env a r1 h1
    exact ⟨c3.trans hf, b3.trans hl, b2, start_itemSignals env a r1 h1⟩
  cases e with
  | start => exact hstart r h
  | started =>
    simp only [Action.handle, Option.some.injEq] at h
    rw [← h]
    unfold Action.actionStarted
    cases a.m_firstProcess with
    | none => exact ⟨hf, hl, rfl, rfl⟩
    | some p =>
      dsimp only
      refine ⟨hf, hl, rfl, ?_⟩
      split_ifs <;> rfl
  | readyReadStandardOutput c =>
    simp only [Action.handle, Option.some.injEq] at h
    rw [← h, actionOutput_noFormat env a c hf]
    exact ⟨hf, hl, rfl, rfl⟩
  | finished c =>
    simp only [Action.handle, Action.actionFinished, actionOutput_noFormat env a c hf,
      finishFlush_noFormat env a hf hl] at h
    cases hs : a.start env with
    | none => simp [hs] at h
    | some s =>
      simp only [hs, Option.some.injEq] at h
      rw [← h]
      simpa using hstart s hs
  | error st =>
    simp only [Action.handle, Option.some.injEq] at h
    rw [← h]
    unfold Action.actionError
    split_ifs
    · exact ⟨hf, hl, rfl, rfl⟩
    · exact ⟨hf, hl, rfl, rfl⟩

theorem run_noFormat (env : Env) (events : List Event) (a : Action)
    (r : Action × List Effect) (hf : a.m_outputFormat = []) (hl : a.m_lastOutput = [])
    (h : Action.run env events a = some r) :
    r.1.m_outputFormat = [] ∧ r.1.m_lastOutput = [] ∧ r.1.m_outputData = a.m_outputData
      ∧ itemSignals r.2 = [] := by
  have := run_invariant env
    (fun b log => b.m_outputFormat = [] ∧ b.m_lastOutput = []
      ∧ b.m_outputData = a.m_outputData ∧ itemSignals log = [])
    (fun b log e r1 hb he => by
      obtain ⟨p1, p2, p3, p4⟩ := hb
      obtain ⟨q1, q2, q3, q4⟩ := handle_noFormat env b e r1 p1 p2 he
      exact ⟨q1, q2, q3.trans p3, by rw [itemSignals_append, p4, q4]; rfl⟩)
    events a [] r ⟨hf, hl, rfl, rfl⟩ h
  simpa using this

theorem finishFlush_binary (env : Env) (a : Action) (hfmt : a.m_outputFormat ≠ [])
    (hnt : a.m_outputFormat ≠ env.mimeText) :
    ((a.m_indexValid = true ∨ a.m_tab ≠ []) → a.m_outputData.getD [] ≠ [] →
      a.finishFlush env
        = ({ a with m_outputData := none },
            [.newItem (some (a.m_outputData.getD [])) a.m_outputFormat
              (if a.m_indexValid then Dest.index else Dest.tab a.m_tab)]))
    ∧ (a.m_indexValid = false → a.m_tab = [] → a.finishFlush env = (a, [])) := by
  have h1 : hasTextOutput env a = false := by
    simp [hasTextOutput, hnt]
  have h2 : a.m_outputFormat.isEmpty = false := by
    cases h : a.m_outputFormat <;> simp [h] at hfmt ⊢
  have h3 : (a.m_outputFormat == env.mimeText) = false := by simpa using hnt
  constructor
  · intro hd hb
    obtain ⟨x, hx⟩ : ∃ x, a.m_outputData = some x := by
      cases hd0 : a.m_outputData with
      | none => rw [hd0] at hb; exact absurd rfl hb
      | some x => exact ⟨x, rfl⟩
    have hc : canEmitNewItems env a = true := by
      simp only [canEmitNewItems, h2, h3, hx, byteArrayIsNull]
      rcases hd with hd | hd
      · simp [hd]
      · have h4 : a.m_tab.isEmpty = false := by
          cases h : a.m_tab <;> simp [h] at hd ⊢
        simp [h4]
    unfold Action.finishFlush
    rw [h1, hc]
    simp only [Bool.false_eq_true, if_false, if_true, hx, Option.getD_some]
    cases a.m_indexValid <;> rfl
  · intro hi ht
    have hc : canEmitNewItems env a = false := by
      simp [canEmitNewItems, hi, ht]
    unfold Action.finishFlush
    rw [h1, hc]
    rfl

/-! ## The environment of the processes -/

theorem launchEnvironments_launches (sys : QProcessEnvironment) (id : Nat) :
    ∀ effs : List Effect,
      launchEnvironments sys id effs = launchEnvironments sys id (launches effs) := by
  intro effs
  induction effs with
  | nil => rfl
  | cons e l ih =>
    cases e <;> simp only [launches, List.filter_cons, launchEnvironments] at ih ⊢ <;>
      first
        | exact ih
        | rw [← ih]

theorem launchEnvironments_stages (env : Env) (sys : QProcessEnvironment) (id f m : Nat) :
    ∀ (l : List QStringList) (j : Nat),
      launchEnvironments sys id
          ((l.enumFrom j).map (fun p => startProcess env (stageProc f m p.1) p.2))
        = (l.enumFrom j).map (fun p =>
            if p.1 + 1 = m then envInsert sys "COPYQ_ACTION_ID".toList (number id) else sys) := by
  intro l
  induction l with
  | nil => intro j; rfl
  | cons s l ih =>
    intro j
    simp only [List.enumFrom_cons, List.map_cons, startProcess, launchEnvironments]
    have := ih (j + 1)
    simp only [startProcess] at this
    rw [this]
    congr 1
    unfold stageProc
    by_cases h : j + 1 = m
    · rw [if_pos h, if_pos h]; rfl
    · rw [if_neg h, if_neg h]; rfl

theorem envValue_envInsert (sys : QProcessEnvironment) (name value : QString) :
    envValue (envInsert sys name value) name = some value := by
  simp [envValue, envInsert, List.find?]

/-! ## The input dialog -/

theorem createWidget_name (name : QString) (value : QVariant) :
    (createWidget name value).widgetName
      = (match value with
         | .int _ => "value".toList
         | _ => name) := by
  cases value <;>
    simp only [createWidget, createSpinBox, createDateTimeEdit, createListWidget,
      createFileNameEdit, createTextEdit, label, createAndSetWidget]
  split_ifs <;> rfl

theorem dialogWidgets_names (edited : Widget → QVariant) :
    ∀ values : List NamedValue,
      (dialogWidgets values).map
          (NamedValue.name ∘ fun w => { name := w.widgetName, value := edited w })
        = (values.filter (fun v => decide (v.name ∉ reservedNames))).map (fun v =>
            match v.value with
            | .int _ => "value".toList
            | _ => v.name) := by
  intro values
  induction values with
  | nil => rfl
  | cons v vs ih =>
    by_cases hr : v.name ∈ reservedNames
    · have hd : decide (v.name ∉ reservedNames) = false := by simpa using hr
      rw [dialogWidgets, if_pos hr, List.filter_cons, hd]
      exact ih
    · have hd : decide (v.name ∉ reservedNames) = true := by simpa using hr
      rw [dialogWidgets, if_neg hr, List.filter_cons, hd, List.map_cons, ih]
      simp only [if_true, List.map_cons, Function.comp]
      rw [createWidget_name]

/-! ## The input of each line -/

theorem start_environments (env : Env) (sys : QProcessEnvironment) (id : Nat) (a : Action)
    (cmds : List QStringList) (hcur : -1 ≤ a.m_currentLine)
    (hline : a.m_cmds[(a.m_currentLine + 1).toNat]? = some cmds)
    (hne : cmds ≠ []) (hst : ∀ s ∈ cmds.dropLast, s ≠ []) :
    ∃ (a2 : Action) (effs : List Effect),
      a.start env = some (a2, effs)
      ∧ launchEnvironments sys id effs
          = cmds.enum.map (fun p =>
              if p.1 + 1 = cmds.length
              then envInsert sys "COPYQ_ACTION_ID".toList (number id) else sys)
      ∧ (launchEnvironments sys id effs).length = cmds.length
      ∧ envValue (envInsert sys "COPYQ_ACTION_ID".toList (number id))
          "COPYQ_ACTION_ID".toList = some (number id) := by
  obtain ⟨n, effs, h1, h2, -⟩ :=
    realize_spec env { a with m_currentLine := a.m_currentLine + 1 } cmds hne hst
  have he : launchEnvironments sys id effs
      = cmds.enum.map (fun p =>
          if p.1 + 1 = cmds.length
          then envInsert sys "COPYQ_ACTION_ID".toList (number id) else sys) := by
    rw [launchEnvironments_launches, h2]
    exact launchEnvironments_stages env sys id a.children cmds.length cmds 0
  have hs := start_realize env a cmds hcur hline
  rw [h1] at hs
  have hlen : (launchEnvironments sys id effs).length = cmds.length := by
    rw [he]
    simp
  exact ⟨_, effs, hs, he, hlen, envValue_envInsert _ _ _⟩

/-! ## The claims -/

/-- C1: a script label at the very start of the text takes the whole
non-empty remainder verbatim as the script; the plan is one line with one
stage made of the interpreter tokens of the label around the script, followed
by the captures without the first one. -/
theorem parseCommands_script_label (s : QString) (caps : QStringList) (hs : s ≠ []) :
    parseCommands ("copyq:".toList ++ s) caps
        = [[["copyq".toList, "eval".toList, "--".toList, s] ++ caps.tail]]
    ∧ parseCommands ("sh:".toList ++ s) caps
        = [[["sh".toList, "-c".toList, "--".toList, s, "--".toList] ++ caps.tail]]
    ∧ parseCommands ("bash:".toList ++ s) caps
        = [[["bash".toList, "-c".toList, "--".toList, s, "--".toList] ++ caps.tail]]
    ∧ parseCommands ("perl:".toList ++ s) caps
        = [[["perl".toList, "-e".toList, s, "--".toList] ++ caps.tail]]
    ∧ parseCommands ("python:".toList ++ s) caps
        = [[["python".toList, "-c".toList, s] ++ caps.tail]]
    ∧ parseCommands ("ruby:".toList ++ s) caps
        = [[["ruby".toList, "-e".toList, s, "--".toList] ++ caps.tail]] := by
  refine ⟨?_, ?_, ?_, ?_, ?_, ?_⟩ <;>
    simp [parseCommands, parseLoop_cons, step, PState.init, applyLabel, getScriptFromLabel,
      String.toList, isNull, nullChar, backslash, squote, dquote, isSpace, hs]

/-- The witness of C1 named in the claim: `sh:echo hi` without captures. -/
theorem parseCommands_script_label_witness :
    parseCommands "sh:echo hi".toList []
      = [[["sh".toList, "-c".toList, "--".toList, "echo hi".toList, "--".toList]]] :=
  (parseCommands_script_label "echo hi".toList [] (by decide)).2.1

/-- C2: for every command text and capture list the plan returned by
parseCommands has no empty line and no empty stage: every line has at least
one stage and every stage has at least one token. -/
theorem parseCommands_no_empty_line_or_stage (cmd : QString) (caps : QStringList) :
    ∀ line ∈ parseCommands cmd caps, 1 ≤ line.length ∧ ∀ stage ∈ line, 1 ≤ stage.length := by
  intro line hl
  have h := parseLoop_good caps cmd PState.init init_inv line hl
  refine ⟨List.length_pos.mpr h.1, fun stage hs => List.length_pos.mpr (h.2 stage hs)⟩

/-- A use of C2 on the text `a|;b`: its first line has a stage and that stage
has a token. -/
theorem parseCommands_no_empty_line_or_stage_witness :
    [["a".toList]] ∈ parseCommands "a|;b".toList []
    ∧ 1 ≤ [["a".toList]].length
    ∧ ["a".toList] ∈ [["a".toList]] ∧ 1 ≤ ["a".toList].length :=
  have h := parseCommands_no_empty_line_or_stage "a|;b".toList [] [["a".toList]] (by decide)
  ⟨by decide, h.1, by decide, h.2 ["a".toList] (by decide)⟩

/-- C3: for a digit k in 1..9 and a capture list whose k-th element c exists
and is non-empty, the text made of a percent sign and the digit k parses to
one line with one stage with the single token c, whatever characters c
contains: the inserted capture is not scanned again. -/
theorem parseCommands_percent_digit (k : Nat) (caps : QStringList) (c : QString)
    (hk1 : 1 ≤ k) (hk9 : k ≤ 9) (hc : caps[k - 1]? = some c) (hne : c ≠ []) :
    parseCommands ['%', Nat.digitChar k] caps = [[[c]]] := by
  have hn : NoLabel ['%', Nat.digitChar k] :=
    noLabel_of_dropWhile _ (by simp [List.dropWhile, isAlnum])
  have h1 : parseCommands ['%', Nat.digitChar k] caps =
      parseLoop caps [Nat.digitChar k]
        { PState.plain [] [] [] ['%'] with percent := true } := by
    rw [parseCommands, parseLoop_cons]
    simp [step, PState.init, PState.plain, isNull, nullChar, backslash, squote, dquote,
      isSpace, hn [] []]
  have hd := digitChar_toNat k hk9
  rw [h1, parseLoop_cons, step_subst caps _ _ _ rfl (by omega) (by omega)]
  have e : (Nat.digitChar k).toNat - 49 = k - 1 := by omega
  simp [e, parseLoop_nil, PState.plain, chopLast, flush, appendAndClearNonEmpty,
    List.getD_eq_getElem?_getD, hc, hne]

/-- A use of C3: the text percent-two with captures `a b` and `c;d|e` yields
the single token `c;d|e`. -/
theorem parseCommands_percent_digit_witness :
    parseCommands ['%', Nat.digitChar 2] ["a b".toList, "c;d|e".toList]
      = [[["c;d|e".toList]]] :=
  parseCommands_percent_digit 2 ["a b".toList, "c;d|e".toList] "c;d|e".toList
    (by decide) (by decide) (by decide) (by decide)

/-- C4, evaluated where it fails: in the text percent-one-two the digit 2 that
follows the substituted capture is taken as a second substitution, because
the percent flag is still set: with captures `ab` and `c` the token is `ac`
(the last character of the first capture is dropped and the second capture
appended), not `ab2` as replacing the percent sign and its digit in place
would give. -/
theorem parseCommands_percent_digit_then_digit :
    parseCommands "%12".toList ["ab".toList, "c".toList] = [[["ac".toList]]]
    ∧ parseCommands "%12".toList ["ab".toList, "c".toList]
        ≠ [[["".toList ++ "ab".toList ++ "2".toList]]] := by
  decide

/-- C5: for a non-empty list of stages, each a non-empty list of plain words
joined by one or more spaces or tabs, with optional spaces or tabs at the
ends of every stage text, the stage texts joined with a pipe character parse
to exactly one line whose stages are those word lists in order. -/
theorem parseCommands_pipeline (l : List StageSrc) (caps : QStringList)
    (hne : l ≠ []) (hwf : ∀ s ∈ l, s.WF) :
    parseCommands (pipelineText l) caps = [l.map StageSrc.words] := by
  rw [parseCommands, init_eq_plain, parseLoop_pipeline caps [] l [] hne hwf]
  simp

/-- The witness of C5 named in the claim, `foo|bar`, and one with blanks
around the words and the pipe and a space and a tab between `ls` and `1`. -/
theorem parseCommands_pipeline_witness :
    parseCommands "foo|bar".toList [] = [[["foo".toList], ["bar".toList]]]
    ∧ parseCommands (" ls \t1 | wc".toList) ["x".toList]
        = [[["ls".toList, "1".toList], ["wc".toList]]] :=
  ⟨parseCommands_pipeline
      [⟨[], "foo".toList, [], []⟩, ⟨[], "bar".toList, [], []⟩] []
      (by simp) (by simp [StageSrc.WF, Blanks, PlainWord]; decide),
   parseCommands_pipeline
      [⟨" ".toList, "ls".toList, [(" \t".toList, "1".toList)], " ".toList⟩,
       ⟨" ".toList, "wc".toList, [], []⟩] ["x".toList]
      (by simp) (by simp [StageSrc.WF, Blanks, PlainWord]; decide)⟩

/-- C6: newline and semicolon split the command into independently parsed
lines: for a text t1 without single quote, double quote, backslash and
colon, any text t2 and either separator, the plan of t1, separator, t2 is the
plan of t1 followed by the plan of t2. -/
theorem parseCommands_split (t1 t2 : QString) (sep : Char) (caps : QStringList)
    (hsep : sep = ';' ∨ sep = '\n')
    (ht : ∀ c ∈ t1, c ≠ squote ∧ c ≠ dquote ∧ c ≠ backslash ∧ c ≠ ':') :
    parseCommands (t1 ++ [sep] ++ t2) caps
      = parseCommands t1 caps ++ parseCommands t2 caps := by
  rw [List.append_assoc, List.singleton_append]
  exact parseLoop_split caps sep t2 hsep.symm t1 PState.init ⟨rfl, rfl, rfl⟩ ht

/-- A use of C6: `a %1|b` and `sh:x y` around a semicolon. -/
theorem parseCommands_split_witness :
    parseCommands ("a %1|b".toList ++ [';'] ++ "sh:x y".toList) ["u v".toList]
      = parseCommands "a %1|b".toList ["u v".toList]
        ++ parseCommands "sh:x y".toList ["u v".toList] :=
  parseCommands_split "a %1|b".toList "sh:x y".toList ';' ["u v".toList]
    (Or.inl rfl) (by decide)

/-- C7: a text that is one quoted region, opened and closed by the same quote
character Q and holding a string q (possibly empty) without Q, backslash and
percent sign, parses to one line with one stage with the single token q. -/
theorem parseCommands_quoted (Q : Char) (q : QString) (caps : QStringList)
    (hQ : Q = squote ∨ Q = dquote) (hq : ∀ c ∈ q, c ≠ Q ∧ c ≠ backslash ∧ c ≠ '%') :
    parseCommands (Q :: q ++ [Q]) caps = [[[q]]] := by
  rw [parseCommands, init_eq_plain, List.cons_append, parseLoop_cons,
    step_quote_open caps Q _ [] [] [] [] hQ]
  dsimp only
  rw [parseLoop_quoted caps Q q [Q] [] [] [] hQ [] hq, parseLoop_cons,
    step_quote_close caps Q _ [] [] [] _ hQ]
  simp [parseLoop_nil, flush, PState.plain, appendAndClearNonEmpty]

/-- A use of C7: double quotes around text with a blank, a pipe, a semicolon,
a colon followed by a newline, a script label and a single quote; and the
empty single-quoted region. -/
theorem parseCommands_quoted_witness :
    parseCommands (dquote :: ("a b|c;d:" ++ "\n" ++ "sh:x").toList ++ [squote] ++ [dquote]) []
        = [[[("a b|c;d:" ++ "\n" ++ "sh:x").toList ++ [squote]]]]
    ∧ parseCommands (squote :: [] ++ [squote]) [] = [[[[]]]] :=
  ⟨parseCommands_quoted dquote (("a b|c;d:" ++ "\n" ++ "sh:x").toList ++ [squote]) []
      (Or.inr rfl) (by decide),
   parseCommands_quoted squote [] [] (Or.inl rfl) (by decide)⟩

/-- C8: for strings p and s of ASCII letters and digits (possibly empty) and
any character c, the text p, backslash, c, s yields the single token
p ++ e(c) ++ s in one line and one stage when that token is non-empty and the
empty plan otherwise, where e is `escapedText`. -/
theorem parseCommands_backslash (p s : QString) (c : Char) (caps : QStringList)
    (hp : ∀ x ∈ p, isAlnum x = true) (hs : ∀ x ∈ s, isAlnum x = true) :
    parseCommands (p ++ backslash :: c :: s) caps =
      if p ++ escapedText c ++ s = [] then [] else [[[p ++ escapedText c ++ s]]] := by
  obtain ⟨hp1, hp2⟩ := isAlnum_word hp
  obtain ⟨hs1, hs2⟩ := isAlnum_word hs
  have hn : NoLabel (p ++ backslash :: c :: s) :=
    noLabel_append p _ hp2 (by intro d hd; simp at hd; subst hd; decide)
  rw [parseCommands, init_eq_plain,
    parseLoop_word caps p _ [] [] [] [] hp1 (Or.inr (Or.inr hn)), parseLoop_cons,
    step_backslash]
  dsimp only
  rw [parseLoop_cons, step_escaped]
  dsimp only
  have h := parseLoop_word caps s [] [] [] [] ([] ++ p ++ escapedText c) hs1
    (Or.inr (Or.inr (by simpa using noLabel_nil_or s hs2)))
  rw [List.append_nil] at h
  rw [h, parseLoop_nil, flush_plain_arg]
  simp

/-- A use of C8: an escaped n between two words, and a lone escaped newline. -/
theorem parseCommands_backslash_witness :
    parseCommands ("ab".toList ++ backslash :: 'n' :: "c1".toList) []
        = (if "ab".toList ++ escapedText 'n' ++ "c1".toList = [] then []
           else [[["ab".toList ++ escapedText 'n' ++ "c1".toList]]])
    ∧ parseCommands ([] ++ backslash :: '\n' :: []) []
        = (if ([] : QString) ++ escapedText '\n' ++ [] = [] then []
           else [[[[] ++ escapedText '\n' ++ []]]]) :=
  ⟨parseCommands_backslash "ab".toList "c1".toList 'n' [] (by decide) (by decide),
   parseCommands_backslash [] [] '\n' [] (by decide) (by decide)⟩

/-- C9: for a non-empty list of plain words joined by single spaces, other
than a single word that is a label word, followed by a colon, a newline and
any string r, the plan is one line with one stage: the words, then r as one
literal final token when r is non-empty. -/
theorem parseCommands_colon_rest (ws : QStringList) (r : QString) (caps : QStringList)
    (hne : ws ≠ []) (hw : ∀ w ∈ ws, PlainWord w)
    (hlab : ¬ ∃ w, ws = [w] ∧ w ∈ labelWords) :
    parseCommands (join ws " ".toList ++ ":\n".toList ++ r) caps
      = [[ws ++ if r = [] then [] else [r]]] := by
  cases ws with
  | nil => exact absurd rfl hne
  | cons w ws =>
    have hf : PlainWord w := hw w (by simp)
    have hcolon : ':' ∉ w := (isAlnum_word hf.2).2
    obtain ⟨C1, a1, h1, h2⟩ := parseLoop_words_gen caps [] [] (spaced ws) w []
      (plainWord_ord hf) (spaced_wf ws (fun x hx => plainWord_ord (hw x (by simp [hx]))))
    rw [List.nil_append, spaced_snd] at h1
    have hn : NoLabel (w ++ moreText (spaced ws) ++ ':' :: '\n' :: r) := by
      cases ws with
      | nil =>
        have hl : w ∉ labelWords := fun h => hlab ⟨w, rfl, h⟩
        simpa [spaced, moreText] using noLabel_word_colon w ('\n' :: r) hcolon hl
      | cons v ws =>
        rw [List.append_assoc]
        apply noLabel_append w _ hcolon
        intro d hd
        simp [spaced, moreText] at hd
        subst hd
        decide
    have e : join (w :: ws) " ".toList ++ ":\n".toList ++ r
        = w ++ moreText (spaced ws) ++ ':' :: '\n' :: r := by
      rw [join_spaced]; simp [String.toList]
    rw [parseCommands, init_eq_plain, e, h2 _ (Or.inr hn), parseLoop_cons, step_colon_break]
    dsimp only
    rw [h1]
    by_cases hr : r = []
    · simp [flush, PState.plain, appendAndClearNonEmpty, hr]
    · simp [flush, PState.plain, appendAndClearNonEmpty, hr]

/-- A use of C9: `echo a:` followed by a newline and free text, and the single
word `shx` with nothing after the newline. -/
theorem parseCommands_colon_rest_witness :
    parseCommands (join ["echo".toList, "a".toList] " ".toList ++ ":\n".toList
        ++ "x 'y|z;%1".toList) ["c".toList]
      = [[["echo".toList, "a".toList] ++
          if "x 'y|z;%1".toList = [] then [] else ["x 'y|z;%1".toList]]]
    ∧ parseCommands (join ["shx".toList] " ".toList ++ ":\n".toList ++ []) []
      = [[["shx".toList] ++ if ([] : QString) = [] then [] else [[]]]] :=
  ⟨parseCommands_colon_rest ["echo".toList, "a".toList] "x 'y|z;%1".toList ["c".toList]
      (by simp) (by simp [PlainWord]; decide) (by simp [labelWords]),
   parseCommands_colon_rest ["shx".toList] [] [] (by simp) (by simp [PlainWord]; decide)
      (by simp [labelWords])⟩

/-- C10: parsing is idempotent under re-joining: when every token of the
plan of a command text is non-empty and has no white space, quote, backslash,
percent sign, pipe, semicolon or colon, parsing the text that
`Action::command` builds from the plan, with an empty capture list, gives
the plan back token for token. -/
theorem parseCommands_command_roundtrip (t : QString) (caps : QStringList)
    (hc : ∀ line ∈ parseCommands t caps, ∀ stage ∈ line, ∀ tok ∈ stage, CleanToken tok) :
    parseCommands (Action.command (parseCommands t caps)) [] = parseCommands t caps :=
  parseCommands_command [] (parseCommands t caps)
    (parseLoop_good caps t PState.init init_inv) hc

/-- A use of C10: two lines, the first a pipeline, written with quotes, an
escape and a capture. -/
theorem parseCommands_command_roundtrip_witness :
    parseCommands (Action.command
        (parseCommands "'ls' -l |  w\\c;echo %1".toList ["x".toList])) []
      = parseCommands "'ls' -l |  w\\c;echo %1".toList ["x".toList] :=
  parseCommands_command_roundtrip "'ls' -l |  w\\c;echo %1".toList ["x".toList]
    (by decide)

/-- C12: with text output, a non-empty separator and a destination, when an
output chunk arrives and buffer ++ chunk is non-empty, actionOutput emits one
list of items to the destination; the items followed by the new buffer,
joined with the separator, are the old buffer ++ chunk, and neither an item
nor the new buffer contains the separator. -/
theorem actionOutput_split (env : Env) (a : Action) (readAll : QByteArray)
    (hfmt : hasTextOutput env a = true) (hsep : a.m_sep ≠ [])
    (hdest : a.m_indexValid = true ∨ a.m_tab ≠ [])
    (hne : a.m_lastOutput ++ env.fromUtf8 (readAll.getD []) ≠ []) :
    ∃ items : QStringList,
      (a.actionOutput env readAll).2
          = [.newItems items (if a.m_indexValid then Dest.index else Dest.tab a.m_tab)]
      ∧ join (items ++ [(a.actionOutput env readAll).1.m_lastOutput]) a.m_sep
          = a.m_lastOutput ++ env.fromUtf8 (readAll.getD [])
      ∧ (∀ x ∈ items, ¬ a.m_sep <:+: x)
      ∧ ¬ a.m_sep <:+: (a.actionOutput env readAll).1.m_lastOutput := by
  have h1 : a.m_sep.isEmpty = false := by
    cases hs : a.m_sep <;> simp [hs] at hsep ⊢
  have h2 : (a.m_lastOutput ++ env.fromUtf8 (readAll.getD [])).isEmpty = false := by
    cases ht : a.m_lastOutput ++ env.fromUtf8 (readAll.getD []) <;> simp [ht] at hne ⊢
  have hnn := split_ne_nil (a.m_lastOutput ++ env.fromUtf8 (readAll.getD [])) a.m_sep
  have hjoin := join_split (a.m_lastOutput ++ env.fromUtf8 (readAll.getD [])) a.m_sep hsep
  have hno := noSep_split (a.m_lastOutput ++ env.fromUtf8 (readAll.getD [])) a.m_sep hsep
  have hdl := dropLast_append_getLastD ([] : QString) _ hnn
  have hlast := mem_getLastD_of_ne_nil ([] : QString) _ hnn
  refine ⟨(split (a.m_lastOutput ++ env.fromUtf8 (readAll.getD [])) a.m_sep).dropLast, ?_⟩
  have hout : a.actionOutput env readAll
      = ({ a with m_lastOutput :=
              (split (a.m_lastOutput ++ env.fromUtf8 (readAll.getD [])) a.m_sep).getLastD [] },
          [.newItems (split (a.m_lastOutput ++ env.fromUtf8 (readAll.getD [])) a.m_sep).dropLast
            (if a.m_indexValid then Dest.index else Dest.tab a.m_tab)]) := by
    unfold Action.actionOutput
    rw [if_pos hfmt]
    dsimp only
    rw [h1, h2]
    rcases hdest with hd | hd
    · simp [hd]
    · cases hi : a.m_indexValid
      · have h3 : a.m_tab.isEmpty = false := by
          cases ht : a.m_tab <;> simp [ht] at hd ⊢
        simp [h3]
      · simp
  rw [hout]
  refine ⟨rfl, ?_, fun x hx => hno x (List.mem_of_mem_dropLast hx), hno _ hlast⟩
  dsimp only
  rw [hdl, hjoin]

/-- The witness of C12 named in the claim: empty buffer, chunk `a;;b;;c`,
separator `;;`, tab `t`: the items `a` and `b` are emitted and `c` stays buffered. -/
theorem actionOutput_split_witness :
    ((Action.configured [] none "text/plain".toList ";;".toList "t".toList false).actionOutput
        exampleEnv (bytesOf "a;;b;;c")).2
      = [.newItems ["a".toList, "b".toList] (Dest.tab "t".toList)]
    ∧ ((Action.configured [] none "text/plain".toList ";;".toList "t".toList false).actionOutput
        exampleEnv (bytesOf "a;;b;;c")).1.m_lastOutput = "c".toList
    ∧ ∃ items : QStringList,
      ((Action.configured [] none "text/plain".toList ";;".toList "t".toList
          false).actionOutput exampleEnv (bytesOf "a;;b;;c")).2
          = [.newItems items (Dest.tab "t".toList)]
      ∧ join (items ++ [((Action.configured [] none "text/plain".toList ";;".toList
          "t".toList false).actionOutput exampleEnv (bytesOf "a;;b;;c")).1.m_lastOutput])
            ";;".toList = "a;;b;;c".toList
      ∧ (∀ x ∈ items, ¬ ";;".toList <:+: x)
      ∧ ¬ ";;".toList <:+: ((Action.configured [] none "text/plain".toList ";;".toList
          "t".toList false).actionOutput exampleEnv (bytesOf "a;;b;;c")).1.m_lastOutput :=
  ⟨by decide, by decide,
    actionOutput_split exampleEnv
      (Action.configured [] none "text/plain".toList ";;".toList "t".toList false)
      (bytesOf "a;;b;;c") (by decide) (by decide) (Or.inr (by decide)) (by decide)⟩

/-- C15: when `start` realizes a line of m >= 1 stages, it starts exactly m
processes in stage order, the last one the action itself and the others new
process objects; the k-th start runs the k-th stage: the executable is the
first token of the stage, replaced by the path of the running application
exactly when that token is `copyq`, the arguments are the other tokens in
order; and for every stage but the last the output of its process is wired
to the process of the next stage. -/
theorem start_launches (env : Env) (a : Action) (cmds : List QStringList)
    (hcur : -1 ≤ a.m_currentLine)
    (hline : a.m_cmds[(a.m_currentLine + 1).toNat]? = some cmds)
    (hne : cmds ≠ []) (hst : ∀ s ∈ cmds.dropLast, s ≠ []) :
    ∃ (a2 : Action) (effs : List Effect),
      a.start env = some (a2, effs)
      ∧ launches effs
          = cmds.enum.map (fun p =>
              Effect.start (stageProc a.children cmds.length p.1)
                (if p.2.headD [] = "copyq".toList then env.applicationFilePath
                 else p.2.headD [])
                (p.2.drop 1))
      ∧ (launches effs).length = cmds.length
      ∧ stageProc a.children cmds.length (cmds.length - 1) = .self
      ∧ (∀ k, k + 1 < cmds.length →
          stageProc a.children cmds.length k = .child (a.children + k))
      ∧ wirings effs
          = (List.range (cmds.length - 1)).map (fun k =>
              Effect.setStandardOutputProcess (stageProc a.children cmds.length k)
                (stageProc a.children cmds.length (k + 1))) := by
  obtain ⟨n, effs, h1, h2, h3, -, -, -⟩ :=
    realize_spec env { a with m_currentLine := a.m_currentLine + 1 } cmds hne hst
  have hlen : 1 ≤ cmds.length := List.length_pos.mpr hne
  have hl : launches effs
      = cmds.enum.map (fun p =>
          Effect.start (stageProc a.children cmds.length p.1)
            (if p.2.headD [] = "copyq".toList then env.applicationFilePath
             else p.2.headD [])
            (p.2.drop 1)) := by
    rw [h2]
    apply List.map_congr_left
    intro p _
    simp [startProcess]
  refine ⟨_, effs, (start_realize env a cmds hcur hline).trans h1, hl, ?_,
    stageProc_last (by omega), fun k hk => stageProc_not_last (by omega), ?_⟩
  · rw [hl]; simp
  · rw [h3]
    have e : cmds.dropLast.enum.map (fun p =>
          Effect.setStandardOutputProcess (stageProc a.children cmds.length p.1)
            (stageProc a.children cmds.length (p.1 + 1)))
        = (cmds.dropLast.enum.map Prod.fst).map (fun k =>
          Effect.setStandardOutputProcess (stageProc a.children cmds.length k)
            (stageProc a.children cmds.length (k + 1))) := by
      rw [List.map_map]; rfl
    rw [e, List.enum_map_fst, List.length_dropLast]

/-- A use of C15: the line `a | copyq x | c` realized from the idle state of
an action whose plan is that line. -/
theorem start_launches_witness :
    ∃ (a2 : Action) (effs : List Effect),
      (Action.configured [[["a".toList], ["copyq".toList, "x".toList], ["c".toList]]]
          none [] [] [] false).start exampleEnv = some (a2, effs)
      ∧ launches effs
          = [Effect.start (.child 0) "a".toList [],
             Effect.start (.child 1) "/usr/bin/copyq".toList ["x".toList],
             Effect.start .self "c".toList []]
      ∧ (launches effs).length = 3
      ∧ stageProc 0 3 2 = .self
      ∧ (∀ k, k + 1 < 3 → stageProc 0 3 k = .child (0 + k))
      ∧ wirings effs
          = [Effect.setStandardOutputProcess (.child 0) (.child 1),
             Effect.setStandardOutputProcess (.child 1) .self] :=
  start_launches exampleEnv
    (Action.configured [[["a".toList], ["copyq".toList, "x".toList], ["c".toList]]]
      none [] [] [] false)
    [["a".toList], ["copyq".toList, "x".toList], ["c".toList]]
    (by decide) (by decide) (by decide) (by decide)

/-- C13: in every state that an action configured with text output reaches,
the finished slot does its output processing, then the flush, then `start`;
with a destination and a non-empty buffer after the output processing the
flush emits exactly that buffer as one item and empties the buffer; with an
empty buffer the flush emits nothing; without a destination neither the
output processing nor the flush emits anything. -/
theorem actionFinished_flush (env : Env) (cmds : Plan) (input : QByteArray)
    (fmt sep tab : QString) (indexValid : Bool) (events : List Event)
    (r : Action × List Effect) (readAll : QByteArray) (o f : Action × List Effect)
    (htext : hasTextOutput env (Action.configured cmds input fmt sep tab indexValid) = true)
    (hrun : Action.run env events (Action.configured cmds input fmt sep tab indexValid)
      = some r)
    (ho : o = r.1.actionOutput env readAll) (hf : f = o.1.finishFlush env) :
    r.1.actionFinished env readAll
        = (match f.1.start env with
           | none => none
           | some s => some (s.1, o.2 ++ f.2 ++ s.2))
    ∧ ((r.1.m_indexValid = true ∨ r.1.m_tab ≠ []) → o.1.m_lastOutput ≠ [] →
        f.2 = [.newItems [o.1.m_lastOutput]
                (if r.1.m_indexValid then Dest.index else Dest.tab r.1.m_tab)]
        ∧ f.1.m_lastOutput = [])
    ∧ (o.1.m_lastOutput = [] → f.2 = [] ∧ f.1.m_lastOutput = [])
    ∧ (r.1.m_indexValid = false → r.1.m_tab = [] → o.2 = [] ∧ f.2 = []) := by
  obtain ⟨t1, t2, t3⟩ := run_text env events _ r htext rfl rfl hrun
  obtain ⟨⟨-, -, c3, -, c5, c6, -⟩, -⟩ := actionOutput_frame env r.1 readAll
  obtain ⟨u1, u2⟩ := actionOutput_text env r.1 readAll t1
  rw [← ho] at c3 c5 c6 u1 u2
  have ht1 : hasTextOutput env o.1 = true := (hasTextOutput_congr env c3).trans t1
  have hfmt : (o.1.m_outputFormat == env.mimeText) = true := by
    simp only [hasTextOutput, Bool.and_eq_true] at ht1
    exact ht1.2
  have hnull : byteArrayIsNull o.1.m_outputData = true := by
    rw [u2, t3]; rfl
  have hcan : canEmitNewItems env o.1
      = ((o.1.m_indexValid || !o.1.m_tab.isEmpty) && !o.1.m_lastOutput.isEmpty) := by
    simp only [canEmitNewItems, hnull, hfmt]
    simp
  have hflush : f = (if canEmitNewItems env o.1 then
        ({ o.1 with m_items := [], m_lastOutput := [] },
          [if o.1.m_indexValid then Effect.newItems [o.1.m_lastOutput] Dest.index
           else Effect.newItems [o.1.m_lastOutput] (Dest.tab o.1.m_tab)])
      else (o.1, [])) := by
    rw [hf]
    unfold Action.finishFlush
    rw [if_pos ht1]
    dsimp only
    rw [u1, t2]
    rfl
  refine ⟨?_, ?_, ?_, ?_⟩
  · rw [hf, ho]; rfl
  · intro hd hne
    have hc : canEmitNewItems env o.1 = true := by
      rw [hcan, c5, c6]
      have h1 : o.1.m_lastOutput.isEmpty = false := by
        cases hl : o.1.m_lastOutput <;> simp [hl] at hne ⊢
      rcases hd with hd | hd
      · simp [hd, h1]
      · have h2 : r.1.m_tab.isEmpty = false := by
          cases hl : r.1.m_tab <;> simp [hl] at hd ⊢
        simp [h2, h1]
    rw [hflush, if_pos hc, c5, c6]
    refine ⟨?_, rfl⟩
    cases r.1.m_indexValid <;> rfl
  · intro he
    have hc : canEmitNewItems env o.1 = false := by
      rw [hcan, he]; simp
    rw [hflush, hc]
    exact ⟨rfl, he⟩
  · intro hi htab
    have hc : canEmitNewItems env o.1 = false := by
      rw [hcan, c5, c6, hi, htab]; rfl
    refine ⟨?_, by rw [hflush, hc]; rfl⟩
    rw [ho]
    unfold Action.actionOutput
    rw [if_pos t1]
    dsimp only
    rw [hi, htab]
    split_ifs <;> first | rfl | simp_all

/-- A use of C13: an action with text output, separator `;;` and tab `t` that
has read `a;;b` holds `b`; when it finishes with nothing more to read, the
flush emits the one item `b` and empties the buffer. -/
theorem actionFinished_flush_witness :
    ((((Action.configured [[["x".toList]]] none "text/plain".toList ";;".toList "t".toList
          false).actionOutput exampleEnv (bytesOf "a;;b")).1.actionOutput exampleEnv
            none).1.m_lastOutput = "b".toList)
    ∧ ((((Action.configured [[["x".toList]]] none "text/plain".toList ";;".toList "t".toList
          false).actionOutput exampleEnv (bytesOf "a;;b")).1.actionOutput exampleEnv
            none).1.finishFlush exampleEnv).2
        = [.newItems ["b".toList] (Dest.tab "t".toList)]
    ∧ ((((Action.configured [[["x".toList]]] none "text/plain".toList ";;".toList "t".toList
          false).actionOutput exampleEnv (bytesOf "a;;b")).1.actionOutput exampleEnv
            none).1.finishFlush exampleEnv).1.m_lastOutput = [] :=
  ⟨by decide,
    (actionFinished_flush exampleEnv [[["x".toList]]] none "text/plain".toList
      ";;".toList "t".toList false [.readyReadStandardOutput (bytesOf "a;;b")]
      ((Action.configured [[["x".toList]]] none "text/plain".toList ";;".toList "t".toList
          false).actionOutput exampleEnv (bytesOf "a;;b")) none _ _ (by decide) (by decide)
      rfl rfl).2.1 (Or.inr (by decide)) (by decide)⟩

/-- C14: for a plan of n lines that `start` can run (no empty line, no empty
stage before the last of a line), from the idle state: after `start()` and k
finished notifications, k <= n, the run has succeeded, the process of the
action has been started once for each of the lines 0..min(k, n-1), in this
order, the cursor is min(k, n-1), and the terminal signal has been emitted
exactly when k = n, once and as the last effect; the finished slot realizes
the next line only after its output processing and flush; whatever the
events, the cursor stays within -1..n-1; and for the empty plan the first
`start()` emits the terminal signal and starts nothing. -/
theorem lines_run_in_order (env : Env) (plan : Plan) (input : QByteArray)
    (fmt sep tab : QString) (indexValid : Bool) (hr : Runnable plan) :
    (∀ bs : List QByteArray, bs.length ≤ plan.length →
      ∃ (a : Action) (log : List Effect),
        Action.run env (.start :: bs.map .finished)
            (Action.configured plan input fmt sep tab indexValid) = some (a, log)
        ∧ a.m_currentLine
            = (if bs.length < plan.length then (bs.length : Int)
               else (plan.length : Int) - 1)
        ∧ selfStarts log
            = (plan.take (bs.length + 1)).map
                (fun line => startProcess env .self (line.getLastD []))
        ∧ terminals log = (if bs.length = plan.length then [.actionFinished] else [])
        ∧ (bs.length = plan.length → log.getLast? = some .actionFinished))
    ∧ (∀ (a : Action) (readAll : QByteArray),
        a.actionFinished env readAll
          = (match ((a.actionOutput env readAll).1.finishFlush env).1.start env with
             | none => none
             | some s =>
               some (s.1, (a.actionOutput env readAll).2
                 ++ ((a.actionOutput env readAll).1.finishFlush env).2 ++ s.2)))
    ∧ (∀ (events : List Event) (r : Action × List Effect),
        Action.run env events (Action.configured plan input fmt sep tab indexValid) = some r →
        -1 ≤ r.1.m_currentLine ∧ r.1.m_currentLine ≤ (plan.length : Int) - 1)
    ∧ (plan = [] →
        Action.run env [.start] (Action.configured plan input fmt sep tab indexValid)
          = some (Action.configured plan input fmt sep tab indexValid, [.actionFinished])) := by
  refine ⟨fun bs hlen => ?_, fun a readAll => rfl, fun events r hrun => ?_, fun hp => ?_⟩
  · obtain ⟨a, log, h1, -, h3, h4, h5, h6⟩ :=
      run_lines env (Action.configured plan input fmt sep tab indexValid) hr rfl bs hlen
    exact ⟨a, log, h1, h3, h4, h5, h6⟩
  · obtain ⟨-, h2, h3, -⟩ := run_counts env events _ r rfl rfl hrun
    have h4 : (Action.configured plan input fmt sep tab indexValid).m_cmds = plan := rfl
    rw [h4] at h3
    exact ⟨h2, by omega⟩
  · subst hp
    rfl

/-- A use of C14: a plan of two lines run to its end. -/
theorem lines_run_in_order_witness :
    ∃ (a : Action) (log : List Effect),
      Action.run exampleEnv (.start :: [none, none].map .finished)
          (Action.configured [[["a".toList], ["b".toList]], [["c".toList]]] none [] [] []
            false) = some (a, log)
      ∧ a.m_currentLine = 1
      ∧ selfStarts log = [Effect.start .self "b".toList [], Effect.start .self "c".toList []]
      ∧ terminals log = [.actionFinished]
      ∧ (2 = 2 → log.getLast? = some .actionFinished) :=
  (lines_run_in_order exampleEnv [[["a".toList], ["b".toList]], [["c".toList]]] none [] [] []
    false (by decide)).1 [none, none] (by decide)

/-- C17: a process error while the process is not running sets the failure
flag and emits the terminal signal once, and changes nothing else (the cursor
stays, nothing is started); a process error while the process is running
changes nothing and emits nothing; the flag is false after construction and,
once set, stays set in every run of events. -/
theorem actionError_policy (env : Env) (a : Action) (st : ProcessState)
    (events : List Event) (r : Action × List Effect)
    (hrun : Action.run env events a = some r) :
    (st ≠ .Running → a.actionError st = ({ a with m_failed := true }, [.actionFinished]))
    ∧ (st = .Running → a.actionError st = (a, []))
    ∧ (∀ cmds input fmt sep tab indexValid,
        (Action.configured cmds input fmt sep tab indexValid).m_failed = false)
    ∧ (a.m_failed = true → r.1.m_failed = true) := by
  refine ⟨fun h => ?_, fun h => ?_, fun _ _ _ _ _ _ => rfl, fun hf => ?_⟩
  · cases st <;> first | rfl | exact absurd rfl h
  · subst h; rfl
  · exact run_invariant env (fun a _ => a.m_failed = true)
      (fun a _ e r1 hp hh => (handle_facts env a e r1 hh).2.1 hp) events a [] r hf hrun

/-- A use of C17: an error before the process runs, then a start and a
finished notification: the flag stays set. -/
theorem actionError_policy_witness :
    ((Action.configured [[["a".toList]]] none [] [] [] false).actionError .NotRunning).1.m_failed
        = true
    ∧ ((Action.configured [[["a".toList]]] none [] [] [] false).actionError .NotRunning).2
        = [.actionFinished]
    ∧ (({ Action.configured [[["a".toList]]] none [] [] [] false with
          m_failed := true, m_currentLine := 0, m_firstProcess := some .self } : Action).m_failed
        = true) :=
  have h := actionError_policy exampleEnv
    ((Action.configured [[["a".toList]]] none [] [] [] false).actionError .NotRunning).1
    .NotRunning [.start, .finished none]
    (({ Action.configured [[["a".toList]]] none [] [] [] false with
          m_failed := true, m_currentLine := 0, m_firstProcess := some .self } : Action),
      [Effect.closeReadChannel, Effect.start .self "a".toList [], Effect.actionFinished])
    (by decide)
  ⟨by decide, by decide, h.2.2.2 (by decide)⟩


/-- C18: after any history of constructions, destructions and `setData` calls
that starts with no action, `Action::data(id)` leaves the registry as it was
and returns the data bag of the specification: the bag of the last `setData`
on the live action with that identity when nothing happened to that identity
since, and the empty bag when no live action has the identity, which is so
exactly when it was never constructed or was destroyed since. -/
theorem data_lookup (ops : List RegOp) (w : Registry) (id : Nat)
    (hrun : Registry.run ops Registry.empty = some w) :
    (w.data id).2 = w
    ∧ (w.data id).1 = lastData ops.reverse id
    ∧ (id ∈ w.actions ↔ isLive ops.reverse id = true)
    ∧ (isLive ops.reverse id = false → (w.data id).1 = [])
    ∧ (∀ pre post d, ops = pre ++ RegOp.setData id d :: post →
        (∀ op ∈ post, op.target ≠ id) → id ∈ w.actions ∧ (w.data id).1 = d) := by
  have hinv := registry_run_inv ops Registry.empty w [] registry_empty_inv hrun
  rw [List.append_nil] at hinv
  obtain ⟨-, hdata⟩ := hinv
  obtain ⟨h1, h2, h3⟩ := hdata id
  obtain ⟨e1, e2⟩ := registry_data_eq w id
  have hl : (w.data id).1 = lastData ops.reverse id := by
    rw [e1]
    by_cases hm : id ∈ w.actions
    · rw [if_pos hm, h1 hm]
    · rw [if_neg hm, h2 hm]
  refine ⟨e2, hl, h3, ?_, ?_⟩
  · intro hf
    have hm : id ∉ w.actions := fun hm => by
      rw [h3.mp hm] at hf
      exact Bool.noConfusion hf
    rw [e1, if_neg hm]
  · intro pre post d hops hpost
    have hr : ops.reverse = post.reverse ++ (RegOp.setData id d :: pre.reverse) := by
      rw [hops]; simp
    have hpost1 : ∀ op ∈ post.reverse, op.target ≠ id :=
      fun o ho => hpost o (List.mem_reverse.mp ho)
    have hlive : id ∈ w.actions := by
      rw [h3, hr, isLive_skip id _ _ hpost1]
      rw [hops, registry_run_append] at hrun
      cases hpre : Registry.run pre Registry.empty with
      | none => rw [hpre] at hrun; exact Option.noConfusion hrun
      | some w0 =>
        rw [hpre] at hrun
        have hinv0 := registry_run_inv pre Registry.empty w0 [] registry_empty_inv hpre
        rw [List.append_nil] at hinv0
        have hp : (RegOp.setData id d).possible w0 = true := by
          by_contra hp
          simp [Registry.run, hp] at hrun
        have hm0 : id ∈ w0.actions := by simpa [RegOp.possible] using hp
        simpa [isLive] using (hinv0.2 id).2.2.mp hm0
    refine ⟨hlive, ?_⟩
    rw [hl, hr, lastData_skip id _ _ hpost1]
    simp [lastData]


/-- Witness of C18 on the example history: the lookup of the live action at
address 7 gives the bag set on it, and the registry is the same afterwards. -/
theorem data_lookup_witness :
    ∃ w, Registry.run exampleHistory Registry.empty = some w
      ∧ (w.data 7).2 = w
      ∧ (7 ∈ w.actions ∧ (w.data 7).1 = [("k".toList, some [1, 2])]) :=
  ⟨_, rfl, (data_lookup exampleHistory _ 7 rfl).1,
    (data_lookup exampleHistory _ 7 rfl).2.2.2.2 [.construct 7] [.construct 9, .destruct 9]
      [("k".toList, some [1, 2])] rfl (by decide)⟩


/-- C19: `Server::onNewConnection` on a connected socket raises no "new
connection" event and leaves the server as it was when the arguments read are
empty; when they are not empty (and the 32-bit count is in range) the count
goes up by exactly one and exactly one event is raised, with those arguments.
`onSocketClosed` takes one off a positive count. Over any sequence of
connections and destructions of client sockets from the constructed server
the assertion never fails, and the count is the number of accepted handlers
minus the number of closed ones, the number of live handlers, never negative. -/
theorem onNewConnection_counts (s : Server) (socket : Socket) (events : List ServerEvent)
    (hconn : socket.state = .ConnectedState)
    (hrange : 0 ≤ s.m_socketCount ∧ s.m_socketCount + 1 < 2 ^ 31)
    (hlen : events.length < 2 ^ 31) :
    (socket.arguments = [] →
        (s.onNewConnection (some socket)).1 = s
        ∧ raised (s.onNewConnection (some socket)).2 = [])
    ∧ (socket.arguments ≠ [] →
        (s.onNewConnection (some socket)).1.m_socketCount = s.m_socketCount + 1
        ∧ raised (s.onNewConnection (some socket)).2 = [socket.arguments])
    ∧ (0 < s.m_socketCount →
        s.onSocketClosed = some { s with m_socketCount := s.m_socketCount - 1 })
    ∧ (∃ r, Server.run events Server.initial = some r
        ∧ r.1.m_socketCount = ((accepted r.2).length : Int) - (closed r.2).length
        ∧ r.1.m_socketCount = r.1.handlers.length
        ∧ 0 ≤ r.1.m_socketCount) := by
  refine ⟨?_, ?_, ?_, ?_⟩
  · intro ha
    simp [Server.onNewConnection, hconn, ha, raised]
  · intro ha
    have ha1 : socket.arguments.isEmpty = false := by
      cases hargs : socket.arguments with
      | nil => exact absurd hargs ha
      | cons _ _ => rfl
    simp only [Server.onNewConnection, hconn, ne_eq, not_true_eq_false, if_false, ha1,
      Bool.not_false, if_true, raised]
    exact ⟨wrapInt32_id _ (by omega) hrange.2, trivial⟩
  · intro hp
    unfold Server.onSocketClosed
    rw [if_pos hp]
  · have hl : (Server.initial.m_socketCount : Int) + events.length < 2 ^ 31 := by
      show (0 : Int) + events.length < 2 ^ 31
      rw [Int.zero_add]
      exact_mod_cast hlen
    obtain ⟨r, h1, h2, h3, h4⟩ :=
      server_run_inv events Server.initial (le_refl _) rfl hl
    refine ⟨r, h1, ?_, h3, h2⟩
    rw [h4]
    show (0 : Int) + _ - _ = _
    rw [Int.zero_add]

/-- Witness of C19: the first connection of the example raises one event and
makes the count 1, and after the example events (one client accepted, one
dropped, the accepted one destroyed) the count is 0. -/
theorem onNewConnection_counts_witness :
    exampleSocket.state = .ConnectedState
    ∧ (0 ≤ Server.initial.m_socketCount ∧ Server.initial.m_socketCount + 1 < 2 ^ 31)
    ∧ exampleEvents.length < 2 ^ 31
    ∧ ((Server.initial.onNewConnection (some exampleSocket)).1.m_socketCount
          = Server.initial.m_socketCount + 1
        ∧ raised (Server.initial.onNewConnection (some exampleSocket)).2 = [[[1]]])
    ∧ (∃ r, Server.run exampleEvents Server.initial = some r
        ∧ r.1.m_socketCount = ((accepted r.2).length : Int) - (closed r.2).length
        ∧ r.1.m_socketCount = r.1.handlers.length
        ∧ 0 ≤ r.1.m_socketCount) :=
  ⟨rfl, by decide, by decide,
    (onNewConnection_counts Server.initial exampleSocket exampleEvents rfl (by decide)
      (by decide)).2.1 (by decide),
    (onNewConnection_counts Server.initial exampleSocket exampleEvents rfl (by decide)
      (by decide)).2.2.2⟩


/-- C20: `renameTab(newName, oldName)` leaves the empty string exactly when
both names are non-empty, the window finds a tab for `oldName` and none for
`newName`, and then the window is the one renamed at the index found. In every
other case the window is as before and the value is an error message that is
not empty: the empty-name message when a name is empty, otherwise the
not-found message when `oldName` is not found, otherwise the already-exists
message. -/
theorem renameTab_result {W : Type} (m : MainWindow W) (tr : QString → QString)
    (htr : ∀ t, t ≠ [] → tr t ≠ []) (m_wnd : W) (newName oldName : QString) :
    ((ScriptableProxyHelper.renameTab m tr m_wnd newName oldName).1 = []
        ↔ CanRename m m_wnd newName oldName)
    ∧ (CanRename m m_wnd newName oldName →
        (ScriptableProxyHelper.renameTab m tr m_wnd newName oldName).2
          = m.renameTab m_wnd newName (m.findTabIndex m_wnd oldName))
    ∧ (¬ CanRename m m_wnd newName oldName →
        (ScriptableProxyHelper.renameTab m tr m_wnd newName oldName).1 ≠ []
        ∧ (ScriptableProxyHelper.renameTab m tr m_wnd newName oldName).2 = m_wnd
        ∧ (ScriptableProxyHelper.renameTab m tr m_wnd newName oldName).1
          = (if newName = [] ∨ oldName = [] then tabNameEmptyError tr
             else if m.findTabIndex m_wnd oldName = -1 then tabNotFoundError tr
             else tr "Tab with given name already exists!".toList)) := by
  have e1 : tabNameEmptyError tr ≠ [] := htr _ (by decide)
  have e2 : tabNotFoundError tr ≠ [] := htr _ (by decide)
  have e3 : tr "Tab with given name already exists!".toList ≠ [] := htr _ (by decide)
  unfold ScriptableProxyHelper.renameTab CanRename
  by_cases h1 : newName = []
  · subst h1
    simp [e1]
  · by_cases h2 : oldName = []
    · subst h2
      simp [e1]
    · have c : (newName.isEmpty || oldName.isEmpty) = false := by
        cases newName with
        | nil => exact absurd rfl h1
        | cons _ _ =>
          cases oldName with
          | nil => exact absurd rfl h2
          | cons _ _ => rfl
      simp only [c, Bool.false_eq_true, if_false, h1, h2, or_self, ne_eq, not_false_eq_true,
        true_and]
      by_cases h3 : m.findTabIndex m_wnd oldName = -1
      · simp [h3, e2]
      · by_cases h4 : m.findTabIndex m_wnd newName = -1
        · simp [h3, h4]
        · simpa [h3, h4] using e3

/-- Witness of C20 on the example window with the tabs `a` and `b`: renaming
`a` to `c` leaves the empty string and the tabs `c` and `b`. -/
theorem renameTab_result_witness :
    (∀ t : QString, t ≠ [] → id t ≠ [])
    ∧ CanRename exampleWindow ["a".toList, "b".toList] "c".toList "a".toList
    ∧ (ScriptableProxyHelper.renameTab exampleWindow id ["a".toList, "b".toList]
        "c".toList "a".toList).1 = []
    ∧ (ScriptableProxyHelper.renameTab exampleWindow id ["a".toList, "b".toList]
        "c".toList "a".toList).2 = ["c".toList, "b".toList] :=
  ⟨fun _ h => h, by decide,
    (renameTab_result exampleWindow id (fun _ h => h) ["a".toList, "b".toList]
      "c".toList "a".toList).1.mpr (by decide),
    ((renameTab_result exampleWindow id (fun _ h => h) ["a".toList, "b".toList]
      "c".toList "a".toList).2.1 (by decide)).trans (by decide)⟩


/-- C24: a percent sign that is not followed by a digit 1 to 9 is kept: for
strings p and s of ASCII letters and digits, either may be empty, where s is
empty or does not begin with one of the digits 1 to 9, the text p, percent
sign, s parses to one line with one stage whose single token is that text,
for every capture list. -/
theorem parseCommands_percent_literal (caps : QStringList) (p s : QString)
    (hp : ∀ c ∈ p, isAlnum c = true) (hs : ∀ c ∈ s, isAlnum c = true)
    (hd : ∀ c, s.head? = some c → ¬ (49 ≤ c.toNat ∧ c.toNat ≤ 57)) :
    parseCommands (p ++ '%' :: s) caps = [[[p ++ '%' :: s]]] := by
  have hcol : ':' ∉ p ++ '%' :: s := by
    intro h
    rcases List.mem_append.mp h with h1 | h1
    · exact absurd (hp _ h1) (by decide)
    · rcases List.mem_cons.mp h1 with h2 | h2
      · exact absurd h2 (by decide)
      · exact absurd (hs _ h2) (by decide)
  have e1 := parseLoop_word caps p ('%' :: s) [] [] [] [] (isAlnum_word hp).1
    (Or.inr (Or.inr (noLabel_nil_or _ hcol)))
  rw [parseCommands, init_eq_plain, e1, parseLoop_cons, step_percent_sign]
  dsimp only
  rw [parseLoop_after_percent caps s _ (by simp) hs hd]
  simp

/-- Witness of C24: the texts `100%` and `%0` stay as they are. -/
theorem parseCommands_percent_literal_witness :
    parseCommands "100%".toList ["x".toList] = [[["100%".toList]]]
    ∧ parseCommands "%0".toList ["x".toList] = [[["%0".toList]]] :=
  ⟨parseCommands_percent_literal ["x".toList] "100".toList [] (by decide) (by decide)
      (by decide),
    parseCommands_percent_literal ["x".toList] [] "0".toList (by decide) (by decide)
      (by decide)⟩


/-- C27: a percent sign with a digit k in 1..9 that refers past the end of the
capture list is replaced by the empty string: for a non-empty plain word p
and a string s of ASCII letters and digits that is empty or does not begin
with a digit, the text p, percent sign, k, s parses to one line with one
stage whose single token is p followed by s; nothing of the percent sign and
its digit is left in the token. -/
theorem parseCommands_percent_past_end (k : Nat) (caps : QStringList) (p s : QString)
    (hk1 : 1 ≤ k) (hk9 : k ≤ 9) (hcaps : caps.length < k) (hp : PlainWord p)
    (hs : ∀ c ∈ s, isAlnum c = true)
    (hd : ∀ c, s.head? = some c → ¬ (48 ≤ c.toNat ∧ c.toNat ≤ 57)) :
    parseCommands (p ++ '%' :: Nat.digitChar k :: s) caps = [[[p ++ s]]]
    ∧ '%' ∉ p ++ s ∧ (p ++ s).length + 2 = (p ++ '%' :: Nat.digitChar k :: s).length := by
  have hdk := digitChar_toNat k hk9
  have hkal : isAlnum (Nat.digitChar k) = true := by
    simp only [isAlnum, hdk]
    have h1 : 48 ≤ 48 + k := by omega
    have h2 : 48 + k ≤ 57 := by omega
    simp [h1, h2]
  have hcol : ':' ∉ p ++ '%' :: Nat.digitChar k :: s := by
    intro h
    rcases List.mem_append.mp h with h1 | h1
    · exact absurd (hp.2 _ h1) (by decide)
    · rcases List.mem_cons.mp h1 with h2 | h2
      · exact absurd h2 (by decide)
      · rcases List.mem_cons.mp h2 with h3 | h3
        · rw [← h3] at hkal; exact absurd hkal (by decide)
        · exact absurd (hs _ h3) (by decide)
  have e1 := parseLoop_word caps p ('%' :: Nat.digitChar k :: s) [] [] [] []
    (isAlnum_word hp.2).1 (Or.inr (Or.inr (noLabel_nil_or _ hcol)))
  have hget : caps.getD ((Nat.digitChar k).toNat - 49) [] = [] := by
    rw [List.getD_eq_getElem?_getD, List.getElem?_eq_none (by omega)]
    rfl
  have hd1 : ∀ c, s.head? = some c → ¬ (49 ≤ c.toNat ∧ c.toNat ≤ 57) :=
    fun c hc h => hd c hc ⟨by omega, h.2⟩
  refine ⟨?_, ?_, by simp only [List.length_append, List.length_cons]; omega⟩
  · rw [parseCommands, init_eq_plain, e1, parseLoop_cons, step_percent_sign]
    dsimp only
    rw [parseLoop_cons, step_subst caps _ _ _ rfl (by omega) (by omega)]
    dsimp only
    rw [hget]
    have e2 := parseLoop_after_percent caps s p hp.1 hs hd1
    simpa [PState.plain, chopLast] using e2
  · intro h
    rcases List.mem_append.mp h with h1 | h1
    · exact absurd (hp.2 _ h1) (by decide)
    · exact absurd (hs _ h1) (by decide)

/-- Witness of C27: with one capture, the text `ab%2cd` gives the token `abcd`. -/
theorem parseCommands_percent_past_end_witness :
    parseCommands ("ab".toList ++ '%' :: Nat.digitChar 2 :: "cd".toList) ["x".toList]
      = [[["ab".toList ++ "cd".toList]]] :=
  (parseCommands_percent_past_end 2 ["x".toList] "ab".toList "cd".toList (by decide)
    (by decide) (by decide) ⟨by decide, by decide⟩ (by decide) (by decide)).1


/-- C25: a script label is honoured only at the very start of a stage: for
plain words w and s, every label L of the six and every capture list, the
text w, a space, L, s is tokenized normally and gives one line with one stage
whose tokens are w and L followed by s. -/
theorem parseCommands_label_after_word (caps : QStringList) (w s : QString)
    (hw : PlainWord w) (hs : PlainWord s) (lt : QString × (QString → QStringList))
    (hlt : lt ∈ scriptLabels) :
    parseCommands (w ++ ' ' :: (lt.1 ++ s)) caps = [[[w, lt.1 ++ s]]] := by
  have hnl : NoLabel (w ++ ' ' :: (lt.1 ++ s)) :=
    noLabel_append w _ (isAlnum_word hw.2).2
      (fun c hc => by
        have : c = ' ' := by simpa using hc.symm
        subst this
        exact ⟨by decide, by decide⟩)
  have e1 := parseLoop_word caps w (' ' :: (lt.1 ++ s)) [] [] [] [] (isAlnum_word hw.2).1
    (Or.inr (Or.inr hnl))
  have e2 := step_space caps ' ' (lt.1 ++ s) [] [] [] ([] ++ w) (by decide) (by decide)
  have e3 : (appendAndClearNonEmpty ([] ++ w) ([] : QStringList)).2 = [w] := by
    rw [List.nil_append, aac_snd_ne w [] hw.1]
    rfl
  rw [parseCommands, init_eq_plain, e1, parseLoop_cons, e2]
  dsimp only
  rw [e3]
  simp only [scriptLabels, List.mem_cons, List.mem_singleton, List.not_mem_nil, or_false]
    at hlt
  rcases hlt with h | h | h | h | h | h <;> subst h
  · exact parseLoop_second_word caps w "copyq".toList s (by decide) hs.2
  · exact parseLoop_second_word caps w "sh".toList s (by decide) hs.2
  · exact parseLoop_second_word caps w "bash".toList s (by decide) hs.2
  · exact parseLoop_second_word caps w "perl".toList s (by decide) hs.2
  · exact parseLoop_second_word caps w "python".toList s (by decide) hs.2
  · exact parseLoop_second_word caps w "ruby".toList s (by decide) hs.2

/-- Witness of C25: `echo sh:foo` gives the tokens `echo` and `sh:foo`. -/
theorem parseCommands_label_after_word_witness :
    parseCommands ("echo".toList ++ ' ' :: ("sh:".toList ++ "foo".toList)) []
      = [[["echo".toList, "sh:".toList ++ "foo".toList]]] :=
  parseCommands_label_after_word [] "echo".toList "foo".toList ⟨by decide, by decide⟩
    ⟨by decide, by decide⟩
    ("sh:".toList, fun s => ["sh".toList, "-c".toList, "--".toList, s, "--".toList])
    (by simp [scriptLabels])


/-- C26: a command text made only of white space, pipes, semicolons and
newlines (the empty text too) parses to the plan with no line, for every
capture list; the first `start()` of an action configured with that plan
emits the terminal signal, does nothing else and leaves the cursor at -1. -/
theorem parseCommands_degenerate (env : Env) (caps : QStringList) (text : QString)
    (input : QByteArray) (fmt sep tab : QString) (indexValid : Bool)
    (h : ∀ c ∈ text, isSpace c = true ∨ c = '|' ∨ c = ';' ∨ c = '\n') :
    parseCommands text caps = []
    ∧ (Action.configured (parseCommands text caps) input fmt sep tab indexValid).start env
        = some (Action.configured (parseCommands text caps) input fmt sep tab indexValid,
            [.actionFinished])
    ∧ launches [Effect.actionFinished] = [] := by
  have e : parseCommands text caps = [] := by
    rw [parseCommands, init_eq_plain]
    exact parseLoop_degenerate caps text h
  refine ⟨e, ?_, rfl⟩
  rw [e]
  rfl

/-- Witness of C26: the text ` |;` followed by a newline and a tab. -/
theorem parseCommands_degenerate_witness :
    parseCommands [' ', '|', ';', '\n', '\t'] ["x".toList] = []
    ∧ (Action.configured (parseCommands [' ', '|', ';', '\n', '\t'] ["x".toList])
          (bytesOf "in") [] [] "tab".toList false).start exampleEnv
        = some (Action.configured (parseCommands [' ', '|', ';', '\n', '\t'] ["x".toList])
            (bytesOf "in") [] [] "tab".toList false, [.actionFinished]) :=
  ⟨(parseCommands_degenerate exampleEnv ["x".toList] [' ', '|', ';', '\n', '\t']
      (bytesOf "in") [] [] "tab".toList false (by decide)).1,
    (parseCommands_degenerate exampleEnv ["x".toList] [' ', '|', ';', '\n', '\t']
      (bytesOf "in") [] [] "tab".toList false (by decide)).2.1⟩


/-- C28: a label with an empty script does not end the scan: for every capture
list the text `sh:` alone parses to one line with one stage whose tokens are
the interpreter tokens pushed for the label, with the empty script, followed
by the label text itself as an ordinary last argument, and no capture is
appended; likewise `copyq:` alone. -/
theorem parseCommands_label_empty_script (caps : QStringList) :
    parseCommands "sh:".toList caps
      = [[["sh".toList, "-c".toList, "--".toList, [], "--".toList, "sh:".toList]]]
    ∧ parseCommands "copyq:".toList caps
      = [[["copyq".toList, "eval".toList, "--".toList, [], "copyq:".toList]]] := by
  constructor
  · rfl
  · rfl


/-- C29: output splitting does not depend on how the output is chunked: with
text output, a non-empty separator, a destination and an empty text buffer,
when the chunks `b1` and `b2` decode to c1 and c2 and the chunk `b12` to
c1 ++ c2, processing `b1` and then `b2` with actionOutput emits in total the
same items in the same order, and leaves the same state (so the same
buffered remainder), as processing `b12`. -/
theorem actionOutput_chunking (env : Env) (a : Action) (b1 b2 b12 : QByteArray)
    (hfmt : hasTextOutput env a = true) (hsep : a.m_sep ≠ [])
    (hdest : a.m_indexValid = true ∨ a.m_tab ≠ []) (hbuf : a.m_lastOutput = [])
    (hdec : env.fromUtf8 (b12.getD [])
      = env.fromUtf8 (b1.getD []) ++ env.fromUtf8 (b2.getD [])) :
    emitted ((a.actionOutput env b1).2 ++ ((a.actionOutput env b1).1.actionOutput env b2).2)
        = emitted (a.actionOutput env b12).2
    ∧ ((a.actionOutput env b1).1.actionOutput env b2).1 = (a.actionOutput env b12).1 := by
  obtain ⟨s1, m1⟩ := actionOutput_pieces env a b1 hfmt hsep hdest
  obtain ⟨s12, m12⟩ := actionOutput_pieces env a b12 hfmt hsep hdest
  have hfmt1 : hasTextOutput env (a.actionOutput env b1).1 = true := by
    rw [s1]; exact hfmt
  have hsep1 : (a.actionOutput env b1).1.m_sep ≠ [] := by rw [s1]; exact hsep
  have hdest1 : (a.actionOutput env b1).1.m_indexValid = true
      ∨ (a.actionOutput env b1).1.m_tab ≠ [] := by rw [s1]; exact hdest
  obtain ⟨s2, m2⟩ := actionOutput_pieces env (a.actionOutput env b1).1 b2 hfmt1 hsep1 hdest1
  have hc := split_chunk a.m_sep hsep (env.fromUtf8 (b1.getD [])) (env.fromUtf8 (b2.getD []))
  have hnn := split_ne_nil
    ((split (env.fromUtf8 (b1.getD [])) a.m_sep).getLastD [] ++ env.fromUtf8 (b2.getD []))
    a.m_sep
  have hsepeq : (a.actionOutput env b1).1.m_sep = a.m_sep := by rw [s1]
  have hlast : (a.actionOutput env b1).1.m_lastOutput
      = (split (env.fromUtf8 (b1.getD [])) a.m_sep).getLastD [] := by
    rw [s1, hbuf]; rfl
  rw [hbuf, List.nil_append] at m1 m12 s12
  rw [hdec, hc] at m12 s12
  rw [hsepeq, hlast] at m2 s2
  constructor
  · rw [emitted_append, m1, m2, m12, List.dropLast_append_of_ne_nil _ hnn]
  · rw [s2, s12, s1]
    have hl : ∀ (A B : QStringList), B ≠ [] → (A ++ B).getLastD [] = B.getLastD [] := by
      intro A B hB
      simp only [List.getLastD_eq_getLast?, List.getLast?_append]
      cases hb : B.getLast? with
      | none => exact absurd (List.getLast?_eq_none_iff.mp hb) hB
      | some x => rfl
    rw [hl _ _ hnn]

/-- Witness of C29: with the separator `;;` the chunks `a;` and `;b;;c`, where
the separator straddles the boundary, give the item `a`, then the item `b`,
as the single chunk `a;;b;;c` does. -/
theorem actionOutput_chunking_witness :
    emitted (((Action.configured [] none "text/plain".toList ";;".toList "t".toList
          false).actionOutput exampleEnv (bytesOf "a;")).2
        ++ (((Action.configured [] none "text/plain".toList ";;".toList "t".toList
          false).actionOutput exampleEnv (bytesOf "a;")).1.actionOutput exampleEnv
            (bytesOf ";b;;c")).2)
      = emitted ((Action.configured [] none "text/plain".toList ";;".toList "t".toList
          false).actionOutput exampleEnv (bytesOf "a;;b;;c")).2
    ∧ emitted ((Action.configured [] none "text/plain".toList ";;".toList "t".toList
          false).actionOutput exampleEnv (bytesOf "a;;b;;c")).2 = ["a".toList, "b".toList] :=
  ⟨(actionOutput_chunking exampleEnv
      (Action.configured [] none "text/plain".toList ";;".toList "t".toList false)
      (bytesOf "a;") (bytesOf ";b;;c") (bytesOf "a;;b;;c") (by decide) (by decide)
      (Or.inr (by decide)) rfl (by decide)).1, by decide⟩


/-- C30: `browserRemoveRows` removes exactly the requested rows, in whatever
order they are given: for pairwise distinct rows within range, the items
afterwards are the original items without those at the requested positions,
the others in their original order; as many items are gone as rows were
given; and the same rows given in another order leave the same items. -/
theorem browserRemoveRows_any_order {α : Type} (items : List α) (rows rows2 : List Int)
    (hnd : rows.Nodup) (hin : ∀ r ∈ rows, 0 ≤ r ∧ r < items.length)
    (hperm : rows2.Perm rows) :
    browserRemoveRows (some items) rows = some (withoutRows rows 0 items)
    ∧ (withoutRows rows 0 items).length + rows.length = items.length
    ∧ browserRemoveRows (some items) rows2 = browserRemoveRows (some items) rows := by
  have h1 := browserRemoveRows_eq items rows hnd hin
  have h2 := browserRemoveRows_eq items rows2 (hperm.nodup_iff.mpr hnd)
    (fun r hr => hin r (hperm.mem_iff.mp hr))
  have h3 := browserRemoveRows_length items rows hnd hin
  refine ⟨h1, ?_, ?_⟩
  · have e : (qSortGreater rows).foldl removeRow items = withoutRows rows 0 items := by
      have := h1
      unfold browserRemoveRows at this
      exact Option.some.inj this
    rw [← e]
    exact h3
  · rw [h1, h2, withoutRows_congr rows2 rows items 0 (fun j _ => hperm.mem_iff)]

/-- Witness of C30: from the items a, b, c, d the rows 1, 3, 0, given in this
order or as 0, 1, 3, leave the item c. -/
theorem browserRemoveRows_any_order_witness :
    browserRemoveRows (some ["a", "b", "c", "d"]) [1, 3, 0] = some ["c"]
    ∧ browserRemoveRows (some ["a", "b", "c", "d"]) [0, 1, 3]
        = browserRemoveRows (some ["a", "b", "c", "d"]) [1, 3, 0] :=
  ⟨(browserRemoveRows_any_order ["a", "b", "c", "d"] [1, 3, 0] [0, 1, 3] (by decide)
      (by decide) (by decide)).1.trans (by decide),
    (browserRemoveRows_any_order ["a", "b", "c", "d"] [1, 3, 0] [0, 1, 3] (by decide)
      (by decide) (by decide)).2.2⟩


/-- C23: for an action `a` whose output format is not empty and not text and
whose byte buffer is empty, output notifications emit nothing and append
each chunk to the byte buffer; at finish, after the last read, with a
destination and accumulated bytes that are not empty the flush emits exactly
one item, the bytes of all chunks in order of arrival, and empties the byte
buffer, and `start` adds no item; without a destination nothing is emitted.
For an action `b` with an empty output format an output notification changes
nothing and emits nothing, and no run of events ever emits an item. -/
theorem output_not_text (env : Env) (a b : Action) (chunks : List QByteArray)
    (last : QByteArray) (events : List Event) (r : Action × List Effect)
    (hfmt : a.m_outputFormat ≠ []) (hnt : a.m_outputFormat ≠ env.mimeText)
    (hnull : a.m_outputData = none)
    (hb : b.m_outputFormat = []) (hbl : b.m_lastOutput = [])
    (hrun : Action.run env events b = some r) :
    (∃ a1 o f : Action × List Effect,
        Action.run env (chunks.map .readyReadStandardOutput) a = some a1
        ∧ a1.2 = [] ∧ a1.1 = { a with m_outputData := chunks.foldl byteArrayAppend none }
        ∧ a1.1.m_outputData.getD [] = allBytes chunks
        ∧ o = a1.1.actionOutput env last ∧ f = o.1.finishFlush env
        ∧ o.2 = [] ∧ o.1.m_outputData.getD [] = allBytes (chunks ++ [last])
        ∧ a1.1.actionFinished env last
            = (match f.1.start env with
               | none => none
               | some s => some (s.1, o.2 ++ f.2 ++ s.2))
        ∧ ((a.m_indexValid = true ∨ a.m_tab ≠ []) → allBytes (chunks ++ [last]) ≠ [] →
            f.2 = [.newItem (some (allBytes (chunks ++ [last]))) a.m_outputFormat
                    (if a.m_indexValid then Dest.index else Dest.tab a.m_tab)]
            ∧ f.1.m_outputData = none
            ∧ ∀ s, f.1.start env = some s → itemSignals (o.2 ++ f.2 ++ s.2) = f.2)
        ∧ (a.m_indexValid = false → a.m_tab = [] → f.2 = []))
    ∧ b.actionOutput env last = (b, [])
    ∧ (itemSignals r.2 = [] ∧ r.1.m_outputData = b.m_outputData
        ∧ r.1.m_lastOutput = b.m_lastOutput) := by
  refine ⟨?_, actionOutput_noFormat env b last hb, ?_⟩
  · have hrun1 := run_outputs_binary env chunks a hfmt hnt
    rw [hnull] at hrun1
    obtain ⟨a1, ha1⟩ : ∃ a1 : Action,
        a1 = { a with m_outputData := chunks.foldl byteArrayAppend none } := ⟨_, rfl⟩
    rw [← ha1] at hrun1
    have f1 : a1.m_outputFormat = a.m_outputFormat := by rw [ha1]
    have f2 : a1.m_indexValid = a.m_indexValid := by rw [ha1]
    have f3 : a1.m_tab = a.m_tab := by rw [ha1]
    have hd1 : a1.m_outputData.getD [] = allBytes chunks := by
      rw [ha1]
      simpa using foldl_byteArrayAppend chunks none
    have ho := actionOutput_binary env a1 last (by rw [f1]; exact hfmt) (by rw [f1]; exact hnt)
    obtain ⟨o1, ho1⟩ : ∃ o1 : Action,
        o1 = { a1 with m_outputData := byteArrayAppend a1.m_outputData last } := ⟨_, rfl⟩
    rw [← ho1] at ho
    have g1 : o1.m_outputFormat = a.m_outputFormat := by rw [ho1]; exact f1
    have g2 : o1.m_indexValid = a.m_indexValid := by rw [ho1]; exact f2
    have g3 : o1.m_tab = a.m_tab := by rw [ho1]; exact f3
    have hd2 : o1.m_outputData.getD [] = allBytes (chunks ++ [last]) := by
      rw [ho1]
      show (byteArrayAppend a1.m_outputData last).getD [] = _
      rw [byteArrayAppend_getD, hd1]
      simp [allBytes]
    obtain ⟨hfl1, hfl2⟩ := finishFlush_binary env o1 (by rw [g1]; exact hfmt)
      (by rw [g1]; exact hnt)
    refine ⟨(a1, []), (o1, []), o1.finishFlush env, hrun1, rfl, ha1, hd1, ho.symm, rfl, rfl,
      hd2, ?_, ?_, ?_⟩
    · show a1.actionFinished env last = _
      unfold Action.actionFinished
      rw [ho]
    · intro hd hne
      have e := hfl1 (by rw [g2, g3]; exact hd) (by rw [hd2]; exact hne)
      rw [e, hd2, g1, g2, g3]
      refine ⟨rfl, rfl, fun s hs => ?_⟩
      have := start_itemSignals env _ s hs
      rw [itemSignals_append, itemSignals_append, this]
      rfl
    · intro hi ht
      rw [hfl2 (by rw [g2]; exact hi) (by rw [g3]; exact ht)]
  · obtain ⟨-, q2, q3, q4⟩ := run_noFormat env events b r hb hbl hrun
    exact ⟨q4, q3, q2.trans hbl.symm⟩


/-- Witness of C23: an action with the format `image/png` and the tab `t` that
reads the chunks `ab` and `c` emits at finish the one item `abc`; an action
without output format that is started, reads `x` and finishes emits no item. -/
theorem output_not_text_witness :
    (∃ a1 o f : Action × List Effect,
        Action.run exampleEnv ([bytesOf "ab", bytesOf "c"].map .readyReadStandardOutput)
          (Action.configured [] none "image/png".toList [] "t".toList false) = some a1
        ∧ o = a1.1.actionOutput exampleEnv none ∧ f = o.1.finishFlush exampleEnv
        ∧ f.2 = [.newItem (some (allBytes ([bytesOf "ab", bytesOf "c"] ++ [none])))
                  "image/png".toList (Dest.tab "t".toList)]
        ∧ f.1.m_outputData = none)
    ∧ some (allBytes ([bytesOf "ab", bytesOf "c"] ++ [none])) = bytesOf "abc"
    ∧ (∃ r, Action.run exampleEnv [.start, .readyReadStandardOutput (bytesOf "x"),
          .finished none]
          (Action.configured [[["a".toList]]] none [] [] "t".toList false) = some r
        ∧ itemSignals r.2 = []) := by
  have h := output_not_text exampleEnv
    (Action.configured [] none "image/png".toList [] "t".toList false)
    (Action.configured [[["a".toList]]] none [] [] "t".toList false)
    [bytesOf "ab", bytesOf "c"] none
    [.start, .readyReadStandardOutput (bytesOf "x"), .finished none] _
    (by decide) (by decide) rfl rfl rfl rfl
  obtain ⟨⟨a1, o, f, h1, -, -, -, h5, h6, -, -, -, h10, -⟩, -, h12, -⟩ := h
  obtain ⟨h13, h14, -⟩ := h10 (Or.inr (by decide)) (by decide)
  exact ⟨⟨a1, o, f, h1, h5, h6, h13, h14⟩, by decide, ⟨_, rfl, h12⟩⟩


/-- C21, evaluated where it fails: for the line `a | b`, `start` starts the
stage `a` on a new process object and the stage `b` on the action itself.
With the identity 7 and an application environment without the variable, the
process of the stage `a` is started without `COPYQ_ACTION_ID`; only the
action itself, on which the constructor has set the environment, carries the
variable with the value 7. -/
theorem start_stage_without_action_id :
    ∃ (a2 : Action) (effs : List Effect),
      (Action.configured [[["a".toList], ["b".toList]]] none [] [] [] false).start exampleEnv
        = some (a2, effs)
      ∧ launches effs
          = [.start (.child 0) "a".toList [], .start .self "b".toList []]
      ∧ launchEnvironments [] 7 effs = [[], [("COPYQ_ACTION_ID".toList, "7".toList)]]
      ∧ (launchEnvironments [] 7 effs).map (fun e => envValue e "COPYQ_ACTION_ID".toList)
          = [none, some (number 7)] := by
  have h : (Action.configured [[["a".toList], ["b".toList]]] none [] [] [] false).start
      exampleEnv
      = some ({ Action.configured [[["a".toList], ["b".toList]]] none [] [] [] false with
                  m_currentLine := 0, m_firstProcess := some (.child 0), children := 1 },
          [.setStandardOutputProcess (.child 0) .self, .start (.child 0) "a".toList [],
           .closeReadChannel, .start .self "b".toList []]) := by
    decide
  exact ⟨_, _, h, by decide, by decide, by decide⟩

/-- C22, evaluated where it fails: for the entry named `count` with an integer
value the accepted dialog returns an entry named `value`, not `count`,
because `createWidget` passes the text `value` to `createSpinBox` as the name.
In general the result has one entry for each entry that is not a setting of
the dialog, in order, under the name of the entry except that every integer
entry is named `value`; on cancellation the result is empty. -/
theorem inputDialog_int_name (values : List NamedValue) (edited : Widget → QVariant) :
    (inputDialog [{ name := "count".toList, value := .int 5 }] true edited).map NamedValue.name
        = ["value".toList]
    ∧ (inputDialog [{ name := "count".toList, value := .int 5 }] true edited).map
        NamedValue.name ≠ ["count".toList]
    ∧ (inputDialog values true edited).map NamedValue.name
        = (values.filter (fun v => decide (v.name ∉ reservedNames))).map (fun v =>
            match v.value with
            | .int _ => "value".toList
            | _ => v.name)
    ∧ inputDialog values false edited = [] := by
  have h1 : (inputDialog [{ name := "count".toList, value := .int 5 }] true edited).map
      NamedValue.name = ["value".toList] := rfl
  refine ⟨h1, ?_, ?_, rfl⟩
  · rw [h1]
    decide
  · simp only [inputDialog, if_true, List.map_map]
    exact dialogWidgets_names edited values

end CopyQ
